import Mathlib

/-!
# Search server: a shallow embedding of `src/search-server/main.cpp`

Modelling conventions.

* A C++ `char` is a byte, `Fin 256`; a `std::string` is the list of its bytes.
* The values of a `double` are elements of a linearly ordered field `R`. Every operation on
  `double` that can round is the exact operation followed by a rounding `rnd : R → R`, which is a
  parameter of the member functions: sums, differences, products and quotients, the conversion of
  a `size_t`, and the literal `1e-6`. The conversion of an `int` and the literals `0.0` and `1.0`
  are exact. `std::log` is a parameter `ln : R → R`.
  * `rnd := roundDouble` on `R := ℚ` is binary64 arithmetic: rounding to the nearest number with
    a significand of 53 bits, ties to even, with gradual underflow. The exponent is not bounded
    above, so overflow is left out. This instance is executable.
  * `rnd := id` is exact arithmetic; with `R := ℝ` and `ln := Real.log` it is the reading of the
    relevances as real numbers.
* `int` is `Int`; a cast to `int` and an addition in `int` are reduced to 32 bits (`wrapInt32`).
  In `AddDocument` the quotient `1.0 / words.size()` is read only inside the loop over `words`,
  so its value for an empty `words` plays no part.
* `std::map` and `std::set` are lists in strictly ascending key order (their iteration order).
* A thrown exception is a value of `Error`; member functions that mutate the server return the
  server after the call together with the outcome.
* `std::sort` is modelled by a stable insertion sort driven by the same comparator. The standard
  fixes the result of `std::sort` only up to the order of elements that the comparator does not
  separate, and only for a comparator that is a strict weak order; what is proved of a sorted
  result here is that it is a permutation of the input and, under that condition, sorted.
-/

/-! ## Strings -/

/-- A C++ `char`, as its byte. -/
abbrev CChar := Fin 256

/-- A `std::string`, as the list of its bytes. -/
abbrev Str := List CChar

/-- The UTF-8 bytes of a string literal. -/
def bytes (s : String) : Str :=
  s.toList.flatMap (fun c => (String.utf8EncodeChar c).map (fun b => Fin.ofNat b.toNat))

/-- The character `' '`. -/
def cSpace : CChar := 32

/-- The character `'-'`. -/
def cMinus : CChar := 45

/-- The value of a `char` after integral promotion, `char` being signed. -/
def charToInt (c : CChar) : Int :=
  if c.val < 128 then (c.val : Int) else (c.val : Int) - 256

/-- The element `word[i]` of a string; `word[size()]` is the terminating null character. -/
def charAt (word : Str) (i : Nat) : CChar := word.getD i 0

/-! ## Binary64 arithmetic -/

/-- The position of the leading bit of `n`, found by halving at most `fuel` times. -/
def log2Fuel : Nat → Nat → Nat
  | 0, _ => 0
  | fuel + 1, n => if n < 2 then 0 else log2Fuel fuel (n / 2) + 1

/-- The binary exponent of a rational `x ≠ 0`: the integer `e` with `2 ^ e ≤ |x| < 2 ^ (e + 1)`. -/
def binaryExponent (x : ℚ) : Int :=
  let e0 : Int := (log2Fuel x.num.natAbs x.num.natAbs : Int) - (log2Fuel x.den x.den : Int)
  if (2 : ℚ) ^ e0 ≤ |x| then e0 else e0 - 1

/-- The integer nearest to `m`; of two nearest integers, the even one. -/
def roundHalfEven (m : ℚ) : Int :=
  let f := ⌊m⌋
  let r := m - f
  if r < 1 / 2 then f else if 1 / 2 < r then f + 1 else if f % 2 = 0 then f else f + 1

/-- The exponent of the unit in the last place of a binary64 number near `x`: 52 below the
binary exponent of `x` (a significand of 53 bits), and `-1074` at least (gradual underflow). -/
def ulpExponent (x : ℚ) : Int := max (binaryExponent x - 52) (-1074)

/-- The binary64 number nearest to a positive rational: the nearest multiple of the unit in the
last place. -/
def roundPos (x : ℚ) : ℚ :=
  let ulp : ℚ := 2 ^ ulpExponent x
  (roundHalfEven (x / ulp) : ℚ) * ulp

/-- The binary64 number nearest to a rational, ties to even. -/
def roundDouble (x : ℚ) : ℚ :=
  if 0 < x then roundPos x else if x < 0 then - roundPos (- x) else 0

/-- What the comparator of `FindTopDocuments` needs of the rounding: zero is kept, the rounding
commutes with negation, it is monotone, and the `double` of the literal `1e-6` is positive. -/
structure RoundsToNearest {R : Type} [LinearOrderedField R] (rnd : R → R) : Prop where
  map_zero : rnd 0 = 0
  map_neg : ∀ x, rnd (-x) = -rnd x
  monotone : ∀ x y, x ≤ y → rnd x ≤ rnd y
  eps_pos : 0 < rnd (1 / 1000000)

/-! ## Ordered containers -/

/-- A `std::map<K, V>`: its entries in ascending key order. -/
abbrev CMap (K V : Type) := List (K × V)

/-- A `std::set<K>`: its elements in ascending order. -/
abbrev CSet (K : Type) := List K

namespace CMap

variable {K V : Type} [LinearOrder K]

/-- The lookup behind `find`, `count` and `at`. -/
def find : CMap K V → K → Option V
  | [], _ => none
  | (k', v) :: rest, k => if k = k' then some v else find rest k

/-- The assignment `m[k] = v`: the entry for `k` is created in key order or overwritten. -/
def set : CMap K V → K → V → CMap K V
  | [], k, v => [(k, v)]
  | (k', v') :: rest, k, v =>
    if k < k' then (k, v) :: (k', v') :: rest
    else if k = k' then (k, v) :: rest
    else (k', v') :: set rest k v

/-- The call `m.emplace(k, v)`: nothing happens when the key is present. -/
def emplace (m : CMap K V) (k : K) (v : V) : CMap K V :=
  if (find m k).isSome then m else set m k v

/-- The call `m.erase(k)`. -/
def erase (m : CMap K V) (k : K) : CMap K V :=
  m.filter (fun e => decide (e.1 ≠ k))

/-- The keys in iteration order. -/
def keys (m : CMap K V) : List K := m.map Prod.fst

end CMap

namespace CSet

variable {K : Type} [LinearOrder K]

/-- The call `s.insert(k)`. -/
def insert : CSet K → K → CSet K
  | [], k => [k]
  | k' :: rest, k =>
    if k < k' then k :: k' :: rest
    else if k = k' then k' :: rest
    else k' :: insert rest k

/-- The test `s.count(k) > 0`. -/
def contains (s : CSet K) (k : K) : Bool := decide (k ∈ s)

end CSet

/-! ## Free functions and plain data -/

/-- The constant `MAX_RESULT_DOCUMENT_COUNT`. -/
def MAX_RESULT_DOCUMENT_COUNT : Nat := 5

/-- The loop of `SplitIntoWords`: the text still to read, `words` and `word`. -/
def SplitIntoWords.loop : Str → List Str → Str → List Str
  | [], words, word => if word ≠ [] then words ++ [word] else words
  | c :: text, words, word =>
    if c = cSpace then
      if word ≠ [] then SplitIntoWords.loop text (words ++ [word]) []
      else SplitIntoWords.loop text words word
    else SplitIntoWords.loop text words (word ++ [c])

/-- The function `SplitIntoWords`. -/
def SplitIntoWords (text : Str) : List Str :=
  SplitIntoWords.loop text [] []

/-- The enumeration `DocumentStatus`. -/
inductive DocumentStatus where
  | ACTUAL
  | IRRELEVANT
  | BANNED
  | REMOVED
  deriving DecidableEq, Repr

/-- The result record `Document`. -/
structure Document (R : Type) where
  id : Int
  relevance : R
  rating : Int
  deriving DecidableEq, Repr

/-- The exceptions the server throws. -/
inductive Error where
  | invalid_argument
  | out_of_range
  deriving DecidableEq, Repr

deriving instance DecidableEq for Except

/-- The private record `SearchServer::Query`. -/
structure Query where
  plus_words : CSet Str
  minus_words : CSet Str
  deriving DecidableEq, Repr

/-- The private record `SearchServer::DocumentData`. -/
structure DocumentData where
  rating : Int
  status : DocumentStatus
  deriving DecidableEq, Repr

/-- The data members of `class SearchServer`. -/
structure SearchServer (R : Type) where
  word_to_document_freqs_ : CMap Str (CMap Int R)
  documents_ : CMap Int DocumentData
  stop_words_ : CSet Str
  documents_index_ : List Int
  deriving DecidableEq, Repr

/-- Reduction of an integer to the range of a 32-bit `int`. -/
def wrapInt32 (x : Int) : Int := (x + 2147483648) % 4294967296 - 2147483648

namespace SearchServer

variable {R : Type} [LinearOrderedField R]

/-- The default constructor. -/
def empty : SearchServer R := ⟨[], [], [], []⟩

/-- The member `IsStopWord`. -/
def IsStopWord (s : SearchServer R) (word : Str) : Bool :=
  CSet.contains s.stop_words_ word

/-- The member `IsValidWord`: no character `c` with `c >= '\0' && c < ' '`. -/
def IsValidWord (word : Str) : Bool :=
  word.all (fun c => !(decide (charToInt c ≥ charToInt 0) && decide (charToInt c < charToInt cSpace)))

/-- The member `IsValidMinusWord`. -/
def IsValidMinusWord (word : Str) : Bool :=
  if word.isEmpty || decide (word = [cMinus])
      || (decide (charAt word 0 = cMinus) && decide (charAt word 1 = cMinus)) then false
  else true

/-- The loop of the constructors: every word is checked, then inserted. -/
def insertStopWords : List Str → SearchServer R → Except Error (SearchServer R)
  | [], s => .ok s
  | word :: rest, s =>
    if !IsValidWord word then .error Error.invalid_argument
    else insertStopWords rest { s with stop_words_ := CSet.insert s.stop_words_ word }

/-- The constructor `SearchServer(const string& stop_words)`. -/
def ofString (stop_words : Str) : Except Error (SearchServer R) :=
  insertStopWords (SplitIntoWords stop_words) empty

/-- The constructor `SearchServer(const StringCollection& stop_words)`. -/
def ofCollection (stop_words : List Str) : Except Error (SearchServer R) :=
  insertStopWords
    (SplitIntoWords (stop_words.foldl (fun stop_words_text text => stop_words_text ++ [cSpace] ++ text) []))
    empty

/-- The loop of `SplitIntoWordsNoStop`: the words still to read and `words`. -/
def SplitIntoWordsNoStop.loop (s : SearchServer R) : List Str → List Str → Except Error (List Str)
  | [], words => .ok words
  | word :: rest, words =>
    if !IsValidWord word then .error Error.invalid_argument
    else if !IsStopWord s word then SplitIntoWordsNoStop.loop s rest (words ++ [word])
    else SplitIntoWordsNoStop.loop s rest words

/-- The member `SplitIntoWordsNoStop`. -/
def SplitIntoWordsNoStop (s : SearchServer R) (text : Str) : Except Error (List Str) :=
  SplitIntoWordsNoStop.loop s (SplitIntoWords text) []

/-- The member `ComputeAverageRating`; `accumulate` adds in `int`. -/
def ComputeAverageRating (ratings : List Int) : Int :=
  if ratings.isEmpty then 0
  else Int.tdiv (ratings.foldl (fun acc r => wrapInt32 (acc + r)) 0) (wrapInt32 (ratings.length : Int))

/-- The statement `word_to_document_freqs_[word][document_id] += freq_num`. -/
def addFreq (rnd : R → R) (m : CMap Str (CMap Int R)) (word : Str) (document_id : Int)
    (freq_num : R) : CMap Str (CMap Int R) :=
  let inner := (CMap.find m word).getD []
  CMap.set m word
    (CMap.set inner document_id (rnd ((CMap.find inner document_id).getD 0 + freq_num)))

/-- The value of a `double` after `k` times the statement `x += freq_num`. -/
def addRepeatedly (rnd : R → R) (freq_num : R) : Nat → R → R
  | 0, x => x
  | k + 1, x => addRepeatedly rnd freq_num k (rnd (x + freq_num))

/-- The member `AddDocument`: the outcome and the server after the call. -/
def AddDocument (rnd : R → R) (s : SearchServer R) (document_id : Int) (document : Str)
    (status : DocumentStatus) (ratings : List Int) : Except Error Unit × SearchServer R :=
  if document_id < 0 then (.error Error.invalid_argument, s)
  else if (CMap.find s.documents_ document_id).isSome then (.error Error.invalid_argument, s)
  else
    match SplitIntoWordsNoStop s document with
    | .error e => (.error e, s)
    | .ok words =>
      let freq_num : R := rnd (1 / rnd (words.length : R))
      let s1 : SearchServer R := { s with
        word_to_document_freqs_ :=
          (words.foldl (fun m word => addFreq rnd m word document_id freq_num)
            s.word_to_document_freqs_) }
      let s2 : SearchServer R := { s1 with
        documents_ := (CMap.emplace s1.documents_ document_id ⟨ComputeAverageRating ratings, status⟩) }
      let s3 : SearchServer R := { s2 with documents_index_ := (s2.documents_index_ ++ [document_id]) }
      (.ok (), s3)

/-- The member `GetDocumentCount`. -/
def GetDocumentCount (s : SearchServer R) : Int := wrapInt32 (s.documents_.length : Int)

/-- The body of the loop of `ParseQuery`. -/
def parseWord (s : SearchServer R) (query : Query) (word : Str) : Query :=
  if charAt word 0 = cMinus then
    let word := word.drop 1
    let query : Query :=
      if !IsStopWord s word then { query with minus_words := (CSet.insert query.minus_words word) }
      else query
    { query with plus_words := (CSet.insert query.plus_words word) }
  else { query with plus_words := (CSet.insert query.plus_words word) }

/-- The member `ParseQuery`. -/
def ParseQuery (s : SearchServer R) (text : Str) : Except Error Query :=
  match SplitIntoWordsNoStop s text with
  | .error e => .error e
  | .ok words => .ok (words.foldl (parseWord s) ⟨[], []⟩)

/-- The member `IDFCount`. -/
def IDFCount (rnd ln : R → R) (s : SearchServer R) (size : Nat) : R :=
  ln (rnd (rnd ((GetDocumentCount s : R) * 1) / rnd (size : R)))

/-- The inner loop of the first phase of `FindAllDocuments`, over the postings of one plus word;
`size` is the number of postings of that word. -/
def scorePostings (rnd ln : R → R) (s : SearchServer R)
    (predicate : Int → DocumentStatus → Int → Bool) (size : Nat) :
    List (Int × R) → CMap Int R → Except Error (CMap Int R)
  | [], document_to_relevance => .ok document_to_relevance
  | document_id_term_freq :: rest, document_to_relevance =>
    match CMap.find s.documents_ document_id_term_freq.1 with
    | none => .error Error.out_of_range
    | some documents_data =>
      if predicate document_id_term_freq.1 documents_data.status documents_data.rating then
        let IDF := IDFCount rnd ln s size
        scorePostings rnd ln s predicate size rest
          (CMap.set document_to_relevance document_id_term_freq.1
            (rnd ((CMap.find document_to_relevance document_id_term_freq.1).getD 0
              + rnd (IDF * document_id_term_freq.2))))
      else scorePostings rnd ln s predicate size rest document_to_relevance

/-- The first phase of `FindAllDocuments`: the loop over the plus words. -/
def scorePlusWords (rnd ln : R → R) (s : SearchServer R)
    (predicate : Int → DocumentStatus → Int → Bool) :
    List Str → CMap Int R → Except Error (CMap Int R)
  | [], document_to_relevance => .ok document_to_relevance
  | word :: rest, document_to_relevance =>
    match CMap.find s.word_to_document_freqs_ word with
    | none => scorePlusWords rnd ln s predicate rest document_to_relevance
    | some postings =>
      match scorePostings rnd ln s predicate postings.length postings document_to_relevance with
      | .error e => .error e
      | .ok document_to_relevance => scorePlusWords rnd ln s predicate rest document_to_relevance

/-- The second phase of `FindAllDocuments`: the loop over the minus words. -/
def eraseMinusWords (s : SearchServer R) : List Str → CMap Int R → CMap Int R
  | [], document_to_relevance => document_to_relevance
  | word :: rest, document_to_relevance =>
    match CMap.find s.word_to_document_freqs_ word with
    | none => eraseMinusWords s rest document_to_relevance
    | some postings =>
      eraseMinusWords s rest
        (postings.foldl (fun document_to_relevance doc => CMap.erase document_to_relevance doc.1)
          document_to_relevance)

/-- The last phase of `FindAllDocuments`: the records are built in ascending id order. -/
def buildDocuments (s : SearchServer R) : List (Int × R) → List (Document R) →
    Except Error (List (Document R))
  | [], matched_documents => .ok matched_documents
  | document :: rest, matched_documents =>
    match CMap.find s.documents_ document.1 with
    | none => .error Error.out_of_range
    | some data => buildDocuments s rest (matched_documents ++ [⟨document.1, document.2, data.rating⟩])

/-- The member `FindAllDocuments`. -/
def FindAllDocuments (rnd ln : R → R) (s : SearchServer R) (query : Query)
    (predicate : Int → DocumentStatus → Int → Bool) : Except Error (List (Document R)) :=
  match scorePlusWords rnd ln s predicate query.plus_words [] with
  | .error e => .error e
  | .ok document_to_relevance =>
    buildDocuments s (eraseMinusWords s query.minus_words document_to_relevance) []

/-- The constant `EPSILON` of the comparator: the `double` of the literal `1e-6`. -/
def EPSILON (rnd : R → R) : R := rnd (1 / 1000000)

/-- The comparator passed to `sort` in `FindTopDocuments`. -/
def compareDocuments (rnd : R → R) (lhs rhs : Document R) : Bool :=
  if abs (rnd (lhs.relevance - rhs.relevance)) < EPSILON rnd then decide (lhs.rating > rhs.rating)
  else decide (lhs.relevance > rhs.relevance)

end SearchServer

/-- One insertion step of the sort: `x` is placed after the leading elements that precede it. -/
def sortInsert {α : Type} (comp : α → α → Bool) (x : α) : List α → List α
  | [] => [x]
  | y :: rest => if comp y x then y :: sortInsert comp x rest else x :: y :: rest

/-- The call `sort(first, last, comp)`, as a stable insertion sort. What the standard fixes of
`std::sort` is that the result is a permutation of the input and, for a comparator that is a
strict weak order on the input, that it is sorted; the theorems on results of more than one
record use no more than that. -/
def stdSort {α : Type} (comp : α → α → Bool) : List α → List α
  | [] => []
  | x :: rest => sortInsert comp x (stdSort comp rest)

namespace SearchServer

variable {R : Type} [LinearOrderedField R]

/-- The validation loop at the head of `FindTopDocuments` and `MatchDocument`. -/
def checkQueryWords : List Str → Except Error Unit
  | [] => .ok ()
  | word :: rest =>
    if !IsValidWord word || !IsValidMinusWord word then .error Error.invalid_argument
    else checkQueryWords rest

/-- The member `FindTopDocuments` taking a predicate. -/
def FindTopDocuments (rnd ln : R → R) (s : SearchServer R) (raw_query : Str)
    (document_predicate : Int → DocumentStatus → Int → Bool) : Except Error (List (Document R)) :=
  if raw_query.isEmpty then .error Error.invalid_argument
  else
    match checkQueryWords (SplitIntoWords raw_query) with
    | .error e => .error e
    | .ok _ =>
      match ParseQuery s raw_query with
      | .error e => .error e
      | .ok query =>
        match FindAllDocuments rnd ln s query document_predicate with
        | .error e => .error e
        | .ok matched_documents =>
          let matched_documents := stdSort (compareDocuments rnd) matched_documents
          if matched_documents.length > MAX_RESULT_DOCUMENT_COUNT then
            .ok (matched_documents.take MAX_RESULT_DOCUMENT_COUNT)
          else .ok matched_documents

/-- The first loop of `MatchDocument`, over the plus words. -/
def matchPlusWords (s : SearchServer R) (document_id : Int) : List Str → List Str → List Str
  | [], matched_words => matched_words
  | word :: rest, matched_words =>
    match CMap.find s.word_to_document_freqs_ word with
    | none => matchPlusWords s document_id rest matched_words
    | some postings =>
      if (CMap.find postings document_id).isSome then
        matchPlusWords s document_id rest (matched_words ++ [word])
      else matchPlusWords s document_id rest matched_words

/-- The second loop of `MatchDocument`, over the minus words; it stops at the first match. -/
def matchMinusWords (s : SearchServer R) (document_id : Int) : List Str → List Str → List Str
  | [], matched_words => matched_words
  | word :: rest, matched_words =>
    match CMap.find s.word_to_document_freqs_ word with
    | none => matchMinusWords s document_id rest matched_words
    | some postings =>
      if (CMap.find postings document_id).isSome then []
      else matchMinusWords s document_id rest matched_words

/-- The member `MatchDocument`. -/
def MatchDocument (s : SearchServer R) (raw_query : Str) (document_id : Int) :
    Except Error (List Str × DocumentStatus) :=
  if raw_query.isEmpty then .error Error.invalid_argument
  else
    match checkQueryWords (SplitIntoWords raw_query) with
    | .error e => .error e
    | .ok _ =>
      match ParseQuery s raw_query with
      | .error e => .error e
      | .ok query =>
        let matched_words :=
          matchMinusWords s document_id query.minus_words
            (matchPlusWords s document_id query.plus_words [])
        match CMap.find s.documents_ document_id with
        | none => .error Error.out_of_range
        | some data => .ok (matched_words, data.status)

/-- The member `GetDocumentId`. -/
def GetDocumentId (s : SearchServer R) (index : Int) : Except Error Int :=
  if index ≥ 0 ∧ index < wrapInt32 (s.documents_.length : Int) then
    match s.documents_index_.get? index.toNat with
    | some document_id => .ok document_id
    | none => .error Error.out_of_range
  else .error Error.out_of_range

end SearchServer

/-! ## Sequences of calls and reachable servers -/

/-- The arguments of one call of `AddDocument`. -/
structure AddCall where
  document_id : Int
  document : Str
  status : DocumentStatus
  ratings : List Int
  deriving DecidableEq, Repr

namespace SearchServer

variable {R : Type} [LinearOrderedField R]

/-- A server as one of the three constructors leaves it. -/
def Constructed (s : SearchServer R) : Prop :=
  s = empty ∨ (∃ stop_words : Str, ofString stop_words = .ok s)
    ∨ (∃ stop_words : List Str, ofCollection stop_words = .ok s)

/-- The server after one call of `AddDocument`, whether it threw or not. -/
def addCall (rnd : R → R) (s : SearchServer R) (c : AddCall) : SearchServer R :=
  (AddDocument rnd s c.document_id c.document c.status c.ratings).2

/-- Whether one call of `AddDocument` returns normally. -/
def callSucceeds (rnd : R → R) (s : SearchServer R) (c : AddCall) : Bool :=
  match (AddDocument rnd s c.document_id c.document c.status c.ratings).1 with
  | .ok _ => true
  | .error _ => false

/-- The server after a sequence of calls of `AddDocument`, in call order. -/
def addCalls (rnd : R → R) (s : SearchServer R) : List AddCall → SearchServer R
  | [] => s
  | c :: rest => addCalls rnd (addCall rnd s c) rest

/-- The ids of the calls of a sequence that returned normally, in call order. -/
def succeededIds (rnd : R → R) (s : SearchServer R) : List AddCall → List Int
  | [] => []
  | c :: rest =>
    if callSucceeds rnd s c then c.document_id :: succeededIds rnd (addCall rnd s c) rest
    else succeededIds rnd (addCall rnd s c) rest

/-- A server reached from construction by calls of `AddDocument`. -/
def Reachable (rnd : R → R) (s : SearchServer R) : Prop :=
  ∃ (s0 : SearchServer R) (calls : List AddCall), Constructed s0 ∧ s = addCalls rnd s0 calls

/-- The invariant of the index: every posting list is in strictly ascending id order and holds
only ids of the document table, whose keys are in strictly ascending order as well. -/
structure WellFormed (s : SearchServer R) : Prop where
  postings_sorted : ∀ w p, CMap.find s.word_to_document_freqs_ w = some p →
    (CMap.keys p).Pairwise (· < ·)
  postings_stored : ∀ w p, CMap.find s.word_to_document_freqs_ w = some p →
    ∀ id ∈ CMap.keys p, (CMap.find s.documents_ id).isSome = true
  documents_sorted : (CMap.keys s.documents_).Pairwise (· < ·)

/-- The entry of an inverted index for a word and a document id, if there is one. -/
def postingOf (m : CMap Str (CMap Int R)) (word : Str) (document_id : Int) : Option R :=
  match CMap.find m word with
  | none => none
  | some postings => CMap.find postings document_id

/-- Whether the postings of `word` have an entry for the document `document_id`. -/
def hasPosting (s : SearchServer R) (word : Str) (document_id : Int) : Bool :=
  (postingOf s.word_to_document_freqs_ word document_id).isSome

/-- The term frequency stored for `word` in the document `document_id` (zero without a posting). -/
def termFreq [Zero R] (s : SearchServer R) (word : Str) (document_id : Int) : R :=
  (postingOf s.word_to_document_freqs_ word document_id).getD 0

/-- The number of documents in the postings of `word`. -/
def docFreq (s : SearchServer R) (word : Str) : Nat :=
  match CMap.find s.word_to_document_freqs_ word with
  | none => 0
  | some postings => postings.length

/-- Whether the predicate holds of a document id with its stored status and rating. -/
def predicateHolds (s : SearchServer R) (predicate : Int → DocumentStatus → Int → Bool)
    (document_id : Int) : Bool :=
  match CMap.find s.documents_ document_id with
  | none => false
  | some data => predicate document_id data.status data.rating

/-- Whether a document carries a plus word of the query, satisfies the predicate and carries no
minus word of the query. -/
def isMatch (s : SearchServer R) (query : Query) (predicate : Int → DocumentStatus → Int → Bool)
    (document_id : Int) : Bool :=
  query.plus_words.any (fun w => hasPosting s w document_id)
    && predicateHolds s predicate document_id
    && !query.minus_words.any (fun w => hasPosting s w document_id)

/-- The stored documents that match a query under a predicate. -/
def matchingDocuments (s : SearchServer R) (query : Query)
    (predicate : Int → DocumentStatus → Int → Bool) : List Int :=
  (CMap.keys s.documents_).filter (fun document_id => isMatch s query predicate document_id)

/-- The statement `document_to_relevance[document_id] += IDF * term_freq` for the plus word
`word`, on the value `acc` of `document_to_relevance[document_id]`. -/
def addScore (rnd ln : R → R) (s : SearchServer R) (document_id : Int) (acc : R) (word : Str) : R :=
  rnd (acc + rnd (IDFCount rnd ln s (docFreq s word) * termFreq s word document_id))

/-- The relevance that the first phase of `FindAllDocuments` accumulates for a document: the
statement `relevance += IDF * term_freq` for each plus word of the query that has a posting for
it, in ascending order of the words, from `0.0`. -/
def relevance (rnd ln : R → R) (s : SearchServer R) (query : Query) (document_id : Int) : R :=
  (query.plus_words.filter (fun w => hasPosting s w document_id)).foldl
    (addScore rnd ln s document_id) 0

/-- The TF-IDF sum of a document over the plus words of a query that have a posting for it. -/
def tfIdf (ln : R → R) (s : SearchServer R) (query : Query) (document_id : Int) : R :=
  ((query.plus_words.filter (fun w => hasPosting s w document_id)).map
    (fun w => ln ((GetDocumentCount s : R) / (docFreq s w : R)) * termFreq s w document_id)).sum

/-- The rating stored for a document id (zero for an id that is not stored). -/
def storedRating (s : SearchServer R) (document_id : Int) : Int :=
  match CMap.find s.documents_ document_id with
  | none => 0
  | some data => data.rating

/-- The calls `AddDocument(i, "", ACTUAL, {})` for `i = 0, ..., n - 1`. -/
def countingCalls (n : Nat) : List AddCall :=
  (List.range n).map (fun (i : Nat) => (⟨(i : Int), [], DocumentStatus.ACTUAL, []⟩ : AddCall))

/-- The server of `main` before any document is added. -/
def mainServer (R : Type) : SearchServer R :=
  match ofString (bytes "и в на") with
  | .ok s => s
  | .error _ => SearchServer.empty

/-- The calls of `AddDocument` made by `main` and `TestErrors`, in order. -/
def mainCalls : List AddCall :=
  [⟨1, bytes "пушистый кот пушистый хвост", DocumentStatus.ACTUAL, [7, 2, 7]⟩,
   ⟨1, bytes "пушистый пёс и модный ошейник", DocumentStatus.ACTUAL, [1, 2]⟩,
   ⟨-1, bytes "пушистый пёс и модный ошейник", DocumentStatus.ACTUAL, [1, 2]⟩,
   ⟨3, bytes "большой пёс скво\x12рец", DocumentStatus.ACTUAL, [1, 2]⟩]

end SearchServer

/-! ## Texts made of words and spaces -/

/-- A run of `n` space characters. -/
def spaces (n : Nat) : Str := List.replicate n cSpace

/-- The text made of `lead` spaces and then each word followed by its run of spaces: the run after
the last word has as many spaces as its number says, a run between two words one more. -/
def spacedText : Nat → List (Str × Nat) → Str
  | lead, [] => spaces lead
  | lead, [(word, gap)] => spaces lead ++ word ++ spaces gap
  | lead, (word, gap) :: next :: rest => spaces lead ++ word ++ spacedText (gap + 1) (next :: rest)

namespace SearchServer

variable {R : Type}

/-- The words of a text that are not stop words: what `SplitIntoWordsNoStop` returns when it
does not throw. -/
def nonStopWords (s : SearchServer R) (text : Str) : List Str :=
  (SplitIntoWords text).filter (fun w => !IsStopWord s w)

end SearchServer


/-! ## Lemmas on the ordered containers -/

namespace CMap

variable {K V : Type} [LinearOrder K]

theorem find_set (m : CMap K V) (k : K) (v : V) (k' : K) :
    find (set m k v) k' = if k' = k then some v else find m k' := by
  induction m with
  | nil => simp [set, find]
  | cons e rest ih =>
    obtain ⟨k0, v0⟩ := e
    by_cases hk : k' = k
    · subst hk
      simp only [set, if_true]
      by_cases h1 : k' < k0
      · simp [h1, find]
      · by_cases h2 : k' = k0
        · simp [h1, h2, find]
        · simp [h1, h2, find, ih]
    · simp only [set, hk, if_false]
      by_cases h1 : k < k0
      · simp [h1, find, hk]
      · by_cases h2 : k = k0
        · subst h2
          simp [h1, find, hk]
        · simp only [h1, h2, if_false, find, ih, hk]

theorem find_isSome_iff (m : CMap K V) (k : K) : (find m k).isSome = true ↔ k ∈ keys m := by
  induction m with
  | nil => simp [find, keys]
  | cons e rest ih =>
    obtain ⟨k0, v0⟩ := e
    by_cases h : k = k0
    · simp [find, keys, h]
    · simp only [find, h, if_false, keys, List.map_cons, List.mem_cons, false_or]
      exact ih

theorem find_eq_none_iff (m : CMap K V) (k : K) : find m k = none ↔ k ∉ keys m := by
  rw [← find_isSome_iff]
  cases find m k <;> simp

theorem mem_of_find {m : CMap K V} {k : K} {v : V} (h : find m k = some v) : (k, v) ∈ m := by
  induction m with
  | nil => simp [find] at h
  | cons e rest ih =>
    obtain ⟨k0, v0⟩ := e
    by_cases h1 : k = k0
    · simp [find, h1] at h
      simp [h1, h]
    · simp only [find, h1, if_false] at h
      exact List.mem_cons_of_mem _ (ih h)

theorem find_of_mem {m : CMap K V} (hs : (keys m).Pairwise (· < ·)) {k : K} {v : V}
    (h : (k, v) ∈ m) : find m k = some v := by
  induction m with
  | nil => simp at h
  | cons e rest ih =>
    obtain ⟨k0, v0⟩ := e
    simp only [keys, List.map_cons, List.pairwise_cons] at hs
    rcases List.mem_cons.1 h with h1 | h1
    · cases h1
      simp [find]
    · have hk : k ∈ keys rest := List.mem_map.2 ⟨(k, v), h1, rfl⟩
      have hlt : k0 < k := hs.1 k hk
      have hne : ¬ k = k0 := fun e => by subst e; exact lt_irrefl _ hlt
      simp only [find, hne, if_false]
      exact ih hs.2 h1

theorem mem_keys_set (m : CMap K V) (k : K) (v : V) (x : K) :
    x ∈ keys (set m k v) ↔ x = k ∨ x ∈ keys m := by
  rw [← find_isSome_iff, ← find_isSome_iff, find_set]
  by_cases h : x = k <;> simp [h]

theorem sorted_set {m : CMap K V} (hs : (keys m).Pairwise (· < ·)) (k : K) (v : V) :
    (keys (set m k v)).Pairwise (· < ·) := by
  induction m with
  | nil => simp [set, keys]
  | cons e rest ih =>
    obtain ⟨k0, v0⟩ := e
    have hs' := hs
    simp only [keys, List.map_cons, List.pairwise_cons] at hs
    simp only [set]
    split_ifs with h1 h2
    · simp only [keys, List.map_cons, List.pairwise_cons, List.mem_cons]
      refine ⟨?_, hs⟩
      intro a ha
      rcases ha with ha | ha
      · subst ha; exact h1
      · exact lt_trans h1 (hs.1 a ha)
    · subst h2
      simpa [keys] using hs
    · have h3 : k0 < k := lt_of_le_of_ne (not_lt.1 h1) (fun e => h2 e.symm)
      have := ih hs.2
      simp only [keys, List.map_cons, List.pairwise_cons]
      refine ⟨?_, this⟩
      intro a ha
      have ha' : a ∈ keys (set rest k v) := ha
      rw [mem_keys_set] at ha'
      rcases ha' with ha' | ha'
      · subst ha'; exact h3
      · exact hs.1 a ha'

theorem length_set_of_not_mem {m : CMap K V} {k : K} (h : k ∉ keys m) (v : V) :
    (set m k v).length = m.length + 1 := by
  induction m with
  | nil => simp [set]
  | cons e rest ih =>
    obtain ⟨k0, v0⟩ := e
    simp only [keys, List.map_cons, List.mem_cons, not_or] at h
    simp only [set]
    split_ifs with h1 h2
    · simp
    · exact absurd h2 h.1
    · simp [ih h.2]

theorem find_erase (m : CMap K V) (k k' : K) :
    find (erase m k) k' = if k' = k then none else find m k' := by
  induction m with
  | nil => simp [erase, find]
  | cons e rest ih =>
    obtain ⟨k0, v0⟩ := e
    simp only [erase] at ih ⊢
    by_cases h0 : k0 = k
    · subst h0
      simp only [List.filter_cons, ne_eq, not_true_eq_false, decide_False]
      simp only [Bool.false_eq_true, if_false]
      rw [ih]
      by_cases h1 : k' = k0
      · simp [h1]
      · simp [h1, find]
    · simp only [List.filter_cons, ne_eq, h0, not_false_eq_true, decide_True, if_true]
      by_cases h1 : k' = k0
      · have : ¬ k' = k := fun e => h0 (h1 ▸ e)
        simp [find, h1, h0]
      · simp only [find, h1, if_false]
        exact ih

theorem sorted_erase {m : CMap K V} (hs : (keys m).Pairwise (· < ·)) (k : K) :
    (keys (erase m k)).Pairwise (· < ·) := by
  unfold keys erase at *
  exact hs.sublist ((List.filter_sublist m).map Prod.fst)

end CMap

namespace CSet

variable {K : Type} [LinearOrder K]

theorem mem_insert (s : CSet K) (k x : K) : x ∈ insert s k ↔ x = k ∨ x ∈ s := by
  induction s with
  | nil => simp [insert]
  | cons k0 rest ih =>
    simp only [insert]
    split_ifs with h1 h2
    · simp
    · subst h2; simp
    · simp only [List.mem_cons, ih]
      tauto

theorem sorted_insert {s : CSet K} (hs : s.Pairwise (· < ·)) (k : K) :
    (insert s k).Pairwise (· < ·) := by
  induction s with
  | nil => simp [insert]
  | cons k0 rest ih =>
    simp only [List.pairwise_cons] at hs
    simp only [insert]
    split_ifs with h1 h2
    · simp only [List.pairwise_cons, List.mem_cons]
      refine ⟨?_, hs⟩
      intro a ha
      rcases ha with ha | ha
      · subst ha; exact h1
      · exact lt_trans h1 (hs.1 a ha)
    · simpa using hs
    · have h3 : k0 < k := lt_of_le_of_ne (not_lt.1 h1) (fun e => h2 e.symm)
      simp only [List.pairwise_cons]
      refine ⟨?_, ih hs.2⟩
      intro a ha
      rw [mem_insert] at ha
      rcases ha with ha | ha
      · subst ha; exact h3
      · exact hs.1 a ha

end CSet


/-! ## The outcome of `AddDocument` and of sequences of calls -/

theorem wrapInt32_add (a r : Int) : wrapInt32 (wrapInt32 a + r) = wrapInt32 (a + r) := by
  unfold wrapInt32
  omega

theorem wrapInt32_of_fits (x : Int) (hlo : -2147483648 ≤ x) (hhi : x < 2147483648) :
    wrapInt32 x = x := by
  unfold wrapInt32
  omega

namespace SearchServer

variable {R : Type} {rnd : R → R}

theorem noStop_loop (s : SearchServer R) (ws acc : List Str) :
    SplitIntoWordsNoStop.loop s ws acc =
      if ws.all IsValidWord then .ok (acc ++ ws.filter (fun w => !IsStopWord s w))
      else .error Error.invalid_argument := by
  induction ws generalizing acc with
  | nil => simp [SplitIntoWordsNoStop.loop]
  | cons w rest ih =>
    simp only [SplitIntoWordsNoStop.loop]
    by_cases hv : IsValidWord w = true
    · by_cases hst : IsStopWord s w = true
      · simp [hv, hst, ih]
      · simp [hv, hst, ih]
    · simp [hv]

theorem noStop_eq (s : SearchServer R) (text : Str) :
    SplitIntoWordsNoStop s text =
      if (SplitIntoWords text).all IsValidWord
      then .ok ((SplitIntoWords text).filter (fun w => !IsStopWord s w))
      else .error Error.invalid_argument := by
  simp [SplitIntoWordsNoStop, noStop_loop]

/-- The server that a call of `AddDocument` leaves when it returns normally. -/
theorem addDocument_eq [LinearOrderedField R] (s : SearchServer R) (document_id : Int) (document : Str)
    (status : DocumentStatus) (ratings : List Int) :
    AddDocument rnd s document_id document status ratings =
      if document_id < 0 ∨ (CMap.find s.documents_ document_id).isSome = true
          ∨ ∃ w ∈ SplitIntoWords document, IsValidWord w = false
      then (.error Error.invalid_argument, s)
      else (.ok (),
        { word_to_document_freqs_ :=
            ((SplitIntoWords document).filter (fun w => !IsStopWord s w)).foldl
              (fun m word => addFreq rnd m word document_id
                (rnd (1 / rnd ((((SplitIntoWords document).filter (fun w => !IsStopWord s w)).length : Nat) : R))))
              s.word_to_document_freqs_,
          documents_ := CMap.set s.documents_ document_id ⟨ComputeAverageRating ratings, status⟩,
          stop_words_ := s.stop_words_,
          documents_index_ := s.documents_index_ ++ [document_id] }) := by
  unfold AddDocument
  by_cases h1 : document_id < 0
  · simp [h1]
  · by_cases h2 : (CMap.find s.documents_ document_id).isSome = true
    · simp [h1, h2]
    · simp only [h1, h2, if_false, false_or]
      rw [noStop_eq]
      by_cases h3 : (SplitIntoWords document).all IsValidWord = true
      · have h3' : ¬ ∃ w ∈ SplitIntoWords document, IsValidWord w = false := by
          simp only [List.all_eq_true] at h3
          rintro ⟨w, hw, hf⟩
          rw [h3 w hw] at hf
          exact Bool.noConfusion hf
        simp only [h3, if_true, h3', if_false, CMap.emplace, h2]
        simp
      · have h3' : ∃ w ∈ SplitIntoWords document, IsValidWord w = false := by
          simp only [List.all_eq_true, not_forall] at h3
          obtain ⟨w, hw, hf⟩ := h3
          exact ⟨w, hw, by simpa using hf⟩
        simp only [h3, if_false, h3', if_true]
        simp

theorem insertStopWords_fields (ws : List Str) (s s' : SearchServer R)
    (h : insertStopWords ws s = .ok s') :
    s'.word_to_document_freqs_ = s.word_to_document_freqs_ ∧ s'.documents_ = s.documents_
      ∧ s'.documents_index_ = s.documents_index_ := by
  induction ws generalizing s with
  | nil =>
    simp only [insertStopWords, Except.ok.injEq] at h
    subst h
    exact ⟨rfl, rfl, rfl⟩
  | cons w rest ih =>
    simp only [insertStopWords] at h
    split_ifs at h with hv
    exact ih { s with stop_words_ := CSet.insert s.stop_words_ w } h

theorem constructed_fields {s : SearchServer R} (h : Constructed s) :
    s.word_to_document_freqs_ = [] ∧ s.documents_ = [] ∧ s.documents_index_ = [] := by
  rcases h with h | ⟨t, h⟩ | ⟨c, h⟩
  · subst h; exact ⟨rfl, rfl, rfl⟩
  · exact insertStopWords_fields _ _ _ h
  · exact insertStopWords_fields _ _ _ h

theorem callSucceeds_iff [LinearOrderedField R] (s : SearchServer R) (c : AddCall) :
    callSucceeds rnd s c = true ↔
      ¬ (c.document_id < 0 ∨ (CMap.find s.documents_ c.document_id).isSome = true
          ∨ ∃ w ∈ SplitIntoWords c.document, IsValidWord w = false) := by
  unfold callSucceeds
  rw [addDocument_eq]
  split_ifs with h <;> simp [h]

theorem addCall_of_fails [LinearOrderedField R] (s : SearchServer R) (c : AddCall)
    (h : callSucceeds rnd s c = false) : addCall rnd s c = s := by
  have h' : ¬ callSucceeds rnd s c = true := by simp [h]
  rw [callSucceeds_iff, not_not] at h'
  unfold addCall
  rw [addDocument_eq, if_pos h']

theorem addCall_of_succeeds [LinearOrderedField R] (s : SearchServer R) (c : AddCall)
    (h : callSucceeds rnd s c = true) :
    addCall rnd s c =
      { word_to_document_freqs_ :=
            ((SplitIntoWords c.document).filter (fun w => !IsStopWord s w)).foldl
              (fun m word => addFreq rnd m word c.document_id
                (rnd (1 / rnd ((((SplitIntoWords c.document).filter (fun w => !IsStopWord s w)).length : Nat) : R))))
              s.word_to_document_freqs_,
          documents_ := CMap.set s.documents_ c.document_id ⟨ComputeAverageRating c.ratings, c.status⟩,
          stop_words_ := s.stop_words_,
          documents_index_ := s.documents_index_ ++ [c.document_id] } := by
  rw [callSucceeds_iff] at h
  unfold addCall
  rw [addDocument_eq, if_neg h]

theorem addCalls_index_and_count [LinearOrderedField R] (s : SearchServer R) (calls : List AddCall) :
    (addCalls rnd s calls).documents_index_ = s.documents_index_ ++ succeededIds rnd s calls
      ∧ (addCalls rnd s calls).documents_.length = s.documents_.length + (succeededIds rnd s calls).length := by
  induction calls generalizing s with
  | nil => simp [addCalls, succeededIds]
  | cons c rest ih =>
    simp only [addCalls, succeededIds]
    by_cases hc : callSucceeds rnd s c = true
    · obtain ⟨h1, h2⟩ := ih (addCall rnd s c)
      rw [h1, h2, if_pos hc, addCall_of_succeeds s c hc]
      have hnot : c.document_id ∉ CMap.keys s.documents_ := by
        rw [callSucceeds_iff] at hc
        rw [← CMap.find_isSome_iff]
        exact fun h => hc (Or.inr (Or.inl h))
      simp only [List.append_assoc, List.singleton_append, List.length_cons,
        CMap.length_set_of_not_mem hnot, true_and]
      omega
    · have hc' : callSucceeds rnd s c = false := by simpa using hc
      obtain ⟨h1, h2⟩ := ih (addCall rnd s c)
      rw [h1, h2, addCall_of_fails s c hc']
      simp [hc']

theorem addCalls_append (s : SearchServer R) [LinearOrderedField R] (l1 l2 : List AddCall) :
    addCalls rnd s (l1 ++ l2) = addCalls rnd (addCalls rnd s l1) l2 := by
  induction l1 generalizing s with
  | nil => rfl
  | cons c rest ih => simp only [List.cons_append, addCalls]; exact ih _

theorem succeededIds_append [LinearOrderedField R] (s : SearchServer R) (l1 l2 : List AddCall) :
    succeededIds rnd s (l1 ++ l2) = succeededIds rnd s l1 ++ succeededIds rnd (addCalls rnd s l1) l2 := by
  induction l1 generalizing s with
  | nil => rfl
  | cons c rest ih =>
    rw [List.cons_append]
    simp only [addCalls, succeededIds]
    split_ifs
    · rw [ih, List.cons_append]
    · exact ih _

end SearchServer


/-! ## Validation of documents and queries (C6, C7, C8) -/

theorem splitLoop_ne_nil (text : Str) (words : List Str) (word : Str)
    (hw : ∀ w ∈ words, w ≠ []) : ∀ w ∈ SplitIntoWords.loop text words word, w ≠ [] := by
  induction text generalizing words word with
  | nil =>
    simp only [SplitIntoWords.loop]
    split_ifs with h
    · intro w hmem
      rcases List.mem_append.1 hmem with h1 | h1
      · exact hw w h1
      · simp only [List.mem_singleton] at h1
        subst h1; exact h
    · exact hw
  | cons c rest ih =>
    simp only [SplitIntoWords.loop]
    split_ifs with h1 h2
    · apply ih
      intro w hmem
      rcases List.mem_append.1 hmem with h3 | h3
      · exact hw w h3
      · simp only [List.mem_singleton] at h3
        subst h3; exact h2
    · exact ih _ _ hw
    · exact ih _ _ hw

theorem splitIntoWords_ne_nil (text : Str) : ∀ w ∈ SplitIntoWords text, w ≠ [] :=
  splitLoop_ne_nil text [] [] (by simp)

namespace SearchServer

variable {R : Type} {rnd : R → R}

theorem isValidMinusWord_eq_false_iff (w : Str) :
    IsValidMinusWord w = false ↔ w = [] ∨ w = [cMinus] ∨ ∃ rest, w = cMinus :: cMinus :: rest := by
  unfold IsValidMinusWord
  cases w with
  | nil => simp
  | cons a t =>
    cases t with
    | nil =>
      by_cases h : a = cMinus
      · simp [h]
      · simp [h, charAt]
    | cons b t' =>
      by_cases h : a = cMinus
      · by_cases h' : b = cMinus
        · simp [h, h', charAt]
        · simp [h, h', charAt]
      · simp [h, charAt]

theorem checkQueryWords_eq (ws : List Str) :
    checkQueryWords ws =
      if ws.all (fun w => IsValidWord w && IsValidMinusWord w) then .ok ()
      else .error Error.invalid_argument := by
  induction ws with
  | nil => simp [checkQueryWords]
  | cons w rest ih =>
    simp only [checkQueryWords]
    by_cases h1 : IsValidWord w = true
    · by_cases h2 : IsValidMinusWord w = true
      · simp [h1, h2, ih]
      · simp [h1, h2]
    · simp [h1]

/-- The tokens of a query that make validation throw. -/
theorem query_rejected_iff (raw_query : Str) :
    (raw_query = [] ∨ ¬ (SplitIntoWords raw_query).all (fun w => IsValidWord w && IsValidMinusWord w) = true)
      ↔ (raw_query = [] ∨ ∃ w ∈ SplitIntoWords raw_query,
          IsValidWord w = false ∨ w = [cMinus] ∨ ∃ rest, w = cMinus :: cMinus :: rest) := by
  constructor
  · rintro (h | h)
    · exact Or.inl h
    · right
      simp only [List.all_eq_true, not_forall] at h
      obtain ⟨w, hw, hf⟩ := h
      refine ⟨w, hw, ?_⟩
      by_cases hv : IsValidWord w = true
      · right
        have hm : IsValidMinusWord w = false := by
          cases hmw : IsValidMinusWord w
          · rfl
          · exact absurd (by simp [hv, hmw]) hf
        rcases (isValidMinusWord_eq_false_iff w).1 hm with h0 | h0
        · exact absurd h0 (splitIntoWords_ne_nil raw_query w hw)
        · exact h0
      · left; simpa using hv
  · rintro (h | ⟨w, hw, h⟩)
    · exact Or.inl h
    · right
      simp only [List.all_eq_true, not_forall]
      refine ⟨w, hw, ?_⟩
      rcases h with h | h | h
      · simp [h]
      · have := (isValidMinusWord_eq_false_iff w).2 (Or.inr (Or.inl h))
        simp [this]
      · have := (isValidMinusWord_eq_false_iff w).2 (Or.inr (Or.inr h))
        simp [this]

theorem parseQuery_ok_of_valid (s : SearchServer R) (raw_query : Str)
    (h : (SplitIntoWords raw_query).all (fun w => IsValidWord w && IsValidMinusWord w) = true) :
    ∃ query, ParseQuery s raw_query = .ok query := by
  have hv : (SplitIntoWords raw_query).all IsValidWord = true := by
    simp only [List.all_eq_true, Bool.and_eq_true] at h ⊢
    exact fun w hw => (h w hw).1
  unfold ParseQuery
  rw [noStop_eq, if_pos hv]
  exact ⟨_, rfl⟩

theorem scorePostings_error [LinearOrderedField R] (ln : R → R) (s : SearchServer R)
    (predicate : Int → DocumentStatus → Int → Bool) (size : Nat) (ps : List (Int × R))
    (acc : CMap Int R) (e : Error) (h : scorePostings rnd ln s predicate size ps acc = .error e) :
    e = Error.out_of_range := by
  induction ps generalizing acc with
  | nil => simp [scorePostings] at h
  | cons p rest ih =>
    simp only [scorePostings] at h
    split at h
    · simp only [Except.error.injEq] at h
      exact h.symm
    · split_ifs at h
      · exact ih _ h
      · exact ih _ h

theorem scorePlusWords_error [LinearOrderedField R] (ln : R → R) (s : SearchServer R)
    (predicate : Int → DocumentStatus → Int → Bool) (ws : List Str)
    (acc : CMap Int R) (e : Error) (h : scorePlusWords rnd ln s predicate ws acc = .error e) :
    e = Error.out_of_range := by
  induction ws generalizing acc with
  | nil => simp [scorePlusWords] at h
  | cons w rest ih =>
    simp only [scorePlusWords] at h
    split at h
    · exact ih _ h
    · split at h
      · rename_i e' he
        simp only [Except.error.injEq] at h
        subst h
        exact scorePostings_error _ _ _ _ _ _ _ he
      · exact ih _ h

theorem buildDocuments_error (s : SearchServer R) (ps : List (Int × R)) (acc : List (Document R))
    (e : Error) (h : buildDocuments s ps acc = .error e) : e = Error.out_of_range := by
  induction ps generalizing acc with
  | nil => simp [buildDocuments] at h
  | cons p rest ih =>
    simp only [buildDocuments] at h
    split at h
    · simp only [Except.error.injEq] at h
      exact h.symm
    · exact ih _ h

theorem findAllDocuments_error [LinearOrderedField R] (ln : R → R) (s : SearchServer R) (query : Query)
    (predicate : Int → DocumentStatus → Int → Bool) (e : Error)
    (h : FindAllDocuments rnd ln s query predicate = .error e) : e = Error.out_of_range := by
  unfold FindAllDocuments at h
  split at h
  · rename_i e' he
    simp only [Except.error.injEq] at h
    subst h
    exact scorePlusWords_error _ _ _ _ _ _ he
  · exact buildDocuments_error _ _ _ _ h

end SearchServer

open SearchServer

/-- C7. When `AddDocument` throws, the server after the call is the server before it: the
postings, the document table, the insertion-order sequence and the stop-word set are unchanged,
and so is `GetDocumentCount()`. -/
theorem C7_AddDocument_failure_leaves_state {R : Type} [LinearOrderedField R] (rnd : R → R) (s : SearchServer R)
    (document_id : Int) (document : Str) (status : DocumentStatus) (ratings : List Int)
    (h : (AddDocument rnd s document_id document status ratings).1 ≠ .ok ()) :
    (AddDocument rnd s document_id document status ratings).2 = s
      ∧ (AddDocument rnd s document_id document status ratings).2.word_to_document_freqs_
          = s.word_to_document_freqs_
      ∧ (AddDocument rnd s document_id document status ratings).2.documents_ = s.documents_
      ∧ (AddDocument rnd s document_id document status ratings).2.documents_index_ = s.documents_index_
      ∧ (AddDocument rnd s document_id document status ratings).2.stop_words_ = s.stop_words_
      ∧ GetDocumentCount (AddDocument rnd s document_id document status ratings).2
          = GetDocumentCount s := by
  rw [addDocument_eq] at h ⊢
  split_ifs at h ⊢ with hc
  · simp
  · exact absurd rfl h

/-- Witness of C7: after the document of `main`, a second document with id 1 is refused and
leaves the server as it was. -/
theorem C7_witness :
    (AddDocument id (addCall id (SearchServer.empty : SearchServer ℚ)
        ⟨1, bytes "пушистый кот пушистый хвост", DocumentStatus.ACTUAL, [7, 2, 7]⟩)
      1 (bytes "пушистый пёс и модный ошейник") DocumentStatus.ACTUAL [1, 2]).1 ≠ .ok ()
    ∧ (AddDocument id (addCall id (SearchServer.empty : SearchServer ℚ)
        ⟨1, bytes "пушистый кот пушистый хвост", DocumentStatus.ACTUAL, [7, 2, 7]⟩)
      1 (bytes "пушистый пёс и модный ошейник") DocumentStatus.ACTUAL [1, 2]).2
      = addCall id (SearchServer.empty : SearchServer ℚ)
        ⟨1, bytes "пушистый кот пушистый хвост", DocumentStatus.ACTUAL, [7, 2, 7]⟩ :=
  ⟨by decide!, (C7_AddDocument_failure_leaves_state id _ 1 (bytes "пушистый пёс и модный ошейник")
      DocumentStatus.ACTUAL [1, 2] (by decide!)).1⟩

/-- C8. `FindTopDocuments` and `MatchDocument` throw `invalid_argument` exactly when the query
is empty or one of its tokens fails `IsValidWord`, is `"-"`, or begins with `"--"`; so the
queries `""` and `"--пушистый"` are refused. -/
theorem C8_query_rejected_iff {R : Type} [LinearOrderedField R] (rnd ln : R → R) (s : SearchServer R)
    (raw_query : Str) (document_predicate : Int → DocumentStatus → Int → Bool) (document_id : Int) :
    (FindTopDocuments rnd ln s raw_query document_predicate = .error Error.invalid_argument ↔
      (raw_query = [] ∨ ∃ w ∈ SplitIntoWords raw_query,
          IsValidWord w = false ∨ w = [cMinus] ∨ ∃ rest, w = cMinus :: cMinus :: rest))
    ∧ (MatchDocument s raw_query document_id = .error Error.invalid_argument ↔
      (raw_query = [] ∨ ∃ w ∈ SplitIntoWords raw_query,
          IsValidWord w = false ∨ w = [cMinus] ∨ ∃ rest, w = cMinus :: cMinus :: rest))
    ∧ FindTopDocuments rnd ln s (bytes "") document_predicate = .error Error.invalid_argument
    ∧ FindTopDocuments rnd ln s (bytes "--пушистый") document_predicate = .error Error.invalid_argument
    ∧ MatchDocument s (bytes "") document_id = .error Error.invalid_argument
    ∧ MatchDocument s (bytes "--пушистый") document_id = .error Error.invalid_argument := by
  have key1 : ∀ q : Str, FindTopDocuments rnd ln s q document_predicate = .error Error.invalid_argument ↔
      (q = [] ∨ ¬ (SplitIntoWords q).all (fun w => IsValidWord w && IsValidMinusWord w) = true) := by
    intro q
    unfold FindTopDocuments
    by_cases h0 : q = []
    · simp [h0]
    · have h0' : q.isEmpty = false := by
        cases q with
        | nil => exact absurd rfl h0
        | cons a t => rfl
      rw [checkQueryWords_eq]
      by_cases hall : (SplitIntoWords q).all (fun w => IsValidWord w && IsValidMinusWord w) = true
      · obtain ⟨query, hq⟩ := parseQuery_ok_of_valid s q hall
        simp only [h0', hall, if_true, hq, h0, false_or, not_true_eq_false, iff_false]
        cases hf : FindAllDocuments rnd ln s query document_predicate with
        | error e =>
          have := findAllDocuments_error _ _ _ _ _ hf
          subst this
          simp
        | ok m =>
          simp only
          split_ifs <;> simp_all
      · simp [h0', hall, h0]
  have key2 : ∀ q : Str, MatchDocument s q document_id = .error Error.invalid_argument ↔
      (q = [] ∨ ¬ (SplitIntoWords q).all (fun w => IsValidWord w && IsValidMinusWord w) = true) := by
    intro q
    unfold MatchDocument
    by_cases h0 : q = []
    · simp [h0]
    · have h0' : q.isEmpty = false := by
        cases q with
        | nil => exact absurd rfl h0
        | cons a t => rfl
      rw [checkQueryWords_eq]
      by_cases hall : (SplitIntoWords q).all (fun w => IsValidWord w && IsValidMinusWord w) = true
      · obtain ⟨query, hq⟩ := parseQuery_ok_of_valid s q hall
        simp only [h0', hall, if_true, hq, h0, false_or, not_true_eq_false, iff_false]
        cases hf : CMap.find s.documents_ document_id with
        | none => simp
        | some d => simp
      · simp [h0', hall, h0]
  refine ⟨(key1 raw_query).trans (query_rejected_iff raw_query),
    (key2 raw_query).trans (query_rejected_iff raw_query), ?_, ?_, ?_, ?_⟩
  · exact (key1 _).2 (Or.inl (by decide))
  · exact (key1 _).2 (Or.inr (by decide))
  · exact (key2 _).2 (Or.inl (by decide))
  · exact (key2 _).2 (Or.inr (by decide))


/-! ## Insertion order and the document count (C10) -/

theorem mainServer_constructed : Constructed (mainServer ℚ) :=
  Or.inr (Or.inl ⟨bytes "и в на", by decide!⟩)

theorem wrapInt32_natCast_le (n : Nat) (i : Int) (h0 : 0 ≤ i) (h : i < wrapInt32 (n : Int)) :
    i < (n : Int) := by
  unfold wrapInt32 at h
  omega

/-- The server after the calls `countingCalls n` on an empty server: all calls succeed. -/
theorem countingCalls_state {R : Type} [LinearOrderedField R] (rnd : R → R) (n : Nat) :
    (∀ id : Int, (CMap.find (addCalls rnd (SearchServer.empty : SearchServer R)
        (countingCalls n)).documents_ id).isSome = true ↔ 0 ≤ id ∧ id < (n : Int))
    ∧ succeededIds rnd (SearchServer.empty : SearchServer R) (countingCalls n)
        = (List.range n).map (fun (i : Nat) => (i : Int)) := by
  induction n with
  | zero =>
    refine ⟨fun id => ?_, rfl⟩
    simp [countingCalls, addCalls, SearchServer.empty, CMap.find]
  | succ n ih =>
    obtain ⟨h1, h2⟩ := ih
    have hsplit : countingCalls (n + 1)
        = countingCalls n ++ [⟨(n : Int), [], DocumentStatus.ACTUAL, []⟩] := by
      unfold countingCalls
      rw [List.range_succ, List.map_append]
      rfl
    have hc : callSucceeds rnd (addCalls rnd (SearchServer.empty : SearchServer R) (countingCalls n))
        ⟨(n : Int), [], DocumentStatus.ACTUAL, []⟩ = true := by
      rw [callSucceeds_iff]
      rintro (h | h | ⟨w, hw, -⟩)
      · simp only at h
        omega
      · have := (h1 (n : Int)).1 h
        omega
      · simp [SplitIntoWords, SplitIntoWords.loop] at hw
    rw [hsplit, addCalls_append, succeededIds_append, h2]
    constructor
    · intro id
      simp only [addCalls]
      rw [addCall_of_succeeds _ _ hc]
      simp only
      rw [CMap.find_set]
      by_cases hid : id = (n : Int)
      · subst hid
        simp
      · rw [if_neg hid, h1 id]
        push_cast
        omega
    · simp only [succeededIds, hc, if_true]
      rw [List.range_succ, List.map_append]
      rfl

/-- C10, amended. After any sequence of `AddDocument` calls on a constructed server, let `n` be
the number of calls that succeeded. `GetDocumentCount()` is `n` reduced to an `int`, and a call
`GetDocumentId(i)` that returns, returns the id of the i-th successful call. If `n < 2^31`, then
`GetDocumentCount() = n`, `GetDocumentId(i)` is the id of the i-th successful call for
`0 <= i < n`, and `GetDocumentId(i)` throws `out_of_range` for `i < 0` and for `i >= n`. -/
theorem C10_insertion_order {R : Type} [LinearOrderedField R] (rnd : R → R) (s0 : SearchServer R)
    (h0 : Constructed s0) (calls : List AddCall) :
    GetDocumentCount (addCalls rnd s0 calls)
      = wrapInt32 ((succeededIds rnd s0 calls).length : Int)
    ∧ (∀ (i d : Int), GetDocumentId (addCalls rnd s0 calls) i = .ok d →
        0 ≤ i ∧ i < ((succeededIds rnd s0 calls).length : Int)
          ∧ (succeededIds rnd s0 calls).get? i.toNat = some d)
    ∧ (((succeededIds rnd s0 calls).length : Int) < 2147483648 →
        GetDocumentCount (addCalls rnd s0 calls) = ((succeededIds rnd s0 calls).length : Int)
        ∧ (∀ (i : Nat) (h : i < (succeededIds rnd s0 calls).length),
            GetDocumentId (addCalls rnd s0 calls) (i : Int)
              = .ok ((succeededIds rnd s0 calls).get ⟨i, h⟩))
        ∧ (∀ i : Int, (i < 0 ∨ i ≥ ((succeededIds rnd s0 calls).length : Int)) →
            GetDocumentId (addCalls rnd s0 calls) i = .error Error.out_of_range)) := by
  obtain ⟨-, hd, hi⟩ := constructed_fields h0
  obtain ⟨h1, h2⟩ := @addCalls_index_and_count R rnd _ s0 calls
  rw [hi, List.nil_append] at h1
  rw [hd, List.length_nil, Nat.zero_add] at h2
  refine ⟨by rw [GetDocumentCount, h2], ?_, ?_⟩
  · intro i d hid
    unfold GetDocumentId at hid
    rw [h1, h2] at hid
    split_ifs at hid with hc
    have hlt := wrapInt32_natCast_le _ i hc.1 hc.2
    refine ⟨hc.1, hlt, ?_⟩
    cases hg : (succeededIds rnd s0 calls).get? i.toNat with
    | none => rw [hg] at hid; exact absurd hid (by simp)
    | some d' =>
      rw [hg] at hid
      simp only [Except.ok.injEq] at hid
      rw [hid]
  · intro hfit
    have hw : wrapInt32 ((succeededIds rnd s0 calls).length : Int)
        = ((succeededIds rnd s0 calls).length : Int) :=
      wrapInt32_of_fits _ (by omega) hfit
    refine ⟨by rw [GetDocumentCount, h2, hw], ?_, ?_⟩
    · intro i h
      unfold GetDocumentId
      have hc : (i : Int) ≥ 0 ∧ (i : Int)
          < wrapInt32 ((addCalls rnd s0 calls).documents_.length : Int) := by
        rw [h2, hw]; constructor <;> omega
      rw [if_pos hc, h1, Int.toNat_ofNat, List.get?_eq_get h]
    · intro i hi'
      unfold GetDocumentId
      have hc : ¬ (i ≥ 0 ∧ i < wrapInt32 ((addCalls rnd s0 calls).documents_.length : Int)) := by
        rw [h2, hw]; omega
      rw [if_neg hc]

/-- Witness of C10: the server of `main` after the four calls of `main` and `TestErrors`, in
binary64 arithmetic. -/
theorem C10_witness :
    Constructed (mainServer ℚ)
    ∧ ((succeededIds roundDouble (mainServer ℚ) mainCalls).length : Int) < 2147483648
    ∧ GetDocumentCount (addCalls roundDouble (mainServer ℚ) mainCalls)
        = ((succeededIds roundDouble (mainServer ℚ) mainCalls).length : Int)
    ∧ (∀ (i : Nat) (h : i < (succeededIds roundDouble (mainServer ℚ) mainCalls).length),
        GetDocumentId (addCalls roundDouble (mainServer ℚ) mainCalls) (i : Int)
          = .ok ((succeededIds roundDouble (mainServer ℚ) mainCalls).get ⟨i, h⟩))
    ∧ (∀ i : Int, (i < 0 ∨ i ≥ ((succeededIds roundDouble (mainServer ℚ) mainCalls).length : Int)) →
        GetDocumentId (addCalls roundDouble (mainServer ℚ) mainCalls) i
          = .error Error.out_of_range) :=
  ⟨mainServer_constructed, by decide!,
    (C10_insertion_order roundDouble (mainServer ℚ) mainServer_constructed mainCalls).2.2
      (by decide!)⟩

/-- Counterexample to C10 as stated: the `2^31` calls `AddDocument(i, "", ACTUAL, {})` for
`i = 0, ..., 2^31 - 1` on an empty server all succeed, and then `GetDocumentCount()` is `-2^31`
and `GetDocumentId(i)` throws for every `i`, also for `i = 0`. -/
theorem C10_counterexample :
    Constructed (SearchServer.empty : SearchServer ℚ)
    ∧ (succeededIds roundDouble (SearchServer.empty : SearchServer ℚ)
        (countingCalls 2147483648)).length = 2147483648
    ∧ (succeededIds roundDouble (SearchServer.empty : SearchServer ℚ)
        (countingCalls 2147483648)).get? 0 = some 0
    ∧ GetDocumentCount (addCalls roundDouble (SearchServer.empty : SearchServer ℚ)
        (countingCalls 2147483648)) = -2147483648
    ∧ ∀ i : Int, GetDocumentId (addCalls roundDouble (SearchServer.empty : SearchServer ℚ)
        (countingCalls 2147483648)) i = .error Error.out_of_range := by
  have hs := (countingCalls_state roundDouble 2147483648).2
  have hlen : (succeededIds roundDouble (SearchServer.empty : SearchServer ℚ)
      (countingCalls 2147483648)).length = 2147483648 := by
    rw [hs, List.length_map, List.length_range]
  have hcount := (@addCalls_index_and_count ℚ roundDouble _
    (SearchServer.empty : SearchServer ℚ) (countingCalls 2147483648)).2
  rw [hlen] at hcount
  have hdocs : (addCalls roundDouble (SearchServer.empty : SearchServer ℚ)
      (countingCalls 2147483648)).documents_.length = 2147483648 := hcount.trans (by decide)
  have hwrap : wrapInt32 ((2147483648 : Nat) : Int) = -2147483648 := by decide
  refine ⟨Or.inl rfl, hlen, ?_, ?_, ?_⟩
  · rw [hs, List.get?_eq_getElem?, List.getElem?_map,
      List.getElem?_range (show 0 < 2147483648 by decide)]
    rfl
  · rw [GetDocumentCount, hdocs, hwrap]
  · intro i
    unfold GetDocumentId
    rw [hdocs, hwrap]
    have hc : ¬ (i ≥ 0 ∧ i < -2147483648) := by omega
    rw [if_neg hc]


/-! ## Parsed queries and `MatchDocument` (C9) -/

namespace SearchServer

variable {R : Type} {rnd : R → R}

theorem parseWord_sorted (s : SearchServer R) (query : Query) (word : Str)
    (h : query.plus_words.Pairwise (· < ·) ∧ query.minus_words.Pairwise (· < ·)) :
    (parseWord s query word).plus_words.Pairwise (· < ·)
      ∧ (parseWord s query word).minus_words.Pairwise (· < ·) := by
  simp only [parseWord]
  split_ifs with h1 h2
  · exact ⟨CSet.sorted_insert h.1 _, CSet.sorted_insert h.2 _⟩
  · exact ⟨CSet.sorted_insert h.1 _, h.2⟩
  · exact ⟨CSet.sorted_insert h.1 _, h.2⟩

theorem foldl_parseWord_sorted (s : SearchServer R) (words : List Str) (query : Query)
    (h : query.plus_words.Pairwise (· < ·) ∧ query.minus_words.Pairwise (· < ·)) :
    (words.foldl (parseWord s) query).plus_words.Pairwise (· < ·)
      ∧ (words.foldl (parseWord s) query).minus_words.Pairwise (· < ·) := by
  induction words generalizing query with
  | nil => exact h
  | cons w rest ih => exact ih _ (parseWord_sorted s query w h)

theorem parseQuery_sorted (s : SearchServer R) (text : Str) (query : Query)
    (h : ParseQuery s text = .ok query) :
    query.plus_words.Pairwise (· < ·) ∧ query.minus_words.Pairwise (· < ·) := by
  unfold ParseQuery at h
  split at h
  · exact absurd h (by simp)
  · simp only [Except.ok.injEq] at h
    subst h
    exact foldl_parseWord_sorted s _ _ ⟨List.Pairwise.nil, List.Pairwise.nil⟩

theorem hasPosting_of_none {s : SearchServer R} {w : Str} {document_id : Int}
    (h : CMap.find s.word_to_document_freqs_ w = none) : hasPosting s w document_id = false := by
  simp [hasPosting, postingOf, h]

theorem hasPosting_of_some {s : SearchServer R} {w : Str} {document_id : Int} {p : CMap Int R}
    (h : CMap.find s.word_to_document_freqs_ w = some p) :
    hasPosting s w document_id = (CMap.find p document_id).isSome := by
  simp [hasPosting, postingOf, h]

theorem matchPlusWords_eq (s : SearchServer R) (document_id : Int) (ws acc : List Str) :
    matchPlusWords s document_id ws acc = acc ++ ws.filter (fun w => hasPosting s w document_id) := by
  induction ws generalizing acc with
  | nil => simp [matchPlusWords]
  | cons w rest ih =>
    simp only [matchPlusWords, List.filter_cons]
    cases hf : CMap.find s.word_to_document_freqs_ w with
    | none => simp [hasPosting_of_none hf, ih]
    | some p =>
      by_cases hp : (CMap.find p document_id).isSome = true
      · simp [hasPosting_of_some hf, hp, ih]
      · simp [hasPosting_of_some hf, hp, ih]

theorem matchMinusWords_eq (s : SearchServer R) (document_id : Int) (ws acc : List Str) :
    matchMinusWords s document_id ws acc =
      if ws.any (fun w => hasPosting s w document_id) then [] else acc := by
  induction ws generalizing acc with
  | nil => simp [matchMinusWords]
  | cons w rest ih =>
    simp only [matchMinusWords, List.any_cons]
    cases hf : CMap.find s.word_to_document_freqs_ w with
    | none => simp [hasPosting_of_none hf, ih]
    | some p =>
      by_cases hp : (CMap.find p document_id).isSome = true
      · simp [hasPosting_of_some hf, hp]
      · simp [hasPosting_of_some hf, hp, ih]

end SearchServer

/-- C9. For an accepted query, `MatchDocument(raw_query, id)` on a stored id returns the stored
status of the id with: the empty list when a minus word of the parsed query has a posting for
the id, and otherwise the plus words of the parsed query that have a posting for the id, each
once and in ascending (bytewise lexicographic) order. On an id that is not stored it throws. -/
theorem C9_MatchDocument {R : Type} [LinearOrderedField R] (s : SearchServer R) (raw_query : Str)
    (document_id : Int) (hne : raw_query ≠ [])
    (hvalid : checkQueryWords (SplitIntoWords raw_query) = .ok ()) :
    ∃ query, ParseQuery s raw_query = .ok query
      ∧ (∀ data, CMap.find s.documents_ document_id = some data →
          ∃ matched_words, MatchDocument s raw_query document_id = .ok (matched_words, data.status)
            ∧ ((∃ w ∈ query.minus_words, hasPosting s w document_id = true) → matched_words = [])
            ∧ ((¬ ∃ w ∈ query.minus_words, hasPosting s w document_id = true) →
                (∀ w, w ∈ matched_words ↔ w ∈ query.plus_words ∧ hasPosting s w document_id = true)
                ∧ matched_words.Pairwise (· < ·)))
      ∧ (CMap.find s.documents_ document_id = none →
          MatchDocument s raw_query document_id = .error Error.out_of_range) := by
  have hall : (SplitIntoWords raw_query).all (fun w => IsValidWord w && IsValidMinusWord w) = true := by
    rw [checkQueryWords_eq] at hvalid
    by_contra hc
    rw [if_neg hc] at hvalid
    exact absurd hvalid (by simp)
  obtain ⟨query, hq⟩ := parseQuery_ok_of_valid s raw_query hall
  have hempty : raw_query.isEmpty = false := by
    cases raw_query with
    | nil => exact absurd rfl hne
    | cons a t => rfl
  refine ⟨query, hq, ?_, ?_⟩
  · intro data hdata
    refine ⟨matchMinusWords s document_id query.minus_words
      (matchPlusWords s document_id query.plus_words []), ?_, ?_, ?_⟩
    · unfold MatchDocument
      simp only [hempty, hvalid, hq, hdata]
      rfl
    · rintro ⟨w, hw, hp⟩
      rw [matchMinusWords_eq, if_pos]
      exact List.any_eq_true.2 ⟨w, hw, hp⟩
    · intro hno
      have hany : ¬ query.minus_words.any (fun w => hasPosting s w document_id) = true := by
        intro h
        obtain ⟨w, hw, hp⟩ := List.any_eq_true.1 h
        exact hno ⟨w, hw, hp⟩
      rw [matchMinusWords_eq, if_neg hany, matchPlusWords_eq, List.nil_append]
      refine ⟨fun w => by simp [List.mem_filter], ?_⟩
      exact (parseQuery_sorted s raw_query query hq).1.sublist (List.filter_sublist _)
  · intro hnone
    unfold MatchDocument
    simp only [hempty, hvalid, hq, hnone]
    rfl

/-- Witness of C9: the document of `main` matched against a query with two of its words. -/
theorem C9_witness :
    bytes "хвост кот" ≠ [] ∧ checkQueryWords (SplitIntoWords (bytes "хвост кот")) = .ok ()
    ∧ ∃ query, ParseQuery (addCalls roundDouble (mainServer ℚ) mainCalls) (bytes "хвост кот") = .ok query
      ∧ (∀ data, CMap.find (addCalls roundDouble (mainServer ℚ) mainCalls).documents_ 1 = some data →
          ∃ matched_words,
            MatchDocument (addCalls roundDouble (mainServer ℚ) mainCalls) (bytes "хвост кот") 1
              = .ok (matched_words, data.status)
            ∧ ((∃ w ∈ query.minus_words, hasPosting (addCalls roundDouble (mainServer ℚ) mainCalls) w 1 = true) →
                matched_words = [])
            ∧ ((¬ ∃ w ∈ query.minus_words, hasPosting (addCalls roundDouble (mainServer ℚ) mainCalls) w 1 = true) →
                (∀ w, w ∈ matched_words ↔
                  w ∈ query.plus_words ∧ hasPosting (addCalls roundDouble (mainServer ℚ) mainCalls) w 1 = true)
                ∧ matched_words.Pairwise (· < ·)))
      ∧ (CMap.find (addCalls roundDouble (mainServer ℚ) mainCalls).documents_ 1 = none →
          MatchDocument (addCalls roundDouble (mainServer ℚ) mainCalls) (bytes "хвост кот") 1
            = .error Error.out_of_range) :=
  ⟨by decide, by decide,
    C9_MatchDocument (addCalls roundDouble (mainServer ℚ) mainCalls) (bytes "хвост кот") 1 (by decide) (by decide)⟩


/-! ## The invariant of the index -/

namespace SearchServer

variable {R : Type} {rnd : R → R}

theorem find_addFreq [LinearOrderedField R] (m : CMap Str (CMap Int R)) (w : Str) (id : Int)
    (f : R) (w' : Str) :
    CMap.find (addFreq rnd m w id f) w' =
      if w' = w then
        some (CMap.set ((CMap.find m w).getD []) id
          (rnd ((CMap.find ((CMap.find m w).getD []) id).getD 0 + f)))
      else CMap.find m w' := by
  simp only [addFreq, CMap.find_set]
  split_ifs <;> rfl

theorem postingOf_addFreq [LinearOrderedField R] (m : CMap Str (CMap Int R)) (w : Str) (id : Int)
    (f : R) (w' : Str) (i : Int) :
    postingOf (addFreq rnd m w id f) w' i =
      if w' = w ∧ i = id then some (rnd ((postingOf m w id).getD 0 + f))
      else postingOf m w' i := by
  unfold postingOf
  rw [find_addFreq]
  by_cases hw : w' = w
  · subst hw
    simp only [if_true, true_and, CMap.find_set]
    cases hf : CMap.find m w' with
    | none =>
      by_cases hi : i = id
      · simp [hi, CMap.find]
      · simp [hi, CMap.find]
    | some p =>
      by_cases hi : i = id
      · simp [hi]
      · simp [hi]
  · simp [hw]

theorem postingOf_foldl_addFreq [LinearOrderedField R] (id : Int) (f : R) (ws : List Str)
    (m : CMap Str (CMap Int R)) (w' : Str) (i : Int) :
    postingOf (ws.foldl (fun m word => addFreq rnd m word id f) m) w' i =
      if i = id ∧ w' ∈ ws then
        some (addRepeatedly rnd f (ws.count w') ((postingOf m w' id).getD 0))
      else postingOf m w' i := by
  induction ws generalizing m with
  | nil => simp
  | cons w rest ih =>
    rw [List.foldl_cons, ih, postingOf_addFreq, postingOf_addFreq]
    by_cases hi : i = id
    · subst hi
      by_cases hw : w' = w
      · subst hw
        by_cases hr : w' ∈ rest
        · simp only [hr, and_self, if_true, List.mem_cons, or_true, true_or, Option.getD_some,
            List.count_cons_self, addRepeatedly]
        · simp only [hr, and_false, if_false, and_self, if_true, List.mem_cons, true_or,
            List.count_cons_self, List.count_eq_zero_of_not_mem hr, addRepeatedly]
      · have hne : ¬ w = w' := fun e => hw e.symm
        simp [hw, hne, List.count_cons]
    · simp [hi]

theorem foldl_addFreq_inv [LinearOrderedField R] (S : Int → Prop) (id : Int) (f : R) (hid : S id)
    (ws : List Str) (m : CMap Str (CMap Int R))
    (hm : ∀ w p, CMap.find m w = some p → (CMap.keys p).Pairwise (· < ·) ∧ ∀ i ∈ CMap.keys p, S i) :
    ∀ w p, CMap.find (ws.foldl (fun m word => addFreq rnd m word id f) m) w = some p →
      (CMap.keys p).Pairwise (· < ·) ∧ ∀ i ∈ CMap.keys p, S i := by
  induction ws generalizing m with
  | nil => exact hm
  | cons w0 rest ih =>
    rw [List.foldl_cons]
    apply ih
    intro w p hp
    rw [find_addFreq] at hp
    split_ifs at hp with hw
    · simp only [Option.some.injEq] at hp
      subst hp
      have hinner : (CMap.keys ((CMap.find m w0).getD [])).Pairwise (· < ·)
          ∧ ∀ i ∈ CMap.keys ((CMap.find m w0).getD []), S i := by
        cases hf : CMap.find m w0 with
        | none => simp [CMap.keys]
        | some p0 => exact hm w0 p0 hf
      refine ⟨CMap.sorted_set hinner.1 _ _, ?_⟩
      intro i hi
      rw [CMap.mem_keys_set] at hi
      rcases hi with hi | hi
      · subst hi; exact hid
      · exact hinner.2 i hi
    · exact hm w p hp

theorem wellFormed_addCall [LinearOrderedField R] (s : SearchServer R) (c : AddCall)
    (h : WellFormed s) : WellFormed (addCall rnd s c) := by
  by_cases hc : callSucceeds rnd s c = true
  · rw [addCall_of_succeeds s c hc]
    have hinv := @foldl_addFreq_inv R rnd _
      (fun i => (CMap.find (CMap.set s.documents_ c.document_id
        (⟨ComputeAverageRating c.ratings, c.status⟩ : DocumentData)) i).isSome = true)
      c.document_id
      (rnd (1 / rnd ((((SplitIntoWords c.document).filter (fun w => !IsStopWord s w)).length : Nat) : R)))
      (by simp [CMap.find_set])
      ((SplitIntoWords c.document).filter (fun w => !IsStopWord s w))
      s.word_to_document_freqs_
      (by
        intro w p hp
        refine ⟨h.postings_sorted w p hp, ?_⟩
        intro i hi
        have := h.postings_stored w p hp i hi
        rw [CMap.find_set]
        split_ifs
        · rfl
        · exact this)
    exact ⟨fun w p hp => (hinv w p hp).1, fun w p hp => (hinv w p hp).2,
      CMap.sorted_set h.documents_sorted _ _⟩
  · have hc' : callSucceeds rnd s c = false := by simpa using hc
    rw [addCall_of_fails s c hc']
    exact h

theorem wellFormed_addCalls [LinearOrderedField R] (s : SearchServer R) (calls : List AddCall)
    (h : WellFormed s) : WellFormed (addCalls rnd s calls) := by
  induction calls generalizing s with
  | nil => exact h
  | cons c rest ih => exact ih _ (wellFormed_addCall s c h)

theorem wellFormed_of_constructed {s : SearchServer R} (h : Constructed s) : WellFormed s := by
  obtain ⟨h1, h2, -⟩ := constructed_fields h
  refine ⟨?_, ?_, ?_⟩
  · intro w p hp
    rw [h1] at hp
    simp [CMap.find] at hp
  · intro w p hp
    rw [h1] at hp
    simp [CMap.find] at hp
  · rw [h2]
    simp [CMap.keys]

theorem wellFormed_of_reachable [LinearOrderedField R] {s : SearchServer R} (h : Reachable rnd s) :
    WellFormed s := by
  obtain ⟨s0, calls, h0, rfl⟩ := h
  exact wellFormed_addCalls s0 calls (wellFormed_of_constructed h0)

theorem stop_words_addCall [LinearOrderedField R] (s : SearchServer R) (c : AddCall) :
    (addCall rnd s c).stop_words_ = s.stop_words_ := by
  unfold addCall
  rw [addDocument_eq]
  split_ifs <;> rfl

theorem stop_words_addCalls [LinearOrderedField R] (s : SearchServer R) (calls : List AddCall) :
    (addCalls rnd s calls).stop_words_ = s.stop_words_ := by
  induction calls generalizing s with
  | nil => rfl
  | cons c rest ih => simp only [addCalls]; rw [ih, stop_words_addCall]

end SearchServer


/-! ## The three phases of `FindAllDocuments` -/

namespace SearchServer

variable {R : Type} {rnd : R → R}

theorem predicateHolds_of_find {s : SearchServer R} {predicate : Int → DocumentStatus → Int → Bool}
    {i : Int} {d : DocumentData} (h : CMap.find s.documents_ i = some d) :
    predicateHolds s predicate i = predicate i d.status d.rating := by
  simp [predicateHolds, h]

theorem stored_of_predicateHolds {s : SearchServer R} {predicate : Int → DocumentStatus → Int → Bool}
    {i : Int} (h : predicateHolds s predicate i = true) :
    ∃ d, CMap.find s.documents_ i = some d ∧ predicate i d.status d.rating = true := by
  unfold predicateHolds at h
  cases hf : CMap.find s.documents_ i with
  | none => simp [hf] at h
  | some d => exact ⟨d, rfl, by simpa [hf] using h⟩

theorem scorePostings_ok [LinearOrderedField R] (ln : R → R) (s : SearchServer R)
    (predicate : Int → DocumentStatus → Int → Bool) (size : Nat) (ps : List (Int × R))
    (acc : CMap Int R)
    (hst : ∀ i ∈ CMap.keys ps, (CMap.find s.documents_ i).isSome = true)
    (hnd : (CMap.keys ps).Pairwise (· < ·))
    (hacc : (CMap.keys acc).Pairwise (· < ·)) :
    ∃ acc', scorePostings rnd ln s predicate size ps acc = .ok acc'
      ∧ (CMap.keys acc').Pairwise (· < ·)
      ∧ ∀ i, CMap.find acc' i =
          if predicateHolds s predicate i = true ∧ (CMap.find ps i).isSome = true
          then some (rnd ((CMap.find acc i).getD 0
            + rnd (IDFCount rnd ln s size * (CMap.find ps i).getD 0)))
          else CMap.find acc i := by
  induction ps generalizing acc with
  | nil => exact ⟨acc, rfl, hacc, fun i => by simp [CMap.find]⟩
  | cons e rest ih =>
    obtain ⟨i0, t0⟩ := e
    simp only [CMap.keys, List.map_cons, List.pairwise_cons, List.mem_cons, forall_eq_or_imp] at hst hnd
    obtain ⟨d, hd⟩ := Option.isSome_iff_exists.1 hst.1
    have hnot : CMap.find rest i0 = none := by
      rw [CMap.find_eq_none_iff]
      intro hmem
      exact lt_irrefl _ (hnd.1 i0 hmem)
    simp only [scorePostings, hd]
    by_cases hp : predicate i0 d.status d.rating = true
    · simp only [hp, if_true]
      obtain ⟨acc', h1, h2, h3⟩ := ih
        (CMap.set acc i0 (rnd ((CMap.find acc i0).getD 0 + rnd (IDFCount rnd ln s size * t0))))
        hst.2 hnd.2 (CMap.sorted_set hacc _ _)
      refine ⟨acc', h1, h2, ?_⟩
      intro i
      rw [h3, CMap.find_set]
      by_cases hi : i = i0
      · subst hi
        simp [hnot, CMap.find, predicateHolds_of_find hd, hp]
      · simp [hi, CMap.find]
    · simp only [hp, if_false]
      obtain ⟨acc', h1, h2, h3⟩ := ih acc hst.2 hnd.2 hacc
      refine ⟨acc', h1, h2, ?_⟩
      intro i
      rw [h3]
      by_cases hi : i = i0
      · subst hi
        simp [hnot, CMap.find, predicateHolds_of_find hd, hp]
      · simp [hi, CMap.find]

theorem docFreq_of_some {s : SearchServer R} {w : Str} {p : CMap Int R}
    (h : CMap.find s.word_to_document_freqs_ w = some p) : docFreq s w = p.length := by
  simp [docFreq, h]

theorem termFreq_of_some [Zero R] {s : SearchServer R} {w : Str} {p : CMap Int R} (i : Int)
    (h : CMap.find s.word_to_document_freqs_ w = some p) :
    termFreq s w i = (CMap.find p i).getD 0 := by
  simp [termFreq, postingOf, h]

theorem scorePlusWords_ok [LinearOrderedField R] (ln : R → R) (s : SearchServer R)
    (hwf : WellFormed s) (predicate : Int → DocumentStatus → Int → Bool) (ws : List Str)
    (acc : CMap Int R) (hacc : (CMap.keys acc).Pairwise (· < ·)) :
    ∃ acc', scorePlusWords rnd ln s predicate ws acc = .ok acc'
      ∧ (CMap.keys acc').Pairwise (· < ·)
      ∧ ∀ i, CMap.find acc' i =
          if predicateHolds s predicate i = true ∧ ws.any (fun w => hasPosting s w i) = true
          then some ((ws.filter (fun w => hasPosting s w i)).foldl (addScore rnd ln s i)
            ((CMap.find acc i).getD 0))
          else CMap.find acc i := by
  induction ws generalizing acc with
  | nil => exact ⟨acc, rfl, hacc, fun i => by simp⟩
  | cons w rest ih =>
    simp only [scorePlusWords]
    cases hf : CMap.find s.word_to_document_freqs_ w with
    | none =>
      obtain ⟨acc', h1, h2, h3⟩ := ih acc hacc
      refine ⟨acc', h1, h2, ?_⟩
      intro i
      rw [h3]
      simp [List.filter_cons, hasPosting_of_none hf]
    | some p =>
      obtain ⟨acc1, g1, g2, g3⟩ := @scorePostings_ok R rnd _ ln s predicate p.length p acc
        (hwf.postings_stored w p hf) (hwf.postings_sorted w p hf) hacc
      obtain ⟨acc', h1, h2, h3⟩ := ih acc1 g2
      simp only [g1]
      refine ⟨acc', h1, h2, ?_⟩
      intro i
      rw [h3, g3]
      simp only [List.any_cons, List.filter_cons, hasPosting_of_some hf]
      by_cases hP : predicateHolds s predicate i = true
      · by_cases hp : (CMap.find p i).isSome = true
        · by_cases hr : rest.any (fun w => hasPosting s w i) = true
          · simp [hP, hp, hr, addScore, docFreq_of_some hf, termFreq_of_some i hf]
          · have hnil : rest.filter (fun w => hasPosting s w i) = [] := by
              rw [List.filter_eq_nil_iff]
              intro a ha hpa
              exact hr (List.any_eq_true.2 ⟨a, ha, hpa⟩)
            simp [hP, hp, hr, hnil, addScore, docFreq_of_some hf, termFreq_of_some i hf]
        · by_cases hr : rest.any (fun w => hasPosting s w i) = true
          · simp [hP, hp, hr]
          · simp [hP, hp, hr]
      · simp [hP]

theorem foldl_erase_find [LinearOrderedField R] (ps : List (Int × R)) (acc : CMap Int R) (i : Int) :
    CMap.find (ps.foldl (fun document_to_relevance doc => CMap.erase document_to_relevance doc.1) acc) i
      = if (CMap.find ps i).isSome = true then none else CMap.find acc i := by
  induction ps generalizing acc with
  | nil => simp [CMap.find]
  | cons e rest ih =>
    obtain ⟨i0, t0⟩ := e
    rw [List.foldl_cons, ih, CMap.find_erase]
    by_cases hi : i = i0
    · simp [hi, CMap.find]
    · simp [hi, CMap.find]

theorem foldl_erase_sorted [LinearOrderedField R] (ps : List (Int × R)) (acc : CMap Int R)
    (hacc : (CMap.keys acc).Pairwise (· < ·)) :
    (CMap.keys (ps.foldl (fun document_to_relevance doc => CMap.erase document_to_relevance doc.1)
      acc)).Pairwise (· < ·) := by
  induction ps generalizing acc with
  | nil => exact hacc
  | cons e rest ih => exact ih _ (CMap.sorted_erase hacc _)

theorem eraseMinusWords_ok [LinearOrderedField R] (s : SearchServer R) (ws : List Str)
    (acc : CMap Int R) (hacc : (CMap.keys acc).Pairwise (· < ·)) :
    (CMap.keys (eraseMinusWords s ws acc)).Pairwise (· < ·)
      ∧ ∀ i, CMap.find (eraseMinusWords s ws acc) i =
          if ws.any (fun w => hasPosting s w i) = true then none else CMap.find acc i := by
  induction ws generalizing acc with
  | nil => exact ⟨hacc, fun i => by simp [eraseMinusWords]⟩
  | cons w rest ih =>
    simp only [eraseMinusWords]
    cases hf : CMap.find s.word_to_document_freqs_ w with
    | none =>
      refine ⟨(ih acc hacc).1, fun i => ?_⟩
      rw [(ih acc hacc).2]
      simp [hasPosting_of_none hf]
    | some p =>
      have hs := foldl_erase_sorted p acc hacc
      refine ⟨(ih _ hs).1, fun i => ?_⟩
      simp only
      rw [(ih _ hs).2, foldl_erase_find]
      by_cases hp : (CMap.find p i).isSome = true
      · simp [hasPosting_of_some hf, hp]
      · simp [hasPosting_of_some hf, hp]

theorem buildDocuments_ok (s : SearchServer R) (m : List (Int × R)) (acc : List (Document R))
    (hst : ∀ e ∈ m, (CMap.find s.documents_ e.1).isSome = true) :
    buildDocuments s m acc = .ok (acc ++ m.map (fun e => ⟨e.1, e.2, storedRating s e.1⟩)) := by
  induction m generalizing acc with
  | nil => simp [buildDocuments]
  | cons e rest ih =>
    simp only [List.mem_cons, forall_eq_or_imp] at hst
    obtain ⟨d, hd⟩ := Option.isSome_iff_exists.1 hst.1
    simp only [buildDocuments, hd]
    rw [ih _ hst.2]
    simp [storedRating, hd]

end SearchServer


/-! ## The result of `FindTopDocuments` in closed form -/

theorem sortInsert_perm {α : Type} (comp : α → α → Bool) (x : α) (l : List α) :
    (sortInsert comp x l).Perm (x :: l) := by
  induction l with
  | nil => simp [sortInsert]
  | cons y rest ih =>
    simp only [sortInsert]
    split_ifs
    · exact (ih.cons y).trans (List.Perm.swap x y rest)
    · exact List.Perm.refl _

theorem stdSort_perm {α : Type} (comp : α → α → Bool) (l : List α) : (stdSort comp l).Perm l := by
  induction l with
  | nil => simp [stdSort]
  | cons x rest ih =>
    simp only [stdSort]
    exact (sortInsert_perm comp x _).trans (ih.cons x)

namespace SearchServer

variable {R : Type} {rnd : R → R}

theorem isMatch_iff (s : SearchServer R) (query : Query)
    (predicate : Int → DocumentStatus → Int → Bool) (i : Int) :
    isMatch s query predicate i = true ↔
      (∃ w ∈ query.plus_words, hasPosting s w i = true)
      ∧ (∃ d, CMap.find s.documents_ i = some d ∧ predicate i d.status d.rating = true)
      ∧ (∀ w ∈ query.minus_words, hasPosting s w i = false) := by
  unfold isMatch
  simp only [Bool.and_eq_true, List.any_eq_true, Bool.not_eq_true', List.any_eq_false,
    Bool.not_eq_true]
  constructor
  · rintro ⟨⟨h1, h2⟩, h3⟩
    exact ⟨h1, stored_of_predicateHolds h2, h3⟩
  · rintro ⟨h1, ⟨d, hd, hp⟩, h3⟩
    exact ⟨⟨h1, by rw [predicateHolds_of_find hd]; exact hp⟩, h3⟩

theorem idfCount_exact [LinearOrderedField R] (ln : R → R) (s : SearchServer R) (size : Nat) :
    IDFCount id ln s size = ln ((GetDocumentCount s : R) / (size : R)) := by
  simp [IDFCount]

theorem foldl_addScore_exact [LinearOrderedField R] (ln : R → R) (s : SearchServer R) (i : Int)
    (ws : List Str) (x : R) :
    ws.foldl (addScore id ln s i) x
      = x + (ws.map (fun w =>
          ln ((GetDocumentCount s : R) / (docFreq s w : R)) * termFreq s w i)).sum := by
  induction ws generalizing x with
  | nil => simp
  | cons w rest ih =>
    rw [List.foldl_cons, ih, List.map_cons, List.sum_cons]
    simp only [addScore, idfCount_exact, id]
    ring

/-- In exact arithmetic the accumulated relevance is the TF-IDF sum. -/
theorem relevance_exact [LinearOrderedField R] (ln : R → R) (s : SearchServer R) (query : Query)
    (i : Int) : relevance id ln s query i = tfIdf ln s query i := by
  unfold relevance tfIdf
  rw [foldl_addScore_exact, zero_add]

theorem findAllDocuments_eq [LinearOrderedField R] (ln : R → R) (s : SearchServer R)
    (hwf : WellFormed s) (query : Query) (predicate : Int → DocumentStatus → Int → Bool) :
    FindAllDocuments rnd ln s query predicate =
      .ok ((matchingDocuments s query predicate).map
        (fun i => (⟨i, relevance rnd ln s query i, storedRating s i⟩ : Document R))) := by
  obtain ⟨acc1, h1, h2, h3⟩ :=
    @scorePlusWords_ok R rnd _ ln s hwf predicate query.plus_words [] (by simp [CMap.keys])
  obtain ⟨hM, hfind⟩ := eraseMinusWords_ok s query.minus_words acc1 h2
  have hfindM : ∀ i, CMap.find (eraseMinusWords s query.minus_words acc1) i =
      if isMatch s query predicate i = true then some (relevance rnd ln s query i)
      else none := by
    intro i
    rw [hfind, h3]
    unfold isMatch relevance
    by_cases hm : query.minus_words.any (fun w => hasPosting s w i) = true
    · simp [hm]
    · by_cases hP : predicateHolds s predicate i = true
      · by_cases hp : query.plus_words.any (fun w => hasPosting s w i) = true
        · simp only [hm, hP, hp, if_false, and_self, if_true, CMap.find, Option.getD_none,
            Bool.and_self, Bool.not_false]
          simp
        · simp [hm, hP, hp, CMap.find]
      · simp [hm, hP, CMap.find]
  have hmem : ∀ i, i ∈ CMap.keys (eraseMinusWords s query.minus_words acc1)
      ↔ isMatch s query predicate i = true := by
    intro i
    rw [← CMap.find_isSome_iff, hfindM]
    split_ifs with h <;> simp [h]
  have hkeys : CMap.keys (eraseMinusWords s query.minus_words acc1)
      = matchingDocuments s query predicate := by
    have hsorted2 : (matchingDocuments s query predicate).Pairwise (· < ·) :=
      hwf.documents_sorted.sublist (List.filter_sublist _)
    apply List.eq_of_perm_of_sorted _ hM hsorted2
    apply (List.perm_ext_iff_of_nodup (hM.imp ne_of_lt) (hsorted2.imp ne_of_lt)).2
    intro i
    rw [hmem]
    unfold matchingDocuments
    rw [List.mem_filter]
    constructor
    · intro hi
      refine ⟨?_, hi⟩
      obtain ⟨-, ⟨d, hd, -⟩, -⟩ := (isMatch_iff s query predicate i).1 hi
      rw [← CMap.find_isSome_iff, hd]
      rfl
    · exact fun hi => hi.2
  have hstored : ∀ e ∈ eraseMinusWords s query.minus_words acc1,
      (CMap.find s.documents_ e.1).isSome = true := by
    intro e he
    have hk : e.1 ∈ CMap.keys (eraseMinusWords s query.minus_words acc1) :=
      List.mem_map.2 ⟨e, he, rfl⟩
    obtain ⟨-, ⟨d, hd, -⟩, -⟩ := (isMatch_iff s query predicate e.1).1 ((hmem e.1).1 hk)
    rw [hd]; rfl
  unfold FindAllDocuments
  simp only [h1]
  rw [buildDocuments_ok s _ [] hstored, List.nil_append, ← hkeys]
  unfold CMap.keys
  rw [List.map_map]
  congr 1
  apply List.map_congr_left
  intro e he
  have hk : e.1 ∈ CMap.keys (eraseMinusWords s query.minus_words acc1) :=
    List.mem_map.2 ⟨e, he, rfl⟩
  have hv := CMap.find_of_mem hM (show (e.1, e.2) ∈ _ from he)
  rw [hfindM, if_pos ((hmem e.1).1 hk)] at hv
  simp only [Option.some.injEq] at hv
  simp [hv]

theorem findTopDocuments_eq [LinearOrderedField R] (ln : R → R) (s : SearchServer R)
    (hwf : WellFormed s) (raw_query : Str) (predicate : Int → DocumentStatus → Int → Bool)
    (hne : raw_query ≠ []) (hvalid : checkQueryWords (SplitIntoWords raw_query) = .ok ()) :
    ∃ query, ParseQuery s raw_query = .ok query
      ∧ query.plus_words.Pairwise (· < ·)
      ∧ FindTopDocuments rnd ln s raw_query predicate =
        .ok ((stdSort (compareDocuments rnd) ((matchingDocuments s query predicate).map
          (fun i => (⟨i, relevance rnd ln s query i, storedRating s i⟩ : Document R)))).take
            MAX_RESULT_DOCUMENT_COUNT) := by
  have hall : (SplitIntoWords raw_query).all (fun w => IsValidWord w && IsValidMinusWord w) = true := by
    rw [checkQueryWords_eq] at hvalid
    by_contra hc
    rw [if_neg hc] at hvalid
    exact absurd hvalid (by simp)
  obtain ⟨query, hq⟩ := parseQuery_ok_of_valid s raw_query hall
  have hempty : raw_query.isEmpty = false := by
    cases raw_query with
    | nil => exact absurd rfl hne
    | cons a t => rfl
  refine ⟨query, hq, (parseQuery_sorted s raw_query query hq).1, ?_⟩
  unfold FindTopDocuments
  simp only [hempty, hvalid, hq, findAllDocuments_eq ln s hwf query predicate,
    Bool.false_eq_true, if_false]
  split_ifs with hlen
  · rfl
  · simp only [Except.ok.injEq]
    rw [List.take_of_length_le]
    simpa using hlen

end SearchServer


/-! ## Membership and length of the result (C1, C4) -/

namespace SearchServer

variable {R : Type} {rnd : R → R}

theorem mem_result_iff [LinearOrderedField R] (ln : R → R) (s : SearchServer R) (query : Query)
    (predicate : Int → DocumentStatus → Int → Bool) (d : Document R)
    (hd : d ∈ (stdSort (compareDocuments rnd) ((matchingDocuments s query predicate).map
          (fun i => (⟨i, relevance rnd ln s query i, storedRating s i⟩ : Document R)))).take
            MAX_RESULT_DOCUMENT_COUNT) :
    isMatch s query predicate d.id = true ∧ d.id ∈ CMap.keys s.documents_
      ∧ d.relevance = relevance rnd ln s query d.id ∧ d.rating = storedRating s d.id := by
  have h1 := (stdSort_perm _ _).mem_iff.1 (List.mem_of_mem_take hd)
  obtain ⟨i, hi, rfl⟩ := List.mem_map.1 h1
  unfold matchingDocuments at hi
  rw [List.mem_filter] at hi
  exact ⟨hi.2, hi.1, rfl, rfl⟩

theorem result_ids_perm [LinearOrderedField R] (ln : R → R) (s : SearchServer R) (query : Query)
    (predicate : Int → DocumentStatus → Int → Bool) :
    ((stdSort (compareDocuments rnd) ((matchingDocuments s query predicate).map
          (fun i => (⟨i, relevance rnd ln s query i, storedRating s i⟩ : Document R)))).map
            (fun d => d.id)).Perm (matchingDocuments s query predicate) := by
  have h := (stdSort_perm (compareDocuments rnd) ((matchingDocuments s query predicate).map
          (fun i => (⟨i, relevance rnd ln s query i, storedRating s i⟩ : Document R)))).map (fun d => d.id)
  rw [List.map_map] at h
  have hid : ((fun d : Document R => d.id) ∘
      (fun i => (⟨i, relevance rnd ln s query i, storedRating s i⟩ : Document R))) = id := rfl
  rw [hid, List.map_id] at h
  exact h

end SearchServer

/-- C1. On a reachable server and for an accepted query, `FindTopDocuments` returns a list such
that every returned document (a) has a posting under some plus word of the parsed query,
(b) satisfies the predicate with its stored status and rating and (c) has no posting under any
minus word; `isMatch` is the conjunction of (a), (b), (c), and when at most 5 stored documents
match, each matching document id occurs exactly once in the result. -/
theorem C1_FindTopDocuments_membership {R : Type} [LinearOrderedField R] (rnd ln : R → R)
    (s : SearchServer R) (hs : Reachable rnd s) (raw_query : Str)
    (predicate : Int → DocumentStatus → Int → Bool) (hne : raw_query ≠ [])
    (hvalid : checkQueryWords (SplitIntoWords raw_query) = .ok ()) :
    ∃ query res, ParseQuery s raw_query = .ok query
      ∧ FindTopDocuments rnd ln s raw_query predicate = .ok res
      ∧ (∀ d ∈ res,
          (∃ w ∈ query.plus_words, hasPosting s w d.id = true)
          ∧ (∃ data, CMap.find s.documents_ d.id = some data
              ∧ predicate d.id data.status data.rating = true)
          ∧ (∀ w ∈ query.minus_words, hasPosting s w d.id = false))
      ∧ (∀ i, isMatch s query predicate i = true ↔
          (∃ w ∈ query.plus_words, hasPosting s w i = true)
          ∧ (∃ data, CMap.find s.documents_ i = some data ∧ predicate i data.status data.rating = true)
          ∧ (∀ w ∈ query.minus_words, hasPosting s w i = false))
      ∧ (((CMap.keys s.documents_).filter (fun i => isMatch s query predicate i)).length ≤ 5 →
          ∀ i, isMatch s query predicate i = true → (res.map (fun d => d.id)).count i = 1) := by
  have hwf := wellFormed_of_reachable hs
  obtain ⟨query, hq, -, hres⟩ := findTopDocuments_eq ln s hwf raw_query predicate hne hvalid
  refine ⟨query, _, hq, hres, ?_, isMatch_iff s query predicate, ?_⟩
  · intro d hd
    exact (isMatch_iff s query predicate d.id).1 (mem_result_iff ln s query predicate d hd).1
  · intro hlen i hi
    have hlen' : (stdSort (compareDocuments rnd) ((matchingDocuments s query predicate).map
          (fun i => (⟨i, relevance rnd ln s query i, storedRating s i⟩ : Document R)))).length
            ≤ MAX_RESULT_DOCUMENT_COUNT := by
      rw [(stdSort_perm _ _).length_eq, List.length_map]
      exact hlen
    rw [List.take_of_length_le hlen', (result_ids_perm ln s query predicate).count_eq]
    have hsorted : (matchingDocuments s query predicate).Pairwise (· < ·) :=
      hwf.documents_sorted.sublist (List.filter_sublist _)
    apply List.count_eq_one_of_mem (hsorted.imp ne_of_lt)
    unfold matchingDocuments
    rw [List.mem_filter]
    refine ⟨?_, hi⟩
    obtain ⟨-, ⟨d, hd, -⟩, -⟩ := (isMatch_iff s query predicate i).1 hi
    rw [← CMap.find_isSome_iff, hd]
    rfl

/-- C4. On a reachable server and for an accepted query, the length of the list returned by
`FindTopDocuments` is `min 5 n`, where `n` is the number of stored documents that carry a plus
word, satisfy the predicate and carry no minus word; so it is at most 5. -/
theorem C4_FindTopDocuments_length {R : Type} [LinearOrderedField R] (rnd ln : R → R)
    (s : SearchServer R) (hs : Reachable rnd s) (raw_query : Str)
    (predicate : Int → DocumentStatus → Int → Bool) (hne : raw_query ≠ [])
    (hvalid : checkQueryWords (SplitIntoWords raw_query) = .ok ()) :
    ∃ query res, ParseQuery s raw_query = .ok query
      ∧ FindTopDocuments rnd ln s raw_query predicate = .ok res
      ∧ res.length = min 5 ((CMap.keys s.documents_).filter (fun i =>
          decide ((∃ w ∈ query.plus_words, hasPosting s w i = true)
            ∧ (∃ data, CMap.find s.documents_ i = some data
                ∧ predicate i data.status data.rating = true)
            ∧ (∀ w ∈ query.minus_words, hasPosting s w i = false)))).length
      ∧ res.length ≤ 5 := by
  have hwf := wellFormed_of_reachable hs
  obtain ⟨query, hq, -, hres⟩ := findTopDocuments_eq ln s hwf raw_query predicate hne hvalid
  refine ⟨query, _, hq, hres, ?_, ?_⟩
  · rw [List.length_take, (stdSort_perm _ _).length_eq, List.length_map]
    unfold matchingDocuments MAX_RESULT_DOCUMENT_COUNT
    congr 2
    apply List.filter_congr
    intro i _
    rw [Bool.eq_iff_iff, isMatch_iff]
    simp
  · rw [List.length_take]
    exact min_le_left _ _


/-- Witness of C1: the server of `main` after the calls of `main` and `TestErrors`, over the
reals, with the query `"пушистый кот"` and the predicate that accepts every document. -/
theorem C1_witness :
    Reachable id (addCalls id (mainServer ℝ) mainCalls)
    ∧ bytes "пушистый кот" ≠ []
    ∧ checkQueryWords (SplitIntoWords (bytes "пушистый кот")) = .ok ()
    ∧ ∃ query res, ParseQuery (addCalls id (mainServer ℝ) mainCalls) (bytes "пушистый кот") = .ok query
      ∧ FindTopDocuments id Real.log (addCalls id (mainServer ℝ) mainCalls) (bytes "пушистый кот")
          (fun _ _ _ => true) = .ok res
      ∧ (∀ d ∈ res,
          (∃ w ∈ query.plus_words, hasPosting (addCalls id (mainServer ℝ) mainCalls) w d.id = true)
          ∧ (∃ data, CMap.find (addCalls id (mainServer ℝ) mainCalls).documents_ d.id = some data
              ∧ (fun _ _ _ => true) d.id data.status data.rating = true)
          ∧ (∀ w ∈ query.minus_words, hasPosting (addCalls id (mainServer ℝ) mainCalls) w d.id = false))
      ∧ (∀ i, isMatch (addCalls id (mainServer ℝ) mainCalls) query (fun _ _ _ => true) i = true ↔
          (∃ w ∈ query.plus_words, hasPosting (addCalls id (mainServer ℝ) mainCalls) w i = true)
          ∧ (∃ data, CMap.find (addCalls id (mainServer ℝ) mainCalls).documents_ i = some data
              ∧ (fun _ _ _ => true) i data.status data.rating = true)
          ∧ (∀ w ∈ query.minus_words, hasPosting (addCalls id (mainServer ℝ) mainCalls) w i = false))
      ∧ (((CMap.keys (addCalls id (mainServer ℝ) mainCalls).documents_).filter
            (fun i => isMatch (addCalls id (mainServer ℝ) mainCalls) query (fun _ _ _ => true) i)).length
            ≤ 5 →
          ∀ i, isMatch (addCalls id (mainServer ℝ) mainCalls) query (fun _ _ _ => true) i = true →
            (res.map (fun d => d.id)).count i = 1) :=
  ⟨⟨mainServer ℝ, mainCalls, Or.inr (Or.inl ⟨bytes "и в на", rfl⟩), rfl⟩, by decide, by decide,
    C1_FindTopDocuments_membership id Real.log (addCalls id (mainServer ℝ) mainCalls)
      ⟨mainServer ℝ, mainCalls, Or.inr (Or.inl ⟨bytes "и в на", rfl⟩), rfl⟩ (bytes "пушистый кот")
      (fun _ _ _ => true) (by decide) (by decide)⟩

/-- Witness of C4: the same server, query and predicate as for C1. -/
theorem C4_witness :
    Reachable id (addCalls id (mainServer ℝ) mainCalls)
    ∧ bytes "пушистый кот" ≠ []
    ∧ checkQueryWords (SplitIntoWords (bytes "пушистый кот")) = .ok ()
    ∧ ∃ query res, ParseQuery (addCalls id (mainServer ℝ) mainCalls) (bytes "пушистый кот") = .ok query
      ∧ FindTopDocuments id Real.log (addCalls id (mainServer ℝ) mainCalls) (bytes "пушистый кот")
          (fun _ _ _ => true) = .ok res
      ∧ res.length = min 5 ((CMap.keys (addCalls id (mainServer ℝ) mainCalls).documents_).filter
          (fun i =>
            decide ((∃ w ∈ query.plus_words, hasPosting (addCalls id (mainServer ℝ) mainCalls) w i = true)
              ∧ (∃ data, CMap.find (addCalls id (mainServer ℝ) mainCalls).documents_ i = some data
                  ∧ (fun _ _ _ => true) i data.status data.rating = true)
              ∧ (∀ w ∈ query.minus_words,
                  hasPosting (addCalls id (mainServer ℝ) mainCalls) w i = false)))).length
      ∧ res.length ≤ 5 :=
  ⟨⟨mainServer ℝ, mainCalls, Or.inr (Or.inl ⟨bytes "и в на", rfl⟩), rfl⟩, by decide, by decide,
    C4_FindTopDocuments_length id Real.log (addCalls id (mainServer ℝ) mainCalls)
      ⟨mainServer ℝ, mainCalls, Or.inr (Or.inl ⟨bytes "и в на", rfl⟩), rfl⟩ (bytes "пушистый кот")
      (fun _ _ _ => true) (by decide) (by decide)⟩


/-! ## The scenario of `main` -/

namespace SearchServer

variable {R : Type} {rnd : R → R}

end SearchServer


/-! ## Relevance and rating of the returned records (C5) -/

namespace SearchServer

variable {R : Type} {rnd : R → R}

theorem isStopWord_addCalls [LinearOrderedField R] (s : SearchServer R) (calls : List AddCall)
    (w : Str) : IsStopWord (addCalls rnd s calls) w = IsStopWord s w := by
  unfold IsStopWord
  rw [stop_words_addCalls]

theorem hasPosting_addCall_of_succeeds [LinearOrderedField R] (s : SearchServer R) (c : AddCall)
    (hc : callSucceeds rnd s c = true) (w : Str) (i : Int) :
    hasPosting (addCall rnd s c) w i =
      (decide (i = c.document_id ∧ w ∈ SplitIntoWords c.document ∧ IsStopWord s w = false)
        || hasPosting s w i) := by
  rw [addCall_of_succeeds s c hc]
  unfold hasPosting
  simp only [postingOf_foldl_addFreq, List.mem_filter, Bool.not_eq_true']
  by_cases h : i = c.document_id ∧ w ∈ SplitIntoWords c.document ∧ IsStopWord s w = false
  · simp [h]
  · have h' : ¬ (i = c.document_id ∧ (w ∈ SplitIntoWords c.document ∧ IsStopWord s w = false)) := h
    simp only [h', if_false, h, decide_False, Bool.false_or]

theorem hasPosting_addCall_mono [LinearOrderedField R] (s : SearchServer R) (c : AddCall)
    (w : Str) (i : Int) (h : hasPosting s w i = true) : hasPosting (addCall rnd s c) w i = true := by
  by_cases hc : callSucceeds rnd s c = true
  · rw [hasPosting_addCall_of_succeeds s c hc, h, Bool.or_true]
  · have hc' : callSucceeds rnd s c = false := by simpa using hc
    rw [addCall_of_fails s c hc']
    exact h

theorem hasPosting_addCalls_mono [LinearOrderedField R] (s : SearchServer R)
    (calls : List AddCall) (w : Str) (i : Int) (h : hasPosting s w i = true) :
    hasPosting (addCalls rnd s calls) w i = true := by
  induction calls generalizing s with
  | nil => exact h
  | cons c rest ih => exact ih _ (hasPosting_addCall_mono s c w i h)

theorem parseWord_minus_mono (s : SearchServer R) (query : Query) (word w : Str)
    (h : w ∈ query.minus_words) : w ∈ (parseWord s query word).minus_words := by
  simp only [parseWord]
  split_ifs
  · exact (CSet.mem_insert _ _ _).2 (Or.inr h)
  · exact h
  · exact h

theorem foldl_parseWord_minus_mono (s : SearchServer R) (words : List Str) (query : Query)
    (w : Str) (h : w ∈ query.minus_words) : w ∈ (words.foldl (parseWord s) query).minus_words := by
  induction words generalizing query with
  | nil => exact h
  | cons a rest ih => exact ih _ (parseWord_minus_mono s query a w h)

theorem foldl_parseWord_minus_mem (s : SearchServer R) (words : List Str) (query : Query)
    (w : Str) (hw : (cMinus :: w) ∈ words) (hstop : IsStopWord s w = false) :
    w ∈ (words.foldl (parseWord s) query).minus_words := by
  induction words generalizing query with
  | nil => simp at hw
  | cons a rest ih =>
    rcases List.mem_cons.1 hw with h | h
    · subst h
      rw [List.foldl_cons]
      apply foldl_parseWord_minus_mono
      simp only [parseWord, charAt, List.getD_cons_zero, if_true, List.drop_succ_cons, List.drop_zero,
        hstop, Bool.not_false]
      exact (CSet.mem_insert _ _ _).2 (Or.inl rfl)
    · exact ih _ h

theorem parseQuery_minus_mem (s : SearchServer R) (raw_query : Str) (query : Query)
    (hq : ParseQuery s raw_query = .ok query) (w : Str)
    (hw : (cMinus :: w) ∈ SplitIntoWords raw_query) (hstop : IsStopWord s w = false)
    (hnstop : IsStopWord s (cMinus :: w) = false) : w ∈ query.minus_words := by
  unfold ParseQuery at hq
  rw [noStop_eq] at hq
  split_ifs at hq with hv
  simp only [Except.ok.injEq] at hq
  subst hq
  apply foldl_parseWord_minus_mem s _ _ w _ hstop
  rw [List.mem_filter]
  exact ⟨hw, by simp [hnstop]⟩

end SearchServer

/-- C2, amended. On a server reached from construction, if a successful `AddDocument` call had a
text with a token `w` that is not a stop word, and an accepted query has the token `-w`, and the
token `-w` (with its minus sign) is not itself a stop word, then `FindTopDocuments` returns a list
in which the id of that document does not occur, whatever the predicate. -/
theorem C2_minus_word_exclusion {R : Type} [LinearOrderedField R] (rnd ln : R → R)
    (s0 : SearchServer R) (h0 : Constructed s0) (before after : List AddCall) (c : AddCall)
    (hc : callSucceeds rnd (addCalls rnd s0 before) c = true) (w : Str)
    (hw : w ∈ SplitIntoWords c.document) (hstop : IsStopWord s0 w = false)
    (raw_query : Str) (hne : raw_query ≠ [])
    (hvalid : checkQueryWords (SplitIntoWords raw_query) = .ok ())
    (hneg : (cMinus :: w) ∈ SplitIntoWords raw_query)
    (hnstop : IsStopWord s0 (cMinus :: w) = false)
    (predicate : Int → DocumentStatus → Int → Bool) :
    ∃ res, FindTopDocuments rnd ln (addCalls rnd s0 (before ++ c :: after)) raw_query predicate = .ok res
      ∧ ∀ d ∈ res, d.id ≠ c.document_id := by
  have hwf : WellFormed (addCalls rnd s0 (before ++ c :: after)) :=
    wellFormed_addCalls s0 _ (wellFormed_of_constructed h0)
  obtain ⟨query, hq, -, hres⟩ :=
    @findTopDocuments_eq R rnd _ ln _ hwf raw_query predicate hne hvalid
  refine ⟨_, hres, ?_⟩
  intro d hd hid
  have hm := (mem_result_iff ln _ query predicate d hd).1
  obtain ⟨-, -, hminus⟩ := (isMatch_iff _ query predicate d.id).1 hm
  have hwq : w ∈ query.minus_words :=
    parseQuery_minus_mem _ raw_query query hq w hneg
      (by rw [isStopWord_addCalls]; exact hstop) (by rw [isStopWord_addCalls]; exact hnstop)
  have hpost : hasPosting (addCalls rnd s0 (before ++ c :: after)) w c.document_id = true := by
    rw [addCalls_append]
    simp only [addCalls]
    apply hasPosting_addCalls_mono
    rw [hasPosting_addCall_of_succeeds _ c hc]
    have : IsStopWord (addCalls rnd s0 before) w = false := by rw [isStopWord_addCalls]; exact hstop
    simp [hw, this]
  have hfalse := hminus w hwq
  rw [hid, hpost] at hfalse
  exact Bool.noConfusion hfalse

/-- Witness of C2: the document of `main` and the query `"пушистый -кот"`. -/
theorem C2_witness :
    Constructed (mainServer ℝ)
    ∧ callSucceeds id (addCalls id (mainServer ℝ) [])
        ⟨1, bytes "пушистый кот пушистый хвост", DocumentStatus.ACTUAL, [7, 2, 7]⟩ = true
    ∧ bytes "кот" ∈ SplitIntoWords (bytes "пушистый кот пушистый хвост")
    ∧ IsStopWord (mainServer ℝ) (bytes "кот") = false
    ∧ bytes "пушистый -кот" ≠ []
    ∧ checkQueryWords (SplitIntoWords (bytes "пушистый -кот")) = .ok ()
    ∧ (cMinus :: bytes "кот") ∈ SplitIntoWords (bytes "пушистый -кот")
    ∧ IsStopWord (mainServer ℝ) (cMinus :: bytes "кот") = false
    ∧ ∃ res, FindTopDocuments id Real.log
        (addCalls id (mainServer ℝ)
          ([] ++ (⟨1, bytes "пушистый кот пушистый хвост", DocumentStatus.ACTUAL, [7, 2, 7]⟩ : AddCall)
            :: mainCalls.tail))
        (bytes "пушистый -кот") (fun _ _ _ => true) = .ok res
      ∧ ∀ d ∈ res, d.id ≠ (⟨1, bytes "пушистый кот пушистый хвост", DocumentStatus.ACTUAL,
          [7, 2, 7]⟩ : AddCall).document_id :=
  ⟨Or.inr (Or.inl ⟨bytes "и в на", rfl⟩), by decide, by decide, by decide, by decide, by decide,
    by decide, by decide,
    C2_minus_word_exclusion id Real.log (mainServer ℝ) (Or.inr (Or.inl ⟨bytes "и в на", rfl⟩)) []
      mainCalls.tail ⟨1, bytes "пушистый кот пушистый хвост", DocumentStatus.ACTUAL, [7, 2, 7]⟩
      (by decide) (bytes "кот") (by decide) (by decide) (bytes "пушистый -кот") (by decide)
      (by decide) (by decide) (by decide) (fun _ _ _ => true)⟩

/-- Counterexample to C2 as stated: with the stop word `"-b"`, the document `"a b"` holds the
token `b`, which is not a stop word, the accepted query `"a -b"` negates `b`, and the document is
returned all the same, because the token `-b` is dropped as a stop word before it is parsed. -/
theorem C2_counterexample :
    ofString (bytes "-b") = .ok (⟨[], [], [bytes "-b"], []⟩ : SearchServer ℝ)
    ∧ callSucceeds id (⟨[], [], [bytes "-b"], []⟩ : SearchServer ℝ)
        ⟨1, bytes "a b", DocumentStatus.ACTUAL, [1]⟩ = true
    ∧ bytes "b" ∈ SplitIntoWords (bytes "a b")
    ∧ IsStopWord (⟨[], [], [bytes "-b"], []⟩ : SearchServer ℝ) (bytes "b") = false
    ∧ bytes "a -b" ≠ []
    ∧ checkQueryWords (SplitIntoWords (bytes "a -b")) = .ok ()
    ∧ (cMinus :: bytes "b") ∈ SplitIntoWords (bytes "a -b")
    ∧ FindTopDocuments id Real.log
        (addCall id (⟨[], [], [bytes "-b"], []⟩ : SearchServer ℝ)
          ⟨1, bytes "a b", DocumentStatus.ACTUAL, [1]⟩)
        (bytes "a -b") (fun _ _ _ => true) = .ok [⟨1, 0, 1⟩] := by
  refine ⟨rfl, by decide, by decide, by decide, by decide, by decide, by decide, ?_⟩
  have hwf : WellFormed (addCall id (⟨[], [], [bytes "-b"], []⟩ : SearchServer ℝ)
      ⟨1, bytes "a b", DocumentStatus.ACTUAL, [1]⟩) :=
    wellFormed_addCall _ _ (wellFormed_of_constructed (Or.inr (Or.inl ⟨bytes "-b", rfl⟩)))
  obtain ⟨query, hq, -, hres⟩ := @findTopDocuments_eq ℝ id _ Real.log _ hwf (bytes "a -b")
    (fun _ _ _ => true) (by decide) (by decide)
  have hq' : ParseQuery (addCall id (⟨[], [], [bytes "-b"], []⟩ : SearchServer ℝ)
      ⟨1, bytes "a b", DocumentStatus.ACTUAL, [1]⟩) (bytes "a -b") = .ok ⟨[bytes "a"], []⟩ := rfl
  rw [hq'] at hq
  simp only [Except.ok.injEq] at hq
  subst hq
  rw [hres]
  have hm : matchingDocuments (addCall id (⟨[], [], [bytes "-b"], []⟩ : SearchServer ℝ)
      ⟨1, bytes "a b", DocumentStatus.ACTUAL, [1]⟩) ⟨[bytes "a"], []⟩ (fun _ _ _ => true) = [1] := rfl
  have hrel : tfIdf Real.log (addCall id (⟨[], [], [bytes "-b"], []⟩ : SearchServer ℝ)
      ⟨1, bytes "a b", DocumentStatus.ACTUAL, [1]⟩) ⟨[bytes "a"], []⟩ 1 = 0 := by
    have hf : (List.filter (fun w => hasPosting (addCall id (⟨[], [], [bytes "-b"], []⟩ : SearchServer ℝ)
        ⟨1, bytes "a b", DocumentStatus.ACTUAL, [1]⟩) w 1) [bytes "a"]) = [bytes "a"] := rfl
    have hN : GetDocumentCount (addCall id (⟨[], [], [bytes "-b"], []⟩ : SearchServer ℝ)
        ⟨1, bytes "a b", DocumentStatus.ACTUAL, [1]⟩) = 1 := by
      have hl : (addCall id (⟨[], [], [bytes "-b"], []⟩ : SearchServer ℝ)
        ⟨1, bytes "a b", DocumentStatus.ACTUAL, [1]⟩).documents_.length = 1 := rfl
      rw [GetDocumentCount, hl]
      decide
    have hdf : docFreq (addCall id (⟨[], [], [bytes "-b"], []⟩ : SearchServer ℝ)
        ⟨1, bytes "a b", DocumentStatus.ACTUAL, [1]⟩) (bytes "a") = 1 := rfl
    unfold tfIdf
    simp only [hf, hN, hdf, List.map_cons, List.map_nil, List.sum_cons, List.sum_nil, Int.cast_one,
      Nat.cast_one, div_one, Real.log_one, zero_mul, add_zero]
  have hrat : storedRating (addCall id (⟨[], [], [bytes "-b"], []⟩ : SearchServer ℝ)
      ⟨1, bytes "a b", DocumentStatus.ACTUAL, [1]⟩) 1 = 1 := rfl
  rw [hm]
  simp only [List.map_cons, List.map_nil, relevance_exact, hrel, hrat, stdSort, sortInsert]
  rfl


/-! ## The sort and the comparator -/

namespace SearchServer

variable {R : Type} [LinearOrderedField R] {rnd : R → R}

theorem epsilon_pos (h : RoundsToNearest rnd) : (0 : R) < EPSILON rnd :=
  h.eps_pos

theorem rnd_nonneg (h : RoundsToNearest rnd) (x : R) (hx : 0 ≤ x) : 0 ≤ rnd x := by
  have := h.monotone 0 x hx
  rwa [h.map_zero] at this

/-- The test of the comparator for a near tie is symmetric. -/
theorem near_comm (h : RoundsToNearest rnd) (a b : R) :
    abs (rnd (a - b)) = abs (rnd (b - a)) := by
  rw [← neg_sub b a, h.map_neg, abs_neg]

theorem near_self (h : RoundsToNearest rnd) (a : R) : abs (rnd (a - a)) < EPSILON rnd := by
  rw [sub_self, h.map_zero, abs_zero]
  exact epsilon_pos h

/-- A relevance between two relevances in a near tie is in a near tie with both. -/
theorem near_of_between (h : RoundsToNearest rnd) (a b c : R) (hcb : c ≤ b) (hba : b ≤ a)
    (hn : abs (rnd (a - c)) < EPSILON rnd) :
    abs (rnd (a - b)) < EPSILON rnd ∧ abs (rnd (b - c)) < EPSILON rnd := by
  have hac : 0 ≤ rnd (a - c) := rnd_nonneg h _ (by linarith)
  rw [abs_of_nonneg hac] at hn
  constructor
  · rw [abs_of_nonneg (rnd_nonneg h _ (by linarith))]
    exact lt_of_le_of_lt (h.monotone _ _ (by linarith)) hn
  · rw [abs_of_nonneg (rnd_nonneg h _ (by linarith))]
    exact lt_of_le_of_lt (h.monotone _ _ (by linarith)) hn

theorem compareDocuments_eq_false_iff (h : RoundsToNearest rnd) (a b : Document R) :
    compareDocuments rnd b a = false ↔
      (abs (rnd (a.relevance - b.relevance)) < EPSILON rnd → a.rating ≥ b.rating)
      ∧ (¬ abs (rnd (a.relevance - b.relevance)) < EPSILON rnd → a.relevance > b.relevance) := by
  unfold compareDocuments
  rw [near_comm h b.relevance a.relevance]
  by_cases hn : abs (rnd (a.relevance - b.relevance)) < EPSILON rnd
  · simp only [hn, if_true, decide_eq_false_iff_not, gt_iff_lt, not_lt, ge_iff_le, forall_const,
      not_true_eq_false, IsEmpty.forall_iff, and_true]
  · simp only [hn, if_false, decide_eq_false_iff_not, gt_iff_lt, not_lt, IsEmpty.forall_iff,
      not_false_eq_true, forall_const, true_and]
    constructor
    · intro hle
      rcases lt_or_eq_of_le hle with h1 | h1
      · exact h1
      · exfalso
        apply hn
        rw [h1]
        exact near_self h _
    · exact le_of_lt

theorem compareDocuments_asymm (h : RoundsToNearest rnd) (a b : Document R)
    (hab : compareDocuments rnd a b = true) : compareDocuments rnd b a = false := by
  unfold compareDocuments at *
  rw [near_comm h b.relevance a.relevance]
  by_cases hn : abs (rnd (a.relevance - b.relevance)) < EPSILON rnd
  · simp only [hn, if_true, decide_eq_true_eq, decide_eq_false_iff_not] at hab ⊢
    omega
  · simp only [hn, if_false, decide_eq_true_eq, decide_eq_false_iff_not] at hab ⊢
    exact not_lt.2 (le_of_lt hab)

theorem compareDocuments_trans (h : RoundsToNearest rnd) (a b c : Document R)
    (hnear : abs (rnd (a.relevance - b.relevance)) < EPSILON rnd →
      abs (rnd (b.relevance - c.relevance)) < EPSILON rnd →
      abs (rnd (a.relevance - c.relevance)) < EPSILON rnd)
    (hnear2 : abs (rnd (a.relevance - c.relevance)) < EPSILON rnd →
      abs (rnd (c.relevance - b.relevance)) < EPSILON rnd →
      abs (rnd (a.relevance - b.relevance)) < EPSILON rnd)
    (hnear3 : abs (rnd (b.relevance - a.relevance)) < EPSILON rnd →
      abs (rnd (a.relevance - c.relevance)) < EPSILON rnd →
      abs (rnd (b.relevance - c.relevance)) < EPSILON rnd)
    (hab : compareDocuments rnd b a = false) (hbc : compareDocuments rnd c b = false) :
    compareDocuments rnd c a = false := by
  rw [compareDocuments_eq_false_iff h] at hab hbc ⊢
  by_cases h1 : abs (rnd (a.relevance - b.relevance)) < EPSILON rnd
  · by_cases h2 : abs (rnd (b.relevance - c.relevance)) < EPSILON rnd
    · have h3 := hnear h1 h2
      refine ⟨fun _ => ?_, fun hn => absurd h3 hn⟩
      have := hab.1 h1
      have := hbc.1 h2
      omega
    · have hbc' := hbc.2 h2
      have hnot : ¬ abs (rnd (a.relevance - c.relevance)) < EPSILON rnd := by
        intro h3
        apply h2
        rw [near_comm h] at h1
        exact hnear3 h1 h3
      have hac : a.relevance > c.relevance := by
        by_contra hle
        have hle' : a.relevance ≤ c.relevance := not_lt.1 hle
        rw [near_comm h] at h1
        exact h2 (near_of_between h _ _ _ hle' (le_of_lt hbc') h1).1
      exact ⟨fun h3 => absurd h3 hnot, fun _ => hac⟩
  · have hab' := hab.2 h1
    by_cases h2 : abs (rnd (b.relevance - c.relevance)) < EPSILON rnd
    · have hnot : ¬ abs (rnd (a.relevance - c.relevance)) < EPSILON rnd := by
        intro h3
        apply h1
        rw [near_comm h] at h2
        exact hnear2 h3 h2
      have hac : a.relevance > c.relevance := by
        by_contra hle
        have hle' : a.relevance ≤ c.relevance := not_lt.1 hle
        rw [near_comm h] at h2
        exact h1 (near_of_between h _ _ _ (le_of_lt hab') hle' h2).2
      exact ⟨fun h3 => absurd h3 hnot, fun _ => hac⟩
    · have hbc' := hbc.2 h2
      have hac : a.relevance > c.relevance := lt_trans hbc' hab'
      have hnot : ¬ abs (rnd (a.relevance - c.relevance)) < EPSILON rnd := by
        intro h3
        exact h1 (near_of_between h _ _ _ (le_of_lt hbc') (le_of_lt hab') h3).1
      exact ⟨fun h3 => absurd h3 hnot, fun _ => hac⟩

end SearchServer


/-! ## Binary64 rounding -/

theorem log2Fuel_spec (fuel n : Nat) (hn : n ≠ 0) (hf : n ≤ fuel) :
    2 ^ log2Fuel fuel n ≤ n ∧ n < 2 ^ (log2Fuel fuel n + 1) := by
  induction fuel generalizing n with
  | zero => omega
  | succ fuel ih =>
    unfold log2Fuel
    by_cases h : n < 2
    · rw [if_pos h]
      constructor
      · simp; omega
      · simpa using h
    · rw [if_neg h]
      obtain ⟨h1, h2⟩ := ih (n / 2) (by omega) (by omega)
      simp only [pow_succ] at h2 ⊢
      generalize 2 ^ log2Fuel fuel (n / 2) = p at h1 h2 ⊢
      constructor <;> omega

theorem binaryExponent_spec (x : ℚ) (hx : x ≠ 0) :
    (2 : ℚ) ^ binaryExponent x ≤ |x| ∧ |x| < (2 : ℚ) ^ (binaryExponent x + 1) := by
  unfold binaryExponent
  simp only
  have hnum : x.num.natAbs ≠ 0 := by
    rw [Ne, Int.natAbs_eq_zero, Rat.num_eq_zero]
    exact hx
  obtain ⟨a1, a2⟩ := log2Fuel_spec x.num.natAbs x.num.natAbs hnum le_rfl
  obtain ⟨b1, b2⟩ := log2Fuel_spec x.den x.den x.den_nz le_rfl
  have habs : |x| = (x.num.natAbs : ℚ) / (x.den : ℚ) := by
    conv_lhs => rw [← Rat.num_div_den x]
    rw [abs_div, Nat.abs_cast, ← Int.cast_abs, Int.abs_eq_natAbs, Int.cast_natCast]
  have hden : (0 : ℚ) < x.den := by exact_mod_cast x.den_pos
  have a1' : (2 : ℚ) ^ (log2Fuel x.num.natAbs x.num.natAbs) ≤ (x.num.natAbs : ℚ) := by exact_mod_cast a1
  have a2' : (x.num.natAbs : ℚ) < (2 : ℚ) ^ (log2Fuel x.num.natAbs x.num.natAbs + 1) := by exact_mod_cast a2
  have b1' : (2 : ℚ) ^ (log2Fuel x.den x.den) ≤ (x.den : ℚ) := by exact_mod_cast b1
  have b2' : (x.den : ℚ) < (2 : ℚ) ^ (log2Fuel x.den x.den + 1) := by exact_mod_cast b2
  generalize log2Fuel x.num.natAbs x.num.natAbs = a at *
  generalize log2Fuel x.den x.den = b at *
  have h2 : (0 : ℚ) < 2 := by norm_num
  have hpa : (0 : ℚ) < 2 ^ a := pow_pos h2 a
  have hpb : (0 : ℚ) < 2 ^ b := pow_pos h2 b
  have hup : |x| < (2 : ℚ) ^ ((a : Int) - b + 1) := by
    rw [habs, div_lt_iff₀ hden]
    have e : (2 : ℚ) ^ ((a : Int) - b + 1) = 2 ^ (a + 1) / 2 ^ b := by
      rw [show (a : Int) - b + 1 = ((a + 1 : Nat) : Int) - (b : Nat) by push_cast; ring,
        zpow_sub₀ (ne_of_gt h2), zpow_natCast, zpow_natCast]
    rw [e]
    calc (x.num.natAbs : ℚ) < 2 ^ (a + 1) := a2'
      _ = 2 ^ (a + 1) / 2 ^ b * 2 ^ b := by field_simp
      _ ≤ 2 ^ (a + 1) / 2 ^ b * x.den := by
          apply mul_le_mul_of_nonneg_left b1'
          positivity
  have hlo : (2 : ℚ) ^ ((a : Int) - b - 1) ≤ |x| := by
    rw [habs, le_div_iff₀ hden]
    have e : (2 : ℚ) ^ ((a : Int) - b - 1) = 2 ^ a / 2 ^ (b + 1) := by
      rw [show (a : Int) - b - 1 = ((a : Nat) : Int) - ((b + 1 : Nat) : Int) by push_cast; ring,
        zpow_sub₀ (ne_of_gt h2), zpow_natCast, zpow_natCast]
    rw [e]
    calc 2 ^ a / 2 ^ (b + 1) * (x.den : ℚ) ≤ 2 ^ a / 2 ^ (b + 1) * 2 ^ (b + 1) := by
          apply mul_le_mul_of_nonneg_left (le_of_lt b2')
          positivity
      _ = 2 ^ a := by field_simp
      _ ≤ x.num.natAbs := a1'
  by_cases h : (2 : ℚ) ^ ((a : Int) - b) ≤ |x|
  · rw [if_pos h]
    exact ⟨h, hup⟩
  · rw [if_neg h]
    refine ⟨hlo, ?_⟩
    rw [sub_add_cancel]
    exact not_le.1 h

theorem roundHalfEven_near (m : ℚ) : |(roundHalfEven m : ℚ) - m| ≤ 1 / 2 := by
  unfold roundHalfEven
  simp only
  have h1 := Int.floor_le m
  have h2 := Int.lt_floor_add_one m
  rw [abs_le]
  split_ifs with c1 c2 c3
  · constructor <;> linarith
  · push_cast; constructor <;> linarith
  · constructor <;> linarith
  · push_cast; constructor <;> linarith

theorem roundHalfEven_mono (m1 m2 : ℚ) (h : m1 ≤ m2) : roundHalfEven m1 ≤ roundHalfEven m2 := by
  rcases eq_or_lt_of_le h with h | h
  · rw [h]
  · by_contra hc
    have hc' : roundHalfEven m2 + 1 ≤ roundHalfEven m1 := by omega
    have hq : ((roundHalfEven m2 : ℚ)) + 1 ≤ (roundHalfEven m1 : ℚ) := by exact_mod_cast hc'
    have n1 := abs_le.1 (roundHalfEven_near m1)
    have n2 := abs_le.1 (roundHalfEven_near m2)
    linarith [n1.1, n1.2, n2.1, n2.2]

theorem roundHalfEven_bounds (m : ℚ) (lo hi : Int) (h1 : (lo : ℚ) ≤ m) (h2 : m ≤ (hi : ℚ)) :
    lo ≤ roundHalfEven m ∧ roundHalfEven m ≤ hi := by
  have n := abs_le.1 (roundHalfEven_near m)
  constructor
  · have : (lo : ℚ) - 1 < (roundHalfEven m : ℚ) := by linarith [n.1]
    have : lo - 1 < roundHalfEven m := by exact_mod_cast this
    omega
  · have : (roundHalfEven m : ℚ) < (hi : ℚ) + 1 := by linarith [n.2]
    have : roundHalfEven m < hi + 1 := by exact_mod_cast this
    omega

theorem roundHalfEven_intCast (k : Int) : roundHalfEven (k : ℚ) = k := by
  unfold roundHalfEven
  simp only [Int.floor_intCast, sub_self]
  norm_num

/-- A power of two from the unit in the last place on is a multiple of that unit. -/
theorem pow_eq_mul_ulp (t e : Int) (h : e ≤ t) :
    (2 : ℚ) ^ t = (((2 : Int) ^ (t - e).toNat : Int) : ℚ) * 2 ^ e := by
  have h2 : (2 : ℚ) ≠ 0 := by norm_num
  have ht : t = ((t - e).toNat : Int) + e := by
    rw [Int.toNat_of_nonneg (by omega)]
    ring
  conv_lhs => rw [ht]
  rw [zpow_add₀ h2, zpow_natCast]
  push_cast
  rfl

/-- Rounding does not cross a power of two that is a multiple of the unit in the last place. -/
theorem roundPos_pow (x : ℚ) (t : Int) (ht : ulpExponent x ≤ t) :
    ((2 : ℚ) ^ t ≤ x → (2 : ℚ) ^ t ≤ roundPos x)
    ∧ (x ≤ (2 : ℚ) ^ t → roundPos x ≤ (2 : ℚ) ^ t) := by
  have hq : (0 : ℚ) < 2 ^ ulpExponent x := zpow_pos (by norm_num) _
  have e := pow_eq_mul_ulp t (ulpExponent x) ht
  unfold roundPos
  simp only
  rw [e]
  constructor
  · intro h
    have m1 : (((2 : Int) ^ (t - ulpExponent x).toNat : Int) : ℚ) ≤ x / 2 ^ ulpExponent x := by
      rw [le_div_iff₀ hq]
      exact h
    have r := roundHalfEven_mono _ _ m1
    rw [roundHalfEven_intCast] at r
    apply mul_le_mul_of_nonneg_right _ (le_of_lt hq)
    exact_mod_cast r
  · intro h
    have m1 : x / 2 ^ ulpExponent x ≤ (((2 : Int) ^ (t - ulpExponent x).toNat : Int) : ℚ) := by
      rw [div_le_iff₀ hq]
      exact h
    have r := roundHalfEven_mono _ _ m1
    rw [roundHalfEven_intCast] at r
    apply mul_le_mul_of_nonneg_right _ (le_of_lt hq)
    exact_mod_cast r

theorem roundPos_nonneg (x : ℚ) (hx : 0 ≤ x) : 0 ≤ roundPos x := by
  have hq : (0 : ℚ) < 2 ^ ulpExponent x := zpow_pos (by norm_num) _
  unfold roundPos
  simp only
  apply mul_nonneg _ (le_of_lt hq)
  have r := roundHalfEven_mono 0 (x / 2 ^ ulpExponent x) (div_nonneg hx (le_of_lt hq))
  have h0 : roundHalfEven 0 = 0 := by
    have := roundHalfEven_intCast 0
    simpa using this
  rw [h0] at r
  exact_mod_cast r

theorem binaryExponent_mono (x y : ℚ) (hx : 0 < x) (h : x ≤ y) :
    binaryExponent x ≤ binaryExponent y := by
  have hy : 0 < y := lt_of_lt_of_le hx h
  obtain ⟨s1, -⟩ := binaryExponent_spec x (ne_of_gt hx)
  obtain ⟨-, t2⟩ := binaryExponent_spec y (ne_of_gt hy)
  rw [abs_of_pos hx] at s1
  rw [abs_of_pos hy] at t2
  by_contra hc
  have hc' : binaryExponent y + 1 ≤ binaryExponent x := by omega
  have := zpow_le_zpow_right₀ (show (1 : ℚ) ≤ 2 by norm_num) hc'
  linarith

theorem roundPos_mono (x y : ℚ) (hx : 0 < x) (h : x ≤ y) : roundPos x ≤ roundPos y := by
  have hy : 0 < y := lt_of_lt_of_le hx h
  have he := binaryExponent_mono x y hx h
  have hu : ulpExponent x ≤ ulpExponent y := by
    unfold ulpExponent
    omega
  rcases eq_or_lt_of_le hu with hu' | hu'
  · unfold roundPos
    simp only
    rw [hu']
    have hq : (0 : ℚ) < 2 ^ ulpExponent y := zpow_pos (by norm_num) _
    apply mul_le_mul_of_nonneg_right _ (le_of_lt hq)
    have := roundHalfEven_mono (x / 2 ^ ulpExponent y) (y / 2 ^ ulpExponent y)
      (div_le_div_of_nonneg_right h (le_of_lt hq))
    exact_mod_cast this
  · obtain ⟨-, s2⟩ := binaryExponent_spec x (ne_of_gt hx)
    obtain ⟨t1, -⟩ := binaryExponent_spec y (ne_of_gt hy)
    rw [abs_of_pos hx] at s2
    rw [abs_of_pos hy] at t1
    have hlt : binaryExponent x + 1 ≤ binaryExponent y := by
      unfold ulpExponent at hu'
      omega
    have hxy : x ≤ (2 : ℚ) ^ binaryExponent y :=
      le_trans (le_of_lt s2) (zpow_le_zpow_right₀ (by norm_num) hlt)
    have h1 : ulpExponent x ≤ binaryExponent y := by
      unfold ulpExponent at hu' ⊢
      omega
    have h2 : ulpExponent y ≤ binaryExponent y := by
      unfold ulpExponent at hu' ⊢
      omega
    exact le_trans ((roundPos_pow x _ h1).2 hxy) ((roundPos_pow y _ h2).1 t1)

/-- The relative error of the rounding of a number in the normal range. -/
theorem roundPos_error (x : ℚ) (hx : 1 / 2 ^ 1022 ≤ x) : |roundPos x - x| ≤ 1 / 2 ^ 53 * x := by
  have hx0 : 0 < x := lt_of_lt_of_le (by positivity) hx
  obtain ⟨s1, s2⟩ := binaryExponent_spec x (ne_of_gt hx0)
  rw [abs_of_pos hx0] at s1 s2
  have hnormal : -1022 ≤ binaryExponent x := by
    by_contra hc
    have hc' : binaryExponent x + 1 ≤ -1022 := by omega
    have := zpow_le_zpow_right₀ (show (1 : ℚ) ≤ 2 by norm_num) hc'
    have e : (2 : ℚ) ^ (-1022 : Int) = 1 / 2 ^ 1022 := by
      rw [zpow_neg, one_div]
      norm_cast
    rw [e] at this
    linarith
  have hu : ulpExponent x = binaryExponent x - 52 := by
    unfold ulpExponent
    omega
  unfold roundPos
  simp only
  rw [hu]
  generalize binaryExponent x = e at *
  have h2 : (0 : ℚ) < 2 := by norm_num
  have hq : (0 : ℚ) < 2 ^ (e - 52) := zpow_pos h2 _
  have e1 : (2 : ℚ) ^ e = 2 ^ 52 * 2 ^ (e - 52) := by
    rw [zpow_sub₀ (ne_of_gt h2)]
    rw [show ((2 : ℚ) ^ (52 : Int)) = 2 ^ 52 by norm_cast]
    field_simp
  have n := roundHalfEven_near (x / 2 ^ (e - 52))
  have hx' : x = x / 2 ^ (e - 52) * 2 ^ (e - 52) := by field_simp
  have : (roundHalfEven (x / 2 ^ (e - 52)) : ℚ) * 2 ^ (e - 52) - x
      = ((roundHalfEven (x / 2 ^ (e - 52)) : ℚ) - x / 2 ^ (e - 52)) * 2 ^ (e - 52) := by
    rw [sub_mul, ← hx']
  rw [this, abs_mul, abs_of_pos hq]
  calc |(roundHalfEven (x / 2 ^ (e - 52)) : ℚ) - x / 2 ^ (e - 52)| * 2 ^ (e - 52)
      ≤ 1 / 2 * 2 ^ (e - 52) := mul_le_mul_of_nonneg_right n (le_of_lt hq)
    _ = 1 / 2 ^ 53 * (2 ^ 52 * 2 ^ (e - 52)) := by ring
    _ ≤ 1 / 2 ^ 53 * x := by
        rw [← e1]
        apply mul_le_mul_of_nonneg_left s1
        positivity

theorem roundDouble_zero : roundDouble 0 = 0 := by
  simp [roundDouble]

theorem roundDouble_of_pos (x : ℚ) (hx : 0 < x) : roundDouble x = roundPos x := by
  simp [roundDouble, hx]

theorem roundDouble_neg (x : ℚ) : roundDouble (-x) = - roundDouble x := by
  unfold roundDouble
  rcases lt_trichotomy x 0 with h | h | h
  · have h1 : 0 < -x := by linarith
    have h2 : ¬ 0 < x := by linarith
    simp [h, h1, h2]
  · subst h
    simp
  · have h1 : ¬ 0 < -x := by linarith
    have h2 : -x < 0 := by linarith
    have h3 : ¬ x < 0 := by linarith
    simp [h, h1, h2]

theorem roundDouble_nonneg (x : ℚ) (hx : 0 ≤ x) : 0 ≤ roundDouble x := by
  rcases eq_or_lt_of_le hx with h | h
  · rw [← h, roundDouble_zero]
  · rw [roundDouble_of_pos x h]
    exact roundPos_nonneg x hx

theorem roundDouble_mono (x y : ℚ) (h : x ≤ y) : roundDouble x ≤ roundDouble y := by
  rcases lt_trichotomy 0 x with hx | hx | hx
  · rw [roundDouble_of_pos x hx, roundDouble_of_pos y (lt_of_lt_of_le hx h)]
    exact roundPos_mono x y hx h
  · subst hx
    rw [roundDouble_zero]
    exact roundDouble_nonneg y h
  · have hnx : 0 < -x := by linarith
    have ex : roundDouble x = - roundPos (-x) := by
      rw [← neg_neg x, roundDouble_neg, roundDouble_of_pos _ hnx, neg_neg]
    have hrx := roundPos_nonneg (-x) (le_of_lt hnx)
    rcases le_or_lt 0 y with hy | hy
    · have := roundDouble_nonneg y hy
      linarith
    · have hny : 0 < -y := by linarith
      have ey : roundDouble y = - roundPos (-y) := by
        rw [← neg_neg y, roundDouble_neg, roundDouble_of_pos _ hny, neg_neg]
      rw [ex, ey]
      have := roundPos_mono (-y) (-x) hny (by linarith)
      linarith

/-- In the normal range the relative error of the rounding is at most `2^-53`. -/
theorem roundDouble_error (x : ℚ) (hx : 1 / 2 ^ 1022 ≤ x) :
    |roundDouble x - x| ≤ 1 / 2 ^ 53 * x := by
  have hx0 : 0 < x := lt_of_lt_of_le (by positivity) hx
  rw [roundDouble_of_pos x hx0]
  exact roundPos_error x hx

/-- Binary64 rounding satisfies what the comparator needs of the rounding. -/
theorem roundsToNearest_roundDouble : RoundsToNearest roundDouble :=
  ⟨roundDouble_zero, roundDouble_neg, roundDouble_mono, by decide!⟩


/-! ## Order of the result (C3) -/

namespace SearchServer

variable {R : Type} {rnd : R → R}

theorem postingOf_eq_none_of_fresh [LinearOrderedField R] (s : SearchServer R)
    (hwf : WellFormed s) (i : Int) (hfresh : CMap.find s.documents_ i = none) (w : Str) :
    postingOf s.word_to_document_freqs_ w i = none := by
  unfold postingOf
  cases hf : CMap.find s.word_to_document_freqs_ w with
  | none => rfl
  | some p =>
    simp only
    rw [CMap.find_eq_none_iff]
    intro hi
    have := hwf.postings_stored w p hf i hi
    rw [hfresh] at this
    exact Bool.noConfusion this

end SearchServer


namespace SearchServer

variable {R : Type} {rnd : R → R}

end SearchServer


/-! ## A cycle of near ties and a transitive near tie (C3) -/

theorem foldl_wrapInt32 (ratings : List Int) (acc : Int) :
    ratings.foldl (fun acc r => wrapInt32 (acc + r)) (wrapInt32 acc) = wrapInt32 (acc + ratings.sum) := by
  induction ratings generalizing acc with
  | nil => simp
  | cons r rest ih =>
    rw [List.foldl_cons, wrapInt32_add, ih, List.sum_cons, add_assoc]

theorem accumulate_eq (ratings : List Int) :
    ratings.foldl (fun acc r => wrapInt32 (acc + r)) 0 = wrapInt32 ratings.sum := by
  have h := foldl_wrapInt32 ratings 0
  have h0 : wrapInt32 0 = 0 := by decide
  rw [h0, zero_add] at h
  exact h

namespace SearchServer

variable {R : Type} {rnd : R → R}

theorem computeAverageRating_eq (ratings : List Int) (hne : ratings ≠ []) :
    ComputeAverageRating ratings
      = Int.tdiv (wrapInt32 ratings.sum) (wrapInt32 (ratings.length : Int)) := by
  unfold ComputeAverageRating
  have hempty : ratings.isEmpty = false := by
    cases ratings with
    | nil => exact absurd rfl hne
    | cons a t => rfl
  rw [hempty, accumulate_eq]
  rfl

theorem find_documents_addCall [LinearOrderedField R] (s : SearchServer R) (c : AddCall)
    (hc : callSucceeds rnd s c = true) (i : Int) :
    CMap.find (addCall rnd s c).documents_ i =
      if i = c.document_id then some ⟨ComputeAverageRating c.ratings, c.status⟩
      else CMap.find s.documents_ i := by
  rw [addCall_of_succeeds s c hc]
  exact CMap.find_set _ _ _ _

theorem isValidWord_iff (word : Str) : IsValidWord word = true ↔ ∀ c ∈ word, 32 ≤ c.val := by
  unfold IsValidWord
  rw [List.all_eq_true]
  have hchar : ∀ c : CChar,
      (!(decide (charToInt c ≥ charToInt 0) && decide (charToInt c < charToInt cSpace))) = true
        ↔ 32 ≤ c.val := by
    intro c
    have h0 : charToInt 0 = 0 := by decide
    have h32 : charToInt cSpace = 32 := by decide
    have hlt := c.isLt
    rw [h0, h32]
    unfold charToInt
    simp only [Bool.not_eq_true', Bool.and_eq_false_iff, decide_eq_false_iff_not, ge_iff_le, not_le,
      not_lt]
    split_ifs with h <;> omega
  exact forall_congr' (fun c => forall_congr' (fun _ => hchar c))

end SearchServer

/-- C17, amended. `IsValidWord(word)` is false exactly when the word holds a byte below 0x20,
byte 0 included; it is true exactly when every byte is 0x20 or more (bytes from 0x80 on
included). -/
theorem C17_IsValidWord (word : Str) :
    (IsValidWord word = false ↔ ∃ c ∈ word, c.val < 32)
    ∧ (IsValidWord word = true ↔ ∀ c ∈ word, 32 ≤ c.val) := by
  refine ⟨?_, isValidWord_iff word⟩
  rw [← Bool.not_eq_true, isValidWord_iff]
  simp only [not_forall, not_le, exists_prop]

/-- Counterexample to C17 as stated: the word made of the byte 0 alone holds no byte in
0x01..0x1F and `IsValidWord` is false on it. -/
theorem C17_counterexample :
    IsValidWord ([0] : Str) = false ∧ ¬ ∃ c ∈ ([0] : Str), 1 ≤ c.val ∧ c.val ≤ 31 := by
  decide

/-- C11, amended. `ComputeAverageRating` is 0 on the empty list; on a non-empty list with fewer
than 2^31 ratings whose sum fits in a 32-bit `int` it is the quotient of the sum by the count,
truncated toward zero; it is 5 on `[7,2,7]`; and after a successful `AddDocument` it is the
rating stored for the id. -/
theorem C11_ComputeAverageRating {R : Type} [LinearOrderedField R] (rnd : R → R) (ratings : List Int)
    (hne : ratings ≠ []) (hlen : (ratings.length : Int) < 2147483648)
    (hlo : -2147483648 ≤ ratings.sum) (hhi : ratings.sum < 2147483648)
    (s : SearchServer R) (c : AddCall) (hc : callSucceeds rnd s c = true) :
    ComputeAverageRating [] = 0
    ∧ ComputeAverageRating ratings = Int.tdiv ratings.sum (ratings.length : Int)
    ∧ ComputeAverageRating [7, 2, 7] = 5
    ∧ CMap.find (addCall rnd s c).documents_ c.document_id
        = some ⟨ComputeAverageRating c.ratings, c.status⟩ := by
  refine ⟨rfl, ?_, by decide, ?_⟩
  · rw [computeAverageRating_eq ratings hne, wrapInt32_of_fits _ hlo hhi,
      wrapInt32_of_fits _ (by omega) hlen]
  · rw [find_documents_addCall s c hc, if_pos rfl]

/-- Witness of C11: the ratings and the document of `main`. -/
theorem C11_witness :
    ([7, 2, 7] : List Int) ≠ [] ∧ ((([7, 2, 7] : List Int).length : Int) < 2147483648)
    ∧ -2147483648 ≤ ([7, 2, 7] : List Int).sum ∧ ([7, 2, 7] : List Int).sum < 2147483648
    ∧ callSucceeds roundDouble (mainServer ℚ)
        ⟨1, bytes "пушистый кот пушистый хвост", DocumentStatus.ACTUAL, [7, 2, 7]⟩ = true
    ∧ ComputeAverageRating [] = 0
    ∧ ComputeAverageRating [7, 2, 7] = Int.tdiv ([7, 2, 7] : List Int).sum
        (([7, 2, 7] : List Int).length : Int)
    ∧ ComputeAverageRating [7, 2, 7] = 5
    ∧ CMap.find (addCall roundDouble (mainServer ℚ)
          ⟨1, bytes "пушистый кот пушистый хвост", DocumentStatus.ACTUAL, [7, 2, 7]⟩).documents_
        (⟨1, bytes "пушистый кот пушистый хвост", DocumentStatus.ACTUAL, [7, 2, 7]⟩ : AddCall).document_id
        = some ⟨ComputeAverageRating
            (⟨1, bytes "пушистый кот пушистый хвост", DocumentStatus.ACTUAL, [7, 2, 7]⟩ : AddCall).ratings,
          (⟨1, bytes "пушистый кот пушистый хвост", DocumentStatus.ACTUAL, [7, 2, 7]⟩ : AddCall).status⟩ :=
  ⟨by decide, by decide, by decide, by decide, by decide,
    C11_ComputeAverageRating roundDouble [7, 2, 7] (by decide) (by decide) (by decide) (by decide)
      (mainServer ℚ) ⟨1, bytes "пушистый кот пушистый хвост", DocumentStatus.ACTUAL, [7, 2, 7]⟩
      (by decide)⟩

theorem averageOfLongList (n : Nat) (a : Int) :
    ComputeAverageRating (a :: List.replicate n 0)
      = Int.tdiv (wrapInt32 a) (wrapInt32 ((n : Int) + 1)) := by
  rw [computeAverageRating_eq _ (by simp)]
  have hsum : (a :: List.replicate n (0 : Int)).sum = a := by
    rw [List.sum_cons, List.sum_replicate, smul_zero, add_zero]
  have hlen : (((a :: List.replicate n (0 : Int)).length : Nat) : Int) = (n : Int) + 1 := by
    rw [List.length_cons, List.length_replicate]
    push_cast
    rfl
  rw [hsum, hlen]

/-- Counterexample to C11 as stated: a list of 2^31 ratings, the first `-2^31` and the others 0.
Its sum `-2^31` fits in a 32-bit `int` and the quotient of the sum by the count is `-1`, but the
count cast to `int` is `-2^31` and `ComputeAverageRating` returns 1. -/
theorem C11_counterexample :
    ((-2147483648) :: List.replicate 2147483647 (0 : Int)) ≠ []
    ∧ ((-2147483648) :: List.replicate 2147483647 (0 : Int)).sum = -2147483648
    ∧ ((-2147483648) :: List.replicate 2147483647 (0 : Int)).length = 2147483648
    ∧ Int.tdiv (-2147483648) ((2147483648 : Nat) : Int) = -1
    ∧ ComputeAverageRating ((-2147483648) :: List.replicate 2147483647 0) = 1 := by
  refine ⟨List.cons_ne_nil _ _, ?_, ?_, by decide, ?_⟩
  · rw [List.sum_cons, List.sum_replicate, smul_zero, add_zero]
  · rw [List.length_cons, List.length_replicate]
  · exact (averageOfLongList 2147483647 (-2147483648)).trans (by decide)


/-! ## Keys of the index and insertion order (C12, C19) -/

namespace CMap

variable {K V : Type} [LinearOrder K]

theorem keys_set_perm (m : CMap K V) (k : K) (v : V) (h : k ∉ keys m) :
    (keys (set m k v)).Perm (k :: keys m) := by
  induction m with
  | nil => simp [set, keys]
  | cons e rest ih =>
    obtain ⟨k0, v0⟩ := e
    simp only [keys, List.map_cons, List.mem_cons, not_or] at h
    simp only [set]
    split_ifs with h1 h2
    · exact List.Perm.refl _
    · exact absurd h2 h.1
    · simp only [keys, List.map_cons]
      exact ((ih h.2).cons k0).trans (List.Perm.swap k k0 _)

end CMap

namespace SearchServer

variable {R : Type} {rnd : R → R}

theorem mem_keys_addFreq [LinearOrderedField R] (m : CMap Str (CMap Int R)) (w : Str) (id : Int)
    (f : R) (x : Str) : x ∈ CMap.keys (addFreq rnd m w id f) ↔ x = w ∨ x ∈ CMap.keys m := by
  unfold addFreq
  exact CMap.mem_keys_set _ _ _ _

theorem mem_keys_foldl_addFreq [LinearOrderedField R] (id : Int) (f : R) (ws : List Str)
    (m : CMap Str (CMap Int R)) (x : Str) :
    x ∈ CMap.keys (ws.foldl (fun m word => addFreq rnd m word id f) m) ↔ x ∈ ws ∨ x ∈ CMap.keys m := by
  induction ws generalizing m with
  | nil => simp
  | cons w rest ih =>
    rw [List.foldl_cons, ih, mem_keys_addFreq, List.mem_cons]
    tauto

theorem sorted_foldl_addFreq [LinearOrderedField R] (id : Int) (f : R) (ws : List Str)
    (m : CMap Str (CMap Int R)) (hm : (CMap.keys m).Pairwise (· < ·)) :
    (CMap.keys (ws.foldl (fun m word => addFreq rnd m word id f) m)).Pairwise (· < ·) := by
  induction ws generalizing m with
  | nil => exact hm
  | cons w rest ih =>
    rw [List.foldl_cons]
    apply ih
    unfold addFreq
    exact CMap.sorted_set hm _ _

/-- The part of the invariant that concerns the outer map and the insertion order. -/
theorem index_invariant_addCall [LinearOrderedField R] (s : SearchServer R) (c : AddCall)
    (h : (CMap.keys s.word_to_document_freqs_).Pairwise (· < ·)
      ∧ (∀ w ∈ CMap.keys s.word_to_document_freqs_, IsStopWord s w = false)
      ∧ s.documents_index_.Perm (CMap.keys s.documents_)) :
    (CMap.keys (addCall rnd s c).word_to_document_freqs_).Pairwise (· < ·)
      ∧ (∀ w ∈ CMap.keys (addCall rnd s c).word_to_document_freqs_, IsStopWord (addCall rnd s c) w = false)
      ∧ (addCall rnd s c).documents_index_.Perm (CMap.keys (addCall rnd s c).documents_) := by
  by_cases hc : callSucceeds rnd s c = true
  · have hstop : ∀ w, IsStopWord (addCall rnd s c) w = IsStopWord s w := by
      intro w
      unfold IsStopWord
      rw [stop_words_addCall]
    have hfresh : c.document_id ∉ CMap.keys s.documents_ := by
      rw [callSucceeds_iff] at hc
      rw [← CMap.find_isSome_iff]
      exact fun h' => hc (Or.inr (Or.inl h'))
    refine ⟨?_, ?_, ?_⟩
    · rw [addCall_of_succeeds s c hc]
      exact sorted_foldl_addFreq _ _ _ _ h.1
    · intro w hw
      rw [hstop]
      rw [addCall_of_succeeds s c hc] at hw
      rcases (mem_keys_foldl_addFreq _ _ _ _ _).1 hw with h1 | h1
      · have := (List.mem_filter.1 h1).2
        simpa using this
      · exact h.2.1 w h1
    · rw [addCall_of_succeeds s c hc]
      simp only
      exact ((List.perm_append_comm).trans (h.2.2.cons c.document_id)).trans
        (CMap.keys_set_perm _ _ _ hfresh).symm
  · have hc' : callSucceeds rnd s c = false := by simpa using hc
    rw [addCall_of_fails s c hc']
    exact h

theorem index_invariant_of_reachable [LinearOrderedField R] {s : SearchServer R}
    (hs : Reachable rnd s) :
    (CMap.keys s.word_to_document_freqs_).Pairwise (· < ·)
      ∧ (∀ w ∈ CMap.keys s.word_to_document_freqs_, IsStopWord s w = false)
      ∧ s.documents_index_.Perm (CMap.keys s.documents_) := by
  obtain ⟨s0, calls, h0, rfl⟩ := hs
  obtain ⟨h1, h2, h3⟩ := constructed_fields h0
  have hinit : (CMap.keys s0.word_to_document_freqs_).Pairwise (· < ·)
      ∧ (∀ w ∈ CMap.keys s0.word_to_document_freqs_, IsStopWord s0 w = false)
      ∧ s0.documents_index_.Perm (CMap.keys s0.documents_) := by
    rw [h1, h2, h3]
    simp [CMap.keys]
  clear h0 h1 h2 h3
  induction calls generalizing s0 with
  | nil => exact hinit
  | cons c rest ih => exact ih _ (index_invariant_addCall s0 c hinit)

end SearchServer

/-- C12. In every server reached from construction by calls of `AddDocument`, no stop word is
a key of the inverted index, and no stop word has a posting for any document. -/
theorem C12_stop_words_not_indexed {R : Type} [LinearOrderedField R] (rnd : R → R) (s : SearchServer R)
    (hs : Reachable rnd s) (w : Str) (hw : IsStopWord s w = true) :
    w ∉ CMap.keys s.word_to_document_freqs_
    ∧ CMap.find s.word_to_document_freqs_ w = none
    ∧ ∀ document_id, hasPosting s w document_id = false := by
  have hnot : w ∉ CMap.keys s.word_to_document_freqs_ := by
    intro hmem
    have := (index_invariant_of_reachable hs).2.1 w hmem
    rw [hw] at this
    exact Bool.noConfusion this
  have hnone := (CMap.find_eq_none_iff _ _).2 hnot
  exact ⟨hnot, hnone, fun _ => hasPosting_of_none hnone⟩

/-- Witness of C12: the stop word `"и"` on the server of `main` after the calls of `main` and
`TestErrors`. -/
theorem C12_witness :
    Reachable roundDouble (addCalls roundDouble (mainServer ℚ) mainCalls)
    ∧ IsStopWord (addCalls roundDouble (mainServer ℚ) mainCalls) (bytes "и") = true
    ∧ bytes "и" ∉ CMap.keys (addCalls roundDouble (mainServer ℚ) mainCalls).word_to_document_freqs_
    ∧ CMap.find (addCalls roundDouble (mainServer ℚ) mainCalls).word_to_document_freqs_ (bytes "и") = none
    ∧ ∀ document_id, hasPosting (addCalls roundDouble (mainServer ℚ) mainCalls) (bytes "и") document_id = false :=
  ⟨⟨mainServer ℚ, mainCalls, Or.inr (Or.inl ⟨bytes "и в на", rfl⟩), rfl⟩, by decide,
    C12_stop_words_not_indexed roundDouble (addCalls roundDouble (mainServer ℚ) mainCalls)
      ⟨mainServer ℚ, mainCalls, Or.inr (Or.inl ⟨bytes "и в на", rfl⟩), rfl⟩ (bytes "и") (by decide)⟩

/-- C19. In every server reached from construction by calls of `AddDocument`: (a) every id in
the postings of a term is a key of the document table; (b) the insertion-order sequence has no
duplicates, the length of the document table, and exactly its keys as elements; hence
`FindAllDocuments` returns a list for every query and predicate, and `GetDocumentId(index)`
returns an id for `0 <= index < GetDocumentCount()`. -/
theorem C19_referential_integrity {R : Type} [LinearOrderedField R] (rnd : R → R) (s : SearchServer R)
    (hs : Reachable rnd s) :
    (∀ e ∈ s.word_to_document_freqs_, ∀ document_id ∈ CMap.keys e.2,
        document_id ∈ CMap.keys s.documents_)
    ∧ s.documents_index_.Nodup
    ∧ s.documents_index_.length = s.documents_.length
    ∧ (∀ document_id, document_id ∈ s.documents_index_ ↔ document_id ∈ CMap.keys s.documents_)
    ∧ (∀ (ln : R → R) (query : Query) (predicate : Int → DocumentStatus → Int → Bool),
        ∃ res, FindAllDocuments rnd ln s query predicate = .ok res)
    ∧ (∀ index : Int, 0 ≤ index → index < GetDocumentCount s →
        ∃ document_id, GetDocumentId s index = .ok document_id
          ∧ s.documents_index_.get? index.toNat = some document_id) := by
  have hwf := wellFormed_of_reachable hs
  obtain ⟨hsorted, -, hperm⟩ := index_invariant_of_reachable hs
  have hlen : s.documents_index_.length = s.documents_.length := by
    rw [hperm.length_eq]
    simp [CMap.keys]
  refine ⟨?_, ?_, hlen, fun i => hperm.mem_iff, ?_, ?_⟩
  · intro e he i hi
    have hfind := CMap.find_of_mem hsorted (show (e.1, e.2) ∈ s.word_to_document_freqs_ from he)
    exact (CMap.find_isSome_iff _ _).1 (hwf.postings_stored e.1 e.2 hfind i hi)
  · exact hperm.nodup_iff.2 (hwf.documents_sorted.imp ne_of_lt)
  · intro ln query predicate
    exact ⟨_, @findAllDocuments_eq R rnd _ ln s hwf query predicate⟩
  · intro index h0 h1
    unfold GetDocumentCount at h1
    have h1' := wrapInt32_natCast_le _ index h0 h1
    have hlt : index.toNat < s.documents_index_.length := by
      rw [hlen]
      omega
    refine ⟨s.documents_index_.get ⟨index.toNat, hlt⟩, ?_, List.get?_eq_get hlt⟩
    unfold GetDocumentId
    rw [if_pos ⟨h0, h1⟩, List.get?_eq_get hlt]

/-- Witness of C19: the server of `main` after the calls of `main` and `TestErrors`. -/
theorem C19_witness :
    Reachable roundDouble (addCalls roundDouble (mainServer ℚ) mainCalls)
    ∧ (∀ e ∈ (addCalls roundDouble (mainServer ℚ) mainCalls).word_to_document_freqs_,
        ∀ document_id ∈ CMap.keys e.2,
          document_id ∈ CMap.keys (addCalls roundDouble (mainServer ℚ) mainCalls).documents_)
    ∧ (addCalls roundDouble (mainServer ℚ) mainCalls).documents_index_.Nodup
    ∧ (addCalls roundDouble (mainServer ℚ) mainCalls).documents_index_.length
        = (addCalls roundDouble (mainServer ℚ) mainCalls).documents_.length
    ∧ (∀ document_id, document_id ∈ (addCalls roundDouble (mainServer ℚ) mainCalls).documents_index_
        ↔ document_id ∈ CMap.keys (addCalls roundDouble (mainServer ℚ) mainCalls).documents_)
    ∧ (∀ (ln : ℚ → ℚ) (query : Query) (predicate : Int → DocumentStatus → Int → Bool),
        ∃ res, FindAllDocuments roundDouble ln (addCalls roundDouble (mainServer ℚ) mainCalls) query predicate = .ok res)
    ∧ (∀ index : Int, 0 ≤ index → index < GetDocumentCount (addCalls roundDouble (mainServer ℚ) mainCalls) →
        ∃ document_id, GetDocumentId (addCalls roundDouble (mainServer ℚ) mainCalls) index = .ok document_id
          ∧ (addCalls roundDouble (mainServer ℚ) mainCalls).documents_index_.get? index.toNat
              = some document_id) :=
  ⟨⟨mainServer ℚ, mainCalls, Or.inr (Or.inl ⟨bytes "и в на", rfl⟩), rfl⟩,
    C19_referential_integrity roundDouble (addCalls roundDouble (mainServer ℚ) mainCalls)
      ⟨mainServer ℚ, mainCalls, Or.inr (Or.inl ⟨bytes "и в на", rfl⟩), rfl⟩⟩


/-! ## Sums of rounded terms -/

namespace SearchServer

variable {R : Type} [LinearOrderedField R] {rnd : R → R} {u m : R}

/-- A rounding with relative error at most `u` from `m` on keeps a number `x >= m` within the
factors `1 - u` and `1 + u`. -/
theorem rnd_bounds (hrnd : ∀ x, m ≤ x → abs (rnd x - x) ≤ u * x) (x : R) (hx : m ≤ x) :
    x * (1 - u) ≤ rnd x ∧ rnd x ≤ x * (1 + u) := by
  have h := abs_le.1 (hrnd x hx)
  constructor <;> nlinarith [h.1, h.2]

theorem addRepeatedly_bounds (hu0 : 0 ≤ u) (hu1 : u ≤ 1) (hm : 0 ≤ m)
    (hrnd : ∀ x, m ≤ x → abs (rnd x - x) ≤ u * x)
    (f : R) (hf : m ≤ f) (k : Nat) (x : R) (hx : 0 ≤ x) :
    (x + (k : R) * f) * (1 - u) ^ k ≤ addRepeatedly rnd f k x
    ∧ addRepeatedly rnd f k x ≤ (x + (k : R) * f) * (1 + u) ^ k := by
  have hf0 : 0 ≤ f := le_trans hm hf
  induction k generalizing x with
  | zero => simp [addRepeatedly]
  | succ k ih =>
    have hxf : 0 ≤ x + f := add_nonneg hx hf0
    obtain ⟨b1, b2⟩ := rnd_bounds hrnd (x + f) (by linarith)
    have h1u : 0 ≤ 1 - u := by linarith
    have hr : 0 ≤ rnd (x + f) := le_trans (mul_nonneg hxf h1u) b1
    obtain ⟨i1, i2⟩ := ih (rnd (x + f)) hr
    have hkf : 0 ≤ (k : R) * f := mul_nonneg (Nat.cast_nonneg k) hf0
    have hpl : 0 ≤ (1 - u) ^ k := pow_nonneg h1u k
    have hpu : 0 ≤ (1 + u) ^ k := pow_nonneg (by linarith) k
    rw [addRepeatedly]
    push_cast
    constructor
    · refine le_trans ?_ i1
      rw [pow_succ]
      have : (x + ((k : R) + 1) * f) * (1 - u) ≤ rnd (x + f) + (k : R) * f := by nlinarith
      calc (x + ((k : R) + 1) * f) * ((1 - u) ^ k * (1 - u))
          = ((x + ((k : R) + 1) * f) * (1 - u)) * (1 - u) ^ k := by ring
        _ ≤ (rnd (x + f) + (k : R) * f) * (1 - u) ^ k := mul_le_mul_of_nonneg_right this hpl
    · refine le_trans i2 ?_
      rw [pow_succ]
      have : rnd (x + f) + (k : R) * f ≤ (x + ((k : R) + 1) * f) * (1 + u) := by nlinarith
      calc (rnd (x + f) + (k : R) * f) * (1 + u) ^ k
          ≤ ((x + ((k : R) + 1) * f) * (1 + u)) * (1 + u) ^ k := mul_le_mul_of_nonneg_right this hpu
        _ = (x + ((k : R) + 1) * f) * ((1 + u) ^ k * (1 + u)) := by ring

/-- The `double` of `1.0 / n` for a size `n > 0`. -/
theorem freqNum_bounds (hu0 : 0 ≤ u) (hu1 : u < 1)
    (hrnd : ∀ x, m ≤ x → abs (rnd x - x) ≤ u * x)
    (n : Nat) (hn : 0 < n) (hsmall : m * ((n : R) * (1 + u)) ≤ 1 - u) :
    (1 - u) / ((n : R) * (1 + u)) ≤ rnd (1 / rnd (n : R))
    ∧ rnd (1 / rnd (n : R)) ≤ (1 + u) / ((n : R) * (1 - u))
    ∧ m ≤ rnd (1 / rnd (n : R)) := by
  have hnR : (1 : R) ≤ (n : R) := by exact_mod_cast hn
  have hnR0 : (0 : R) < (n : R) := by linarith
  have h1u : 0 < 1 - u := by linarith
  have h1u' : 0 < 1 + u := by linarith
  have hnu : 0 < (n : R) * (1 + u) := mul_pos hnR0 h1u'
  have hmn : m ≤ (n : R) := by nlinarith
  obtain ⟨a1, a2⟩ := rnd_bounds hrnd (n : R) hmn
  have hrn : 0 < rnd (n : R) := lt_of_lt_of_le (mul_pos hnR0 h1u) a1
  have q1 : 1 / ((n : R) * (1 + u)) ≤ 1 / rnd (n : R) :=
    one_div_le_one_div_of_le hrn a2
  have q2 : 1 / rnd (n : R) ≤ 1 / ((n : R) * (1 - u)) :=
    one_div_le_one_div_of_le (mul_pos hnR0 h1u) a1
  have hmq : m ≤ 1 / ((n : R) * (1 + u)) := by
    rw [le_div_iff₀ hnu]
    linarith
  have hml : m ≤ (1 - u) / ((n : R) * (1 + u)) := by
    rw [le_div_iff₀ hnu]
    exact hsmall
  obtain ⟨b1, b2⟩ := rnd_bounds hrnd (1 / rnd (n : R)) (le_trans hmq q1)
  have hlow : (1 - u) / ((n : R) * (1 + u)) ≤ rnd (1 / rnd (n : R)) :=
    calc (1 - u) / ((n : R) * (1 + u)) = 1 / ((n : R) * (1 + u)) * (1 - u) := by ring
      _ ≤ 1 / rnd (n : R) * (1 - u) := mul_le_mul_of_nonneg_right q1 (le_of_lt h1u)
      _ ≤ rnd (1 / rnd (n : R)) := b1
  refine ⟨hlow, ?_, le_trans hml hlow⟩
  calc rnd (1 / rnd (n : R)) ≤ 1 / rnd (n : R) * (1 + u) := b2
    _ ≤ 1 / ((n : R) * (1 - u)) * (1 + u) := mul_le_mul_of_nonneg_right q2 (le_of_lt h1u')
    _ = (1 + u) / ((n : R) * (1 - u)) := by ring

/-- The value stored after `k` additions of the `double` of `1.0 / n`: between `k / n` times
`(1 - u)^(k + 1) / (1 + u)` and `k / n` times `(1 + u)^(k + 1) / (1 - u)`. -/
theorem storedFreq_bounds (hu0 : 0 ≤ u) (hu1 : u < 1) (hm : 0 ≤ m)
    (hrnd : ∀ x, m ≤ x → abs (rnd x - x) ≤ u * x)
    (n : Nat) (hn : 0 < n) (hsmall : m * ((n : R) * (1 + u)) ≤ 1 - u) (k : Nat) :
    (k : R) / (n : R) * ((1 - u) ^ (k + 1) / (1 + u))
        ≤ addRepeatedly rnd (rnd (1 / rnd (n : R))) k 0
    ∧ addRepeatedly rnd (rnd (1 / rnd (n : R))) k 0
        ≤ (k : R) / (n : R) * ((1 + u) ^ (k + 1) / (1 - u)) := by
  have hnR : (0 : R) < (n : R) := by exact_mod_cast hn
  have h1u : 0 < 1 - u := by linarith
  have h1u' : 0 < 1 + u := by linarith
  obtain ⟨f1, f2, f3⟩ := @freqNum_bounds R _ rnd u m hu0 hu1 hrnd n hn hsmall
  obtain ⟨a1, a2⟩ := @addRepeatedly_bounds R _ rnd u m hu0 (le_of_lt hu1) hm hrnd _ f3 k 0 le_rfl
  rw [zero_add] at a1 a2
  have hk : (0 : R) ≤ (k : R) := Nat.cast_nonneg k
  constructor
  · refine le_trans ?_ a1
    calc (k : R) / (n : R) * ((1 - u) ^ (k + 1) / (1 + u))
        = (k : R) * ((1 - u) / ((n : R) * (1 + u))) * (1 - u) ^ k := by
          rw [pow_succ]; field_simp; ring
      _ ≤ (k : R) * rnd (1 / rnd (n : R)) * (1 - u) ^ k :=
          mul_le_mul_of_nonneg_right (mul_le_mul_of_nonneg_left f1 hk)
            (pow_nonneg (le_of_lt h1u) k)
  · refine le_trans a2 ?_
    calc (k : R) * rnd (1 / rnd (n : R)) * (1 + u) ^ k
        ≤ (k : R) * ((1 + u) / ((n : R) * (1 - u))) * (1 + u) ^ k :=
          mul_le_mul_of_nonneg_right (mul_le_mul_of_nonneg_left f2 hk)
            (pow_nonneg (le_of_lt h1u') k)
      _ = (k : R) / (n : R) * ((1 + u) ^ (k + 1) / (1 - u)) := by
          rw [pow_succ]; field_simp; ring

end SearchServer


/-! ## Term frequencies and the frame of `AddDocument` (C13, C14) -/

theorem sum_indicator_eq_one (K : List Str) (hK : K.Nodup) (a : Str) (ha : a ∈ K) :
    (K.map (fun k => if a = k then 1 else 0)).sum = 1 := by
  induction K with
  | nil => simp at ha
  | cons k K' ih =>
    rw [List.nodup_cons] at hK
    simp only [List.map_cons, List.sum_cons]
    by_cases hk : a = k
    · subst hk
      have hzero : (K'.map (fun k => if a = k then 1 else 0)).sum = 0 := by
        apply List.sum_eq_zero
        intro x hx
        obtain ⟨y, hy, rfl⟩ := List.mem_map.1 hx
        have hne : ¬ a = y := fun e => hK.1 (e ▸ hy)
        simp [hne]
      simp [hzero]
    · have ha' : a ∈ K' := by
        rcases List.mem_cons.1 ha with h | h
        · exact absurd h hk
        · exact h
      simp [hk, ih hK.2 ha']

theorem sum_count_eq_length (ws K : List Str) (hK : K.Nodup) (hsub : ∀ w ∈ ws, w ∈ K) :
    (K.map (fun k => ws.count k)).sum = ws.length := by
  induction ws with
  | nil => simp
  | cons a rest ih =>
    have ha : a ∈ K := hsub a (List.mem_cons_self _ _)
    have hrest := ih (fun w hw => hsub w (List.mem_cons_of_mem _ hw))
    have hfun : (fun k => (a :: rest).count k)
        = (fun k => rest.count k + (if a = k then 1 else 0)) := by
      funext k
      rw [List.count_cons]
      simp only [beq_iff_eq]
    rw [hfun, List.sum_map_add, hrest, sum_indicator_eq_one K hK a ha, List.length_cons]

namespace SearchServer

variable {R : Type} {rnd : R → R}

theorem nonStopWords_addCalls [LinearOrderedField R] (s : SearchServer R) (calls : List AddCall)
    (text : Str) : nonStopWords (addCalls rnd s calls) text = nonStopWords s text := by
  unfold nonStopWords
  congr 1
  funext w
  rw [isStopWord_addCalls]

/-- The postings of the document of a successful call, right after the call. -/
theorem postingOf_addCall_self [LinearOrderedField R] (s : SearchServer R) (hwf : WellFormed s)
    (c : AddCall) (hc : callSucceeds rnd s c = true) (w : Str) :
    postingOf (addCall rnd s c).word_to_document_freqs_ w c.document_id =
      if w ∈ nonStopWords s c.document
      then some (addRepeatedly rnd (rnd (1 / rnd (((nonStopWords s c.document).length : Nat) : R)))
        ((nonStopWords s c.document).count w) 0)
      else none := by
  have hfresh : CMap.find s.documents_ c.document_id = none := by
    rw [callSucceeds_iff] at hc
    cases hf : CMap.find s.documents_ c.document_id with
    | none => rfl
    | some d => exact absurd (Or.inr (Or.inl (by rw [hf]; rfl))) hc
  rw [addCall_of_succeeds s c hc]
  simp only [postingOf_foldl_addFreq, postingOf_eq_none_of_fresh s hwf c.document_id hfresh w,
    Option.getD_none, true_and]
  rfl

/-- The postings of the other documents are not touched by a successful call. -/
theorem postingOf_addCall_other [LinearOrderedField R] (s : SearchServer R) (c : AddCall)
    (hc : callSucceeds rnd s c = true) (w : Str) (i : Int) (hi : i ≠ c.document_id) :
    postingOf (addCall rnd s c).word_to_document_freqs_ w i = postingOf s.word_to_document_freqs_ w i := by
  rw [addCall_of_succeeds s c hc]
  simp only [postingOf_foldl_addFreq, hi, false_and, if_false]

theorem postingOf_addCalls_of_stored [LinearOrderedField R] (s : SearchServer R)
    (calls : List AddCall) (i : Int) (hi : (CMap.find s.documents_ i).isSome = true) (w : Str) :
    postingOf (addCalls rnd s calls).word_to_document_freqs_ w i
      = postingOf s.word_to_document_freqs_ w i := by
  induction calls generalizing s with
  | nil => rfl
  | cons c rest ih =>
    simp only [addCalls]
    by_cases hc : callSucceeds rnd s c = true
    · have hne : i ≠ c.document_id := by
        intro e
        rw [callSucceeds_iff] at hc
        exact hc (Or.inr (Or.inl (e ▸ hi)))
      rw [ih (addCall rnd s c) (by rw [find_documents_addCall s c hc, if_neg hne]; exact hi),
        postingOf_addCall_other s c hc w i hne]
    · have hc' : callSucceeds rnd s c = false := by simpa using hc
      rw [addCall_of_fails s c hc']
      exact ih s hi

end SearchServer

/-- C14. A successful `AddDocument(id, ...)` leaves every other document id as it was: its
posting under every term (whether there is one, and its term frequency), its entry of the
document table (rating and status) and its position in the insertion order, to which `id` is
appended; the stop-word set is unchanged as well. -/
theorem C14_AddDocument_frame {R : Type} [LinearOrderedField R] (rnd : R → R) (s : SearchServer R) (c : AddCall)
    (hc : callSucceeds rnd s c = true) (other : Int) (hother : other ≠ c.document_id) :
    (∀ w, postingOf (addCall rnd s c).word_to_document_freqs_ w other
        = postingOf s.word_to_document_freqs_ w other)
    ∧ (∀ w, hasPosting (addCall rnd s c) w other = hasPosting s w other)
    ∧ (∀ w, termFreq (addCall rnd s c) w other = termFreq s w other)
    ∧ CMap.find (addCall rnd s c).documents_ other = CMap.find s.documents_ other
    ∧ (addCall rnd s c).documents_index_ = s.documents_index_ ++ [c.document_id]
    ∧ (∀ k, k < s.documents_index_.length →
        (addCall rnd s c).documents_index_.get? k = s.documents_index_.get? k)
    ∧ (other ∈ s.documents_index_ →
        List.indexOf other (addCall rnd s c).documents_index_ = List.indexOf other s.documents_index_)
    ∧ (addCall rnd s c).stop_words_ = s.stop_words_ := by
  have hp := fun w => postingOf_addCall_other s c hc w other hother
  have hidx : (addCall rnd s c).documents_index_ = s.documents_index_ ++ [c.document_id] := by
    rw [addCall_of_succeeds s c hc]
  refine ⟨hp, ?_, ?_, ?_, hidx, ?_, ?_, stop_words_addCall s c⟩
  · intro w
    unfold hasPosting
    rw [hp]
  · intro w
    unfold termFreq
    rw [hp]
  · rw [find_documents_addCall s c hc, if_neg hother]
  · intro k hk
    rw [hidx, List.get?_eq_getElem?, List.get?_eq_getElem?, List.getElem?_append_left hk]
  · intro hmem
    rw [hidx, List.indexOf_append_of_mem hmem]

/-- Witness of C14: a second document added after the document of `main`. -/
theorem C14_witness :
    callSucceeds roundDouble (addCalls roundDouble (mainServer ℚ) mainCalls)
      ⟨2, bytes "пушистый пёс и модный ошейник", DocumentStatus.ACTUAL, [1, 2]⟩ = true
    ∧ (1 : Int) ≠ (⟨2, bytes "пушистый пёс и модный ошейник", DocumentStatus.ACTUAL, [1, 2]⟩
        : AddCall).document_id
    ∧ CMap.find (addCall roundDouble (addCalls roundDouble (mainServer ℚ) mainCalls)
          ⟨2, bytes "пушистый пёс и модный ошейник", DocumentStatus.ACTUAL, [1, 2]⟩).documents_ 1
        = CMap.find (addCalls roundDouble (mainServer ℚ) mainCalls).documents_ 1
    ∧ (∀ w, termFreq (addCall roundDouble (addCalls roundDouble (mainServer ℚ) mainCalls)
          ⟨2, bytes "пушистый пёс и модный ошейник", DocumentStatus.ACTUAL, [1, 2]⟩) w 1
        = termFreq (addCalls roundDouble (mainServer ℚ) mainCalls) w 1) :=
  ⟨by decide!, by decide,
    (C14_AddDocument_frame roundDouble (addCalls roundDouble (mainServer ℚ) mainCalls)
      ⟨2, bytes "пушистый пёс и модный ошейник", DocumentStatus.ACTUAL, [1, 2]⟩ (by decide!) 1
      (by decide)).2.2.2.1,
    (C14_AddDocument_frame roundDouble (addCalls roundDouble (mainServer ℚ) mainCalls)
      ⟨2, bytes "пушистый пёс и модный ошейник", DocumentStatus.ACTUAL, [1, 2]⟩ (by decide!) 1
      (by decide)).2.2.1⟩

/-- C13, amended. After a successful `AddDocument(id, text, status, ratings)` on a reachable
server, every term `t` with a posting for `id` is a word of the text that is not a stop word, and
its stored term frequency is the `double` obtained from `0.0` by adding the `double` of `1.0 / n`
once for each of the `k` occurrences of `t` among the words of the text, `n` being the number of
words of the text that are not stop words. If the rounding of every number `x >= m` has an
error of at most `u * x`, with `0 <= u < 1`, `0 <= m` and `m * n * (1 + u) <= 1 - u` (binary64
without overflow: `u = 2^-53`, `m = 2^-1022`, any `n` below `2^1021`), the stored value is
positive and lies between `k / n * (1 - u)^(k + 1) / (1 + u)` and
`k / n * (1 + u)^(k + 1) / (1 - u)`; in exact arithmetic (`u = 0`) it is `k / n` and lies in
`(0, 1]`. -/
theorem C13_term_frequency {R : Type} [LinearOrderedField R] (rnd : R → R) (u m : R)
    (hu0 : 0 ≤ u) (hu1 : u < 1) (hm : 0 ≤ m) (hrnd : ∀ x, m ≤ x → abs (rnd x - x) ≤ u * x)
    (s : SearchServer R) (hs : Reachable rnd s) (c : AddCall)
    (hc : callSucceeds rnd s c = true)
    (hsmall : m * (((nonStopWords s c.document).length : R) * (1 + u)) ≤ 1 - u) (t : Str)
    (ht : hasPosting (addCall rnd s c) t c.document_id = true) :
    t ∈ SplitIntoWords c.document
    ∧ IsStopWord s t = false
    ∧ termFreq (addCall rnd s c) t c.document_id
        = addRepeatedly rnd (rnd (1 / rnd ((nonStopWords s c.document).length : R)))
            ((SplitIntoWords c.document).count t) 0
    ∧ 0 < termFreq (addCall rnd s c) t c.document_id
    ∧ ((SplitIntoWords c.document).count t : R) / ((nonStopWords s c.document).length : R)
          * ((1 - u) ^ ((SplitIntoWords c.document).count t + 1) / (1 + u))
        ≤ termFreq (addCall rnd s c) t c.document_id
    ∧ termFreq (addCall rnd s c) t c.document_id
        ≤ ((SplitIntoWords c.document).count t : R) / ((nonStopWords s c.document).length : R)
          * ((1 + u) ^ ((SplitIntoWords c.document).count t + 1) / (1 - u))
    ∧ (u = 0 →
        termFreq (addCall rnd s c) t c.document_id
          = ((SplitIntoWords c.document).count t : R) / ((nonStopWords s c.document).length : R)
        ∧ termFreq (addCall rnd s c) t c.document_id ≤ 1) := by
  have hwf := wellFormed_of_reachable hs
  have hpost := postingOf_addCall_self s hwf c hc t
  have hmem : t ∈ nonStopWords s c.document := by
    by_contra hnot
    rw [if_neg hnot] at hpost
    unfold hasPosting at ht
    rw [hpost] at ht
    exact Bool.noConfusion ht
  rw [if_pos hmem] at hpost
  have hmem' := List.mem_filter.1 hmem
  have hstop : IsStopWord s t = false := by simpa using hmem'.2
  have hcount : (nonStopWords s c.document).count t = (SplitIntoWords c.document).count t := by
    unfold nonStopWords
    exact List.count_filter (by simp [hstop])
  have hpos : 0 < (nonStopWords s c.document).count t := List.count_pos_iff.2 hmem
  have hle : (nonStopWords s c.document).count t ≤ (nonStopWords s c.document).length :=
    List.count_le_length _ _
  have hlen : 0 < (nonStopWords s c.document).length := lt_of_lt_of_le hpos hle
  have hlenpos : (0 : R) < ((nonStopWords s c.document).length : R) := by exact_mod_cast hlen
  have htf : termFreq (addCall rnd s c) t c.document_id
      = addRepeatedly rnd (rnd (1 / rnd ((nonStopWords s c.document).length : R)))
          ((SplitIntoWords c.document).count t) 0 := by
    unfold termFreq
    rw [hpost, Option.getD_some, hcount]
  obtain ⟨b1, b2⟩ := @storedFreq_bounds R _ rnd u m hu0 hu1 hm hrnd
    (nonStopWords s c.document).length hlen hsmall ((SplitIntoWords c.document).count t)
  have hkpos : (0 : R) < ((SplitIntoWords c.document).count t : R) := by
    rw [← hcount]
    exact_mod_cast hpos
  have h1u : 0 < 1 - u := by linarith
  have h1u' : 0 < 1 + u := by linarith
  refine ⟨hmem'.1, hstop, htf, ?_, by rw [htf]; exact b1, by rw [htf]; exact b2, ?_⟩
  · rw [htf]
    refine lt_of_lt_of_le ?_ b1
    exact mul_pos (div_pos hkpos hlenpos) (div_pos (pow_pos h1u _) h1u')
  · intro hu
    have hval : termFreq (addCall rnd s c) t c.document_id
        = ((SplitIntoWords c.document).count t : R) / ((nonStopWords s c.document).length : R) := by
      rw [htf]
      subst hu
      simp only [sub_zero, add_zero, one_pow, div_one, mul_one] at b1 b2
      exact le_antisymm b2 b1
    refine ⟨hval, ?_⟩
    rw [hval, div_le_one hlenpos, ← hcount]
    exact_mod_cast hle

/-- Witness of C13 in binary64 arithmetic: the text of nine words `"a"` on a server without stop
words. The value stored for `"a"` is `1 + 2^-52`, within the bounds. -/
theorem C13_witness :
    (0 : ℚ) ≤ 1 / 2 ^ 53 ∧ (1 : ℚ) / 2 ^ 53 < 1 ∧ (0 : ℚ) ≤ 1 / 2 ^ 1022
    ∧ (∀ x : ℚ, 1 / 2 ^ 1022 ≤ x → abs (roundDouble x - x) ≤ 1 / 2 ^ 53 * x)
    ∧ Reachable roundDouble (SearchServer.empty : SearchServer ℚ)
    ∧ callSucceeds roundDouble (SearchServer.empty : SearchServer ℚ)
        ⟨1, bytes "a a a a a a a a a", DocumentStatus.ACTUAL, []⟩ = true
    ∧ (1 / 2 ^ 1022 : ℚ)
        * (((nonStopWords (SearchServer.empty : SearchServer ℚ)
            (bytes "a a a a a a a a a")).length : ℚ) * (1 + 1 / 2 ^ 53)) ≤ 1 - 1 / 2 ^ 53
    ∧ hasPosting (addCall roundDouble (SearchServer.empty : SearchServer ℚ)
        ⟨1, bytes "a a a a a a a a a", DocumentStatus.ACTUAL, []⟩) (bytes "a") 1 = true
    ∧ (SplitIntoWords (bytes "a a a a a a a a a")).count (bytes "a") = 9
    ∧ (nonStopWords (SearchServer.empty : SearchServer ℚ) (bytes "a a a a a a a a a")).length = 9
    ∧ termFreq (addCall roundDouble (SearchServer.empty : SearchServer ℚ)
        ⟨1, bytes "a a a a a a a a a", DocumentStatus.ACTUAL, []⟩) (bytes "a") 1 = 1 + 1 / 2 ^ 52
    ∧ termFreq (addCall roundDouble (SearchServer.empty : SearchServer ℚ)
        ⟨1, bytes "a a a a a a a a a", DocumentStatus.ACTUAL, []⟩) (bytes "a") 1
      = addRepeatedly roundDouble
          (roundDouble (1 / roundDouble
            ((nonStopWords (SearchServer.empty : SearchServer ℚ)
              (bytes "a a a a a a a a a")).length : ℚ)))
          ((SplitIntoWords (bytes "a a a a a a a a a")).count (bytes "a")) 0
    ∧ 0 < termFreq (addCall roundDouble (SearchServer.empty : SearchServer ℚ)
        ⟨1, bytes "a a a a a a a a a", DocumentStatus.ACTUAL, []⟩) (bytes "a") 1
    ∧ ((SplitIntoWords (bytes "a a a a a a a a a")).count (bytes "a") : ℚ)
          / ((nonStopWords (SearchServer.empty : SearchServer ℚ)
              (bytes "a a a a a a a a a")).length : ℚ)
          * ((1 - 1 / 2 ^ 53) ^ ((SplitIntoWords (bytes "a a a a a a a a a")).count (bytes "a") + 1)
            / (1 + 1 / 2 ^ 53))
        ≤ termFreq (addCall roundDouble (SearchServer.empty : SearchServer ℚ)
          ⟨1, bytes "a a a a a a a a a", DocumentStatus.ACTUAL, []⟩) (bytes "a") 1
    ∧ termFreq (addCall roundDouble (SearchServer.empty : SearchServer ℚ)
          ⟨1, bytes "a a a a a a a a a", DocumentStatus.ACTUAL, []⟩) (bytes "a") 1
        ≤ ((SplitIntoWords (bytes "a a a a a a a a a")).count (bytes "a") : ℚ)
          / ((nonStopWords (SearchServer.empty : SearchServer ℚ)
              (bytes "a a a a a a a a a")).length : ℚ)
          * ((1 + 1 / 2 ^ 53) ^ ((SplitIntoWords (bytes "a a a a a a a a a")).count (bytes "a") + 1)
            / (1 - 1 / 2 ^ 53)) :=
  have hlen : (nonStopWords (SearchServer.empty : SearchServer ℚ)
      (bytes "a a a a a a a a a")).length = 9 := by decide
  have hsmall : (1 / 2 ^ 1022 : ℚ)
      * (((nonStopWords (SearchServer.empty : SearchServer ℚ)
          (bytes "a a a a a a a a a")).length : ℚ) * (1 + 1 / 2 ^ 53)) ≤ 1 - 1 / 2 ^ 53 := by
    rw [hlen]
    norm_num
  have h := C13_term_frequency roundDouble (1 / 2 ^ 53) (1 / 2 ^ 1022) (by norm_num)
    (by norm_num) (by norm_num) roundDouble_error (SearchServer.empty : SearchServer ℚ)
    ⟨SearchServer.empty, [], Or.inl rfl, rfl⟩
    ⟨1, bytes "a a a a a a a a a", DocumentStatus.ACTUAL, []⟩ (by decide!) hsmall
    (bytes "a") (by decide!)
  ⟨by norm_num, by norm_num, by norm_num, roundDouble_error,
    ⟨SearchServer.empty, [], Or.inl rfl, rfl⟩,
    by decide!, hsmall, by decide!, by decide, hlen, by decide!,
    h.2.2.1, h.2.2.2.1, h.2.2.2.2.1, h.2.2.2.2.2.1⟩

/-- Counterexample to C13 as stated, in binary64 arithmetic. With the stop words `"и в на"`, the
text `"пушистый пёс и модный ошейник"` has 5 space-separated words, one of them `"пёс"`, and the
term frequency stored for `"пёс"` is 1/4, not 1/5: the stop word `"и"` is not counted. And on a
server without stop words the text of nine words `"a"` stores for `"a"` the sum of nine times the
`double` of `1.0 / 9`, which is `1 + 2^-52`: more than 1, and not 9/9. -/
theorem C13_counterexample :
    callSucceeds roundDouble (mainServer ℚ)
        ⟨1, bytes "пушистый пёс и модный ошейник", DocumentStatus.ACTUAL, [1, 2]⟩ = true
    ∧ hasPosting (addCall roundDouble (mainServer ℚ)
        ⟨1, bytes "пушистый пёс и модный ошейник", DocumentStatus.ACTUAL, [1, 2]⟩) (bytes "пёс") 1
        = true
    ∧ (SplitIntoWords (bytes "пушистый пёс и модный ошейник")).count (bytes "пёс") = 1
    ∧ (SplitIntoWords (bytes "пушистый пёс и модный ошейник")).length = 5
    ∧ termFreq (addCall roundDouble (mainServer ℚ)
        ⟨1, bytes "пушистый пёс и модный ошейник", DocumentStatus.ACTUAL, [1, 2]⟩) (bytes "пёс") 1
        = 1 / 4
    ∧ termFreq (addCall roundDouble (mainServer ℚ)
        ⟨1, bytes "пушистый пёс и модный ошейник", DocumentStatus.ACTUAL, [1, 2]⟩) (bytes "пёс") 1
        ≠ 1 / 5
    ∧ termFreq (addCall roundDouble (mainServer ℚ)
        ⟨1, bytes "пушистый пёс и модный ошейник", DocumentStatus.ACTUAL, [1, 2]⟩) (bytes "пёс") 1
        ≠ roundDouble (1 / 5)
    ∧ callSucceeds roundDouble (SearchServer.empty : SearchServer ℚ)
        ⟨1, bytes "a a a a a a a a a", DocumentStatus.ACTUAL, []⟩ = true
    ∧ (SplitIntoWords (bytes "a a a a a a a a a")).count (bytes "a") = 9
    ∧ (SplitIntoWords (bytes "a a a a a a a a a")).length = 9
    ∧ termFreq (addCall roundDouble (SearchServer.empty : SearchServer ℚ)
        ⟨1, bytes "a a a a a a a a a", DocumentStatus.ACTUAL, []⟩) (bytes "a") 1
        = 1 + 1 / 2 ^ 52
    ∧ ¬ termFreq (addCall roundDouble (SearchServer.empty : SearchServer ℚ)
        ⟨1, bytes "a a a a a a a a a", DocumentStatus.ACTUAL, []⟩) (bytes "a") 1 ≤ 1 := by
  decide!


/-! ## Term frequencies of one document (C20) -/

namespace SearchServer

variable {R : Type} {rnd : R → R}

/-- The term frequency stored for the document of a successful call, in every later server. -/
theorem termFreq_of_call [LinearOrderedField R] (s0 : SearchServer R) (h0 : Constructed s0)
    (before after : List AddCall) (c : AddCall)
    (hc : callSucceeds rnd (addCalls rnd s0 before) c = true) (w : Str) :
    postingOf (addCalls rnd s0 (before ++ c :: after)).word_to_document_freqs_ w c.document_id =
      if w ∈ nonStopWords s0 c.document
      then some (addRepeatedly rnd
        (rnd (1 / rnd (((nonStopWords s0 c.document).length : Nat) : R)))
        ((nonStopWords s0 c.document).count w) 0)
      else none := by
  have hwf : WellFormed (addCalls rnd s0 before) :=
    wellFormed_addCalls s0 before (wellFormed_of_constructed h0)
  rw [addCalls_append]
  simp only [addCalls]
  rw [postingOf_addCalls_of_stored _ after c.document_id
      (by rw [find_documents_addCall _ c hc, if_pos rfl]; rfl),
    postingOf_addCall_self _ hwf c hc, nonStopWords_addCalls]

end SearchServer

/-- C20, amended. On a server reached from construction, take a successful call
`AddDocument(id, text, ...)` and let `n` be the number of words of the text that are not stop
words. If `n > 0` and the rounding of every number `x >= m` has an error of at most `u * x`,
with `0 <= u < 1`, `0 <= m` and `m * n * (1 + u) <= 1 - u` (binary64 without overflow:
`u = 2^-53`, `m = 2^-1022`, any `n` below `2^1021`), the term frequencies stored for `id`, summed
exactly over all terms of the index, give a number between `(1 - u)^(n + 1) / (1 + u)` and
`(1 + u)^(n + 1) / (1 - u)`, and exactly 1 in exact arithmetic (`u = 0`); if `n = 0`, no term
has a posting for `id`. -/
theorem C20_term_frequencies_sum_near_one {R : Type} [LinearOrderedField R] (rnd : R → R)
    (u m : R) (hu0 : 0 ≤ u) (hu1 : u < 1) (hm : 0 ≤ m)
    (hrnd : ∀ x, m ≤ x → abs (rnd x - x) ≤ u * x)
    (s0 : SearchServer R) (h0 : Constructed s0) (before after : List AddCall) (c : AddCall)
    (hc : callSucceeds rnd (addCalls rnd s0 before) c = true)
    (hsmall : m * (((nonStopWords s0 c.document).length : R) * (1 + u)) ≤ 1 - u) :
    ((∃ w ∈ SplitIntoWords c.document, IsStopWord s0 w = false) →
      (1 - u) ^ ((nonStopWords s0 c.document).length + 1) / (1 + u)
        ≤ ((CMap.keys (addCalls rnd s0 (before ++ c :: after)).word_to_document_freqs_).map
          (fun w => termFreq (addCalls rnd s0 (before ++ c :: after)) w c.document_id)).sum
      ∧ ((CMap.keys (addCalls rnd s0 (before ++ c :: after)).word_to_document_freqs_).map
          (fun w => termFreq (addCalls rnd s0 (before ++ c :: after)) w c.document_id)).sum
        ≤ (1 + u) ^ ((nonStopWords s0 c.document).length + 1) / (1 - u)
      ∧ (u = 0 →
        ((CMap.keys (addCalls rnd s0 (before ++ c :: after)).word_to_document_freqs_).map
          (fun w => termFreq (addCalls rnd s0 (before ++ c :: after)) w c.document_id)).sum = 1))
    ∧ ((¬ ∃ w ∈ SplitIntoWords c.document, IsStopWord s0 w = false) →
      ∀ w, hasPosting (addCalls rnd s0 (before ++ c :: after)) w c.document_id = false) := by
  have hpost := termFreq_of_call s0 h0 before after c hc
  have hreach : Reachable rnd (addCalls rnd s0 (before ++ c :: after)) := ⟨s0, _, h0, rfl⟩
  have hsorted := (index_invariant_of_reachable hreach).1
  constructor
  · rintro ⟨w0, hw0, hstop0⟩
    have hmem0 : w0 ∈ nonStopWords s0 c.document :=
      List.mem_filter.2 ⟨hw0, by simp [hstop0]⟩
    have hn : 0 < (nonStopWords s0 c.document).length := List.length_pos_of_mem hmem0
    have hnR : (0 : R) < ((nonStopWords s0 c.document).length : R) := by exact_mod_cast hn
    have h1u : 0 < 1 - u := by linarith
    have h1u' : 0 < 1 + u := by linarith
    have htf : ∀ w, termFreq (addCalls rnd s0 (before ++ c :: after)) w c.document_id
        = addRepeatedly rnd (rnd (1 / rnd ((nonStopWords s0 c.document).length : R)))
          ((nonStopWords s0 c.document).count w) 0 := by
      intro w
      unfold termFreq
      rw [hpost]
      split_ifs with hw
      · rfl
      · simp [List.count_eq_zero_of_not_mem hw, addRepeatedly]
    have hsub : ∀ w ∈ nonStopWords s0 c.document,
        w ∈ CMap.keys (addCalls rnd s0 (before ++ c :: after)).word_to_document_freqs_ := by
      intro w hw
      by_contra hnot
      have hnone := (CMap.find_eq_none_iff _ _).2 hnot
      have := hpost w
      rw [if_pos hw] at this
      unfold postingOf at this
      rw [hnone] at this
      exact Option.noConfusion this
    have hsum := sum_count_eq_length (nonStopWords s0 c.document) _ (hsorted.imp ne_of_lt) hsub
    have hcast : ((CMap.keys (addCalls rnd s0 (before ++ c :: after)).word_to_document_freqs_).map
        (fun w => ((nonStopWords s0 c.document).count w : R))).sum
        = ((nonStopWords s0 c.document).length : R) := by
      rw [← hsum]
      push_cast
      rw [List.map_map]
      rfl
    obtain ⟨f1, f2, hfm⟩ := @freqNum_bounds R _ rnd u m hu0 hu1 hrnd
      (nonStopWords s0 c.document).length hn hsmall
    have hf : 0 ≤ rnd (1 / rnd ((nonStopWords s0 c.document).length : R)) :=
      le_trans (div_nonneg (le_of_lt h1u) (le_of_lt (mul_pos hnR h1u'))) f1
    simp only [htf]
    have hlow : (1 - u) ^ ((nonStopWords s0 c.document).length + 1) / (1 + u)
        ≤ ((CMap.keys (addCalls rnd s0 (before ++ c :: after)).word_to_document_freqs_).map
          (fun w => addRepeatedly rnd (rnd (1 / rnd ((nonStopWords s0 c.document).length : R)))
            ((nonStopWords s0 c.document).count w) 0)).sum := by
      have hterm : ∀ w ∈ CMap.keys (addCalls rnd s0 (before ++ c :: after)).word_to_document_freqs_,
          ((nonStopWords s0 c.document).count w : R)
            * (rnd (1 / rnd ((nonStopWords s0 c.document).length : R))
              * (1 - u) ^ (nonStopWords s0 c.document).length)
          ≤ addRepeatedly rnd (rnd (1 / rnd ((nonStopWords s0 c.document).length : R)))
            ((nonStopWords s0 c.document).count w) 0 := by
        intro w _
        obtain ⟨a1, -⟩ := @addRepeatedly_bounds R _ rnd u m hu0 (le_of_lt hu1) hm hrnd _ hfm
          ((nonStopWords s0 c.document).count w) 0 le_rfl
        rw [zero_add] at a1
        refine le_trans ?_ a1
        rw [← mul_assoc]
        apply mul_le_mul_of_nonneg_left _
          (mul_nonneg (Nat.cast_nonneg _) hf)
        exact pow_le_pow_of_le_one (le_of_lt h1u) (by linarith) (List.count_le_length _ _)
      refine le_trans ?_ (List.sum_le_sum hterm)
      rw [List.sum_map_mul_right, hcast]
      calc (1 - u) ^ ((nonStopWords s0 c.document).length + 1) / (1 + u)
          = ((nonStopWords s0 c.document).length : R)
            * ((1 - u) / (((nonStopWords s0 c.document).length : R) * (1 + u))
              * (1 - u) ^ (nonStopWords s0 c.document).length) := by
            rw [pow_succ]; field_simp; ring
        _ ≤ ((nonStopWords s0 c.document).length : R)
            * (rnd (1 / rnd ((nonStopWords s0 c.document).length : R))
              * (1 - u) ^ (nonStopWords s0 c.document).length) :=
            mul_le_mul_of_nonneg_left
              (mul_le_mul_of_nonneg_right f1 (pow_nonneg (le_of_lt h1u) _)) (le_of_lt hnR)
    have hupp : ((CMap.keys (addCalls rnd s0 (before ++ c :: after)).word_to_document_freqs_).map
          (fun w => addRepeatedly rnd (rnd (1 / rnd ((nonStopWords s0 c.document).length : R)))
            ((nonStopWords s0 c.document).count w) 0)).sum
        ≤ (1 + u) ^ ((nonStopWords s0 c.document).length + 1) / (1 - u) := by
      have hterm : ∀ w ∈ CMap.keys (addCalls rnd s0 (before ++ c :: after)).word_to_document_freqs_,
          addRepeatedly rnd (rnd (1 / rnd ((nonStopWords s0 c.document).length : R)))
            ((nonStopWords s0 c.document).count w) 0
          ≤ ((nonStopWords s0 c.document).count w : R)
            * (rnd (1 / rnd ((nonStopWords s0 c.document).length : R))
              * (1 + u) ^ (nonStopWords s0 c.document).length) := by
        intro w _
        obtain ⟨-, a2⟩ := @addRepeatedly_bounds R _ rnd u m hu0 (le_of_lt hu1) hm hrnd _ hfm
          ((nonStopWords s0 c.document).count w) 0 le_rfl
        rw [zero_add] at a2
        refine le_trans a2 ?_
        rw [← mul_assoc]
        apply mul_le_mul_of_nonneg_left _
          (mul_nonneg (Nat.cast_nonneg _) hf)
        exact pow_le_pow_right₀ (by linarith) (List.count_le_length _ _)
      refine le_trans (List.sum_le_sum hterm) ?_
      rw [List.sum_map_mul_right, hcast]
      calc ((nonStopWords s0 c.document).length : R)
            * (rnd (1 / rnd ((nonStopWords s0 c.document).length : R))
              * (1 + u) ^ (nonStopWords s0 c.document).length)
          ≤ ((nonStopWords s0 c.document).length : R)
            * ((1 + u) / (((nonStopWords s0 c.document).length : R) * (1 - u))
              * (1 + u) ^ (nonStopWords s0 c.document).length) :=
            mul_le_mul_of_nonneg_left
              (mul_le_mul_of_nonneg_right f2 (pow_nonneg (le_of_lt h1u') _)) (le_of_lt hnR)
        _ = (1 + u) ^ ((nonStopWords s0 c.document).length + 1) / (1 - u) := by
            rw [pow_succ]; field_simp; ring
    refine ⟨hlow, hupp, ?_⟩
    intro hu
    subst hu
    simp only [sub_zero, add_zero, one_pow, div_one] at hlow hupp
    exact le_antisymm hupp hlow
  · intro hnone w
    unfold hasPosting
    rw [hpost, if_neg]
    · rfl
    · intro hw
      obtain ⟨h1, h2⟩ := List.mem_filter.1 hw
      exact hnone ⟨w, h1, by simpa using h2⟩

/-- Witness of C20 in binary64 arithmetic: the text of ten words `"a"` on a server without stop
words, followed by a second document. The term frequencies of the first document sum to
`1 - 2^-53`, within the bounds. -/
theorem C20_witness :
    (0 : ℚ) ≤ 1 / 2 ^ 53 ∧ (1 : ℚ) / 2 ^ 53 < 1 ∧ (0 : ℚ) ≤ 1 / 2 ^ 1022
    ∧ (∀ x : ℚ, 1 / 2 ^ 1022 ≤ x → abs (roundDouble x - x) ≤ 1 / 2 ^ 53 * x)
    ∧ Constructed (SearchServer.empty : SearchServer ℚ)
    ∧ callSucceeds roundDouble (addCalls roundDouble (SearchServer.empty : SearchServer ℚ) [])
        ⟨1, bytes "a a a a a a a a a a", DocumentStatus.ACTUAL, []⟩ = true
    ∧ (1 / 2 ^ 1022 : ℚ)
        * (((nonStopWords (SearchServer.empty : SearchServer ℚ)
            (bytes "a a a a a a a a a a")).length : ℚ) * (1 + 1 / 2 ^ 53)) ≤ 1 - 1 / 2 ^ 53
    ∧ (∃ w ∈ SplitIntoWords (bytes "a a a a a a a a a a"),
        IsStopWord (SearchServer.empty : SearchServer ℚ) w = false)
    ∧ (nonStopWords (SearchServer.empty : SearchServer ℚ) (bytes "a a a a a a a a a a")).length
        = 10
    ∧ ((CMap.keys (addCalls roundDouble (SearchServer.empty : SearchServer ℚ)
          ([] ++ (⟨1, bytes "a a a a a a a a a a", DocumentStatus.ACTUAL, []⟩ : AddCall)
            :: [⟨2, bytes "b", DocumentStatus.ACTUAL, [1]⟩])).word_to_document_freqs_).map
        (fun w => termFreq (addCalls roundDouble (SearchServer.empty : SearchServer ℚ)
          ([] ++ (⟨1, bytes "a a a a a a a a a a", DocumentStatus.ACTUAL, []⟩ : AddCall)
            :: [⟨2, bytes "b", DocumentStatus.ACTUAL, [1]⟩])) w 1)).sum = 1 - 1 / 2 ^ 53
    ∧ (1 - 1 / 2 ^ 53 : ℚ)
          ^ ((nonStopWords (SearchServer.empty : SearchServer ℚ)
              (bytes "a a a a a a a a a a")).length + 1)
          / (1 + 1 / 2 ^ 53)
        ≤ ((CMap.keys (addCalls roundDouble (SearchServer.empty : SearchServer ℚ)
          ([] ++ (⟨1, bytes "a a a a a a a a a a", DocumentStatus.ACTUAL, []⟩ : AddCall)
            :: [⟨2, bytes "b", DocumentStatus.ACTUAL, [1]⟩])).word_to_document_freqs_).map
        (fun w => termFreq (addCalls roundDouble (SearchServer.empty : SearchServer ℚ)
          ([] ++ (⟨1, bytes "a a a a a a a a a a", DocumentStatus.ACTUAL, []⟩ : AddCall)
            :: [⟨2, bytes "b", DocumentStatus.ACTUAL, [1]⟩])) w
          (⟨1, bytes "a a a a a a a a a a", DocumentStatus.ACTUAL, []⟩ : AddCall).document_id)).sum
    ∧ ((CMap.keys (addCalls roundDouble (SearchServer.empty : SearchServer ℚ)
          ([] ++ (⟨1, bytes "a a a a a a a a a a", DocumentStatus.ACTUAL, []⟩ : AddCall)
            :: [⟨2, bytes "b", DocumentStatus.ACTUAL, [1]⟩])).word_to_document_freqs_).map
        (fun w => termFreq (addCalls roundDouble (SearchServer.empty : SearchServer ℚ)
          ([] ++ (⟨1, bytes "a a a a a a a a a a", DocumentStatus.ACTUAL, []⟩ : AddCall)
            :: [⟨2, bytes "b", DocumentStatus.ACTUAL, [1]⟩])) w
          (⟨1, bytes "a a a a a a a a a a", DocumentStatus.ACTUAL, []⟩ : AddCall).document_id)).sum
        ≤ (1 + 1 / 2 ^ 53 : ℚ)
          ^ ((nonStopWords (SearchServer.empty : SearchServer ℚ)
              (bytes "a a a a a a a a a a")).length + 1)
          / (1 - 1 / 2 ^ 53) :=
  have hlen : (nonStopWords (SearchServer.empty : SearchServer ℚ)
      (bytes "a a a a a a a a a a")).length = 10 := by decide
  have hsmall : (1 / 2 ^ 1022 : ℚ)
      * (((nonStopWords (SearchServer.empty : SearchServer ℚ)
          (bytes "a a a a a a a a a a")).length : ℚ) * (1 + 1 / 2 ^ 53)) ≤ 1 - 1 / 2 ^ 53 := by
    rw [hlen]
    norm_num
  have h := (C20_term_frequencies_sum_near_one roundDouble (1 / 2 ^ 53) (1 / 2 ^ 1022)
    (by norm_num) (by norm_num) (by norm_num) roundDouble_error
    (SearchServer.empty : SearchServer ℚ) (Or.inl rfl) []
    [⟨2, bytes "b", DocumentStatus.ACTUAL, [1]⟩]
    ⟨1, bytes "a a a a a a a a a a", DocumentStatus.ACTUAL, []⟩
    (by decide!) hsmall).1 (by decide)
  ⟨by norm_num, by norm_num, by norm_num, roundDouble_error, Or.inl rfl, by decide!, hsmall,
    by decide, hlen, by decide!, h.1, h.2.1⟩

/-- Counterexample to C20 as stated, in binary64 arithmetic: on an empty server the text of ten
words `"a"` is added; its only term `"a"` stores the sum of ten times the `double` of
`1.0 / 10`, which is `1 - 2^-53`, so the term frequencies of the document do not sum to 1. -/
theorem C20_counterexample :
    Constructed (SearchServer.empty : SearchServer ℚ)
    ∧ callSucceeds roundDouble (addCalls roundDouble (SearchServer.empty : SearchServer ℚ) [])
        ⟨1, bytes "a a a a a a a a a a", DocumentStatus.ACTUAL, []⟩ = true
    ∧ (∃ w ∈ SplitIntoWords (bytes "a a a a a a a a a a"),
        IsStopWord (SearchServer.empty : SearchServer ℚ) w = false)
    ∧ CMap.keys (addCalls roundDouble (SearchServer.empty : SearchServer ℚ)
        [⟨1, bytes "a a a a a a a a a a", DocumentStatus.ACTUAL, []⟩]).word_to_document_freqs_
        = [bytes "a"]
    ∧ ((CMap.keys (addCalls roundDouble (SearchServer.empty : SearchServer ℚ)
          [⟨1, bytes "a a a a a a a a a a", DocumentStatus.ACTUAL, []⟩]).word_to_document_freqs_).map
        (fun w => termFreq (addCalls roundDouble (SearchServer.empty : SearchServer ℚ)
          [⟨1, bytes "a a a a a a a a a a", DocumentStatus.ACTUAL, []⟩]) w 1)).sum
        = 1 - 1 / 2 ^ 53
    ∧ ((CMap.keys (addCalls roundDouble (SearchServer.empty : SearchServer ℚ)
          [⟨1, bytes "a a a a a a a a a a", DocumentStatus.ACTUAL, []⟩]).word_to_document_freqs_).map
        (fun w => termFreq (addCalls roundDouble (SearchServer.empty : SearchServer ℚ)
          [⟨1, bytes "a a a a a a a a a a", DocumentStatus.ACTUAL, []⟩]) w 1)).sum ≠ 1 := by
  refine ⟨Or.inl rfl, by decide!, by decide, by decide!, by decide!, by decide!⟩


/-! ## `SplitIntoWords` on words and spaces (C18) -/

theorem splitLoop_no_space (text : Str) (words : List Str) (word : Str)
    (hwords : ∀ w ∈ words, cSpace ∉ w) (hword : cSpace ∉ word) :
    ∀ w ∈ SplitIntoWords.loop text words word, cSpace ∉ w := by
  induction text generalizing words word with
  | nil =>
    simp only [SplitIntoWords.loop]
    split_ifs with h
    · intro w hmem
      rcases List.mem_append.1 hmem with h1 | h1
      · exact hwords w h1
      · rw [List.mem_singleton.1 h1]; exact hword
    · exact hwords
  | cons c rest ih =>
    simp only [SplitIntoWords.loop]
    split_ifs with h1 h2
    · apply ih _ _ _ (List.not_mem_nil _)
      intro w hmem
      rcases List.mem_append.1 hmem with h3 | h3
      · exact hwords w h3
      · rw [List.mem_singleton.1 h3]; exact hword
    · exact ih _ _ hwords hword
    · apply ih _ _ hwords
      intro hmem
      rcases List.mem_append.1 hmem with h3 | h3
      · exact hword h3
      · exact h1 (List.mem_singleton.1 h3).symm

theorem splitLoop_spaces (n : Nat) (rest : Str) (words : List Str) :
    SplitIntoWords.loop (spaces n ++ rest) words [] = SplitIntoWords.loop rest words [] := by
  induction n with
  | zero => rfl
  | succ n ih =>
    have h : spaces (n + 1) ++ rest = cSpace :: (spaces n ++ rest) := by
      simp [spaces, List.replicate_succ]
    rw [h]
    simp only [SplitIntoWords.loop, if_true, ne_eq, not_true_eq_false, if_false]
    exact ih

theorem splitLoop_word (w rest : Str) (words : List Str) (word : Str) (hw : cSpace ∉ w) :
    SplitIntoWords.loop (w ++ rest) words word = SplitIntoWords.loop rest words (word ++ w) := by
  induction w generalizing word with
  | nil => simp
  | cons c t ih =>
    have hc : ¬ c = cSpace := fun e => hw (e ▸ List.mem_cons_self _ _)
    have ht : cSpace ∉ t := fun h => hw (List.mem_cons_of_mem _ h)
    rw [List.cons_append]
    simp only [SplitIntoWords.loop, hc, if_false]
    rw [ih _ ht]
    simp

theorem splitLoop_flush (n : Nat) (rest : Str) (words : List Str) (word : Str) (hword : word ≠ []) :
    SplitIntoWords.loop (spaces (n + 1) ++ rest) words word
      = SplitIntoWords.loop rest (words ++ [word]) [] := by
  have h : spaces (n + 1) ++ rest = cSpace :: (spaces n ++ rest) := by
    simp [spaces, List.replicate_succ]
  rw [h]
  simp only [SplitIntoWords.loop, if_true, ne_eq, hword, not_false_eq_true]
  exact splitLoop_spaces n rest (words ++ [word])

theorem splitLoop_trailing (n : Nat) (words : List Str) (word : Str) (hword : word ≠ []) :
    SplitIntoWords.loop (spaces n) words word = words ++ [word] := by
  cases n with
  | zero => simp [spaces, SplitIntoWords.loop, hword]
  | succ n =>
    have h := splitLoop_flush n [] words word hword
    rw [List.append_nil] at h
    rw [h]
    simp [SplitIntoWords.loop]

theorem spacedText_lead (lead : Nat) (l : List (Str × Nat)) :
    spacedText lead l = spaces lead ++ spacedText 0 l := by
  have h0 : spaces 0 = [] := rfl
  match l with
  | [] => simp [spacedText, h0]
  | [(w, g)] => simp [spacedText, h0]
  | (w, g) :: next :: rest => simp [spacedText, h0]

theorem splitLoop_spacedText (l : List (Str × Nat)) (hl : ∀ e ∈ l, e.1 ≠ [] ∧ cSpace ∉ e.1)
    (lead : Nat) (words : List Str) :
    SplitIntoWords.loop (spacedText lead l) words [] = words ++ l.map Prod.fst := by
  induction l generalizing lead words with
  | nil =>
    have h := splitLoop_spaces lead [] words
    rw [List.append_nil] at h
    simp [spacedText, h, SplitIntoWords.loop]
  | cons e rest ih =>
    obtain ⟨w, g⟩ := e
    have hw := hl (w, g) (List.mem_cons_self _ _)
    have hrest : ∀ e ∈ rest, e.1 ≠ [] ∧ cSpace ∉ e.1 :=
      fun e he => hl e (List.mem_cons_of_mem _ he)
    cases rest with
    | nil =>
      simp only [spacedText, List.append_assoc]
      rw [splitLoop_spaces, splitLoop_word _ _ _ _ hw.2, List.nil_append,
        splitLoop_trailing g words w hw.1]
      simp
    | cons next rest' =>
      simp only [spacedText, List.append_assoc]
      rw [splitLoop_spaces, splitLoop_word _ _ _ _ hw.2, List.nil_append,
        spacedText_lead (g + 1), splitLoop_flush g _ words w hw.1, ih hrest 0]
      simp

/-- C18. Every token returned by `SplitIntoWords` is non-empty and free of spaces; and a text
written from non-empty space-free words, with any number of spaces before the first and after
the last and at least one space between neighbours, is split back into exactly these words, in
order (so a text of spaces alone gives the empty list). -/
theorem C18_SplitIntoWords (text : Str) (lead : Nat) (l : List (Str × Nat))
    (hl : ∀ e ∈ l, e.1 ≠ [] ∧ cSpace ∉ e.1) :
    (∀ w ∈ SplitIntoWords text, w ≠ [] ∧ cSpace ∉ w)
    ∧ SplitIntoWords (spacedText lead l) = l.map Prod.fst
    ∧ SplitIntoWords (spaces lead) = [] := by
  refine ⟨fun w hw => ⟨splitIntoWords_ne_nil text w hw, ?_⟩, ?_, ?_⟩
  · exact splitLoop_no_space text [] [] (fun _ h => absurd h (List.not_mem_nil _))
      (List.not_mem_nil _) w hw
  · have h := splitLoop_spacedText l hl lead []
    rw [List.nil_append] at h
    exact h
  · have h := splitLoop_spacedText [] (fun _ h => absurd h (List.not_mem_nil _)) lead []
    exact h

/-- Witness of C18: the words `"пушистый"`, `"кот"`, `"хвост"` written with two leading spaces,
runs of one and three spaces between them and one trailing space. -/
theorem C18_witness :
    (∀ e ∈ [(bytes "пушистый", 0), (bytes "кот", 2), (bytes "хвост", 1)], e.1 ≠ [] ∧ cSpace ∉ e.1)
    ∧ spacedText 2 [(bytes "пушистый", 0), (bytes "кот", 2), (bytes "хвост", 1)]
        = bytes "  пушистый кот   хвост "
    ∧ (∀ w ∈ SplitIntoWords (bytes "пушистый кот пушистый хвост"), w ≠ [] ∧ cSpace ∉ w)
    ∧ SplitIntoWords (spacedText 2 [(bytes "пушистый", 0), (bytes "кот", 2), (bytes "хвост", 1)])
        = [(bytes "пушистый", 0), (bytes "кот", 2), (bytes "хвост", 1)].map Prod.fst
    ∧ SplitIntoWords (spaces 2) = [] :=
  ⟨by decide, by decide,
    C18_SplitIntoWords (bytes "пушистый кот пушистый хвост") 2
      [(bytes "пушистый", 0), (bytes "кот", 2), (bytes "хвост", 1)] (by decide)⟩


/-! ## The ranking relation and stop words in queries (C15, C16) -/

namespace SearchServer

variable {R : Type} {rnd : R → R}

theorem compareDocuments_iff [LinearOrderedField R] (a b : Document R) :
    compareDocuments rnd a b = true ↔
      (abs (rnd (a.relevance - b.relevance)) < EPSILON rnd ∧ a.rating > b.rating)
      ∨ (¬ abs (rnd (a.relevance - b.relevance)) < EPSILON rnd ∧ a.relevance > b.relevance) := by
  unfold compareDocuments
  by_cases h : abs (rnd (a.relevance - b.relevance)) < EPSILON rnd
  · simp [h]
  · simp [h]

theorem compareDocuments_irrefl [LinearOrderedField R] (a : Document R) :
    compareDocuments rnd a a = false := by
  unfold compareDocuments
  split_ifs <;> simp

theorem parseWord_minus_not_stop (s : SearchServer R) (query : Query) (word : Str)
    (h : ∀ w ∈ query.minus_words, IsStopWord s w = false) :
    ∀ w ∈ (parseWord s query word).minus_words, IsStopWord s w = false := by
  simp only [parseWord]
  split_ifs with h1 h2
  · intro w hw
    rcases (CSet.mem_insert _ _ _).1 hw with h3 | h3
    · subst h3; simpa using h2
    · exact h w h3
  · exact h
  · exact h

theorem foldl_parseWord_minus_not_stop (s : SearchServer R) (words : List Str) (query : Query)
    (h : ∀ w ∈ query.minus_words, IsStopWord s w = false) :
    ∀ w ∈ (words.foldl (parseWord s) query).minus_words, IsStopWord s w = false := by
  induction words generalizing query with
  | nil => exact h
  | cons a rest ih => exact ih _ (parseWord_minus_not_stop s query a h)

/-- What holds of the stop words in a parsed query: none is a minus word. -/
theorem parseQuery_minus_not_stop (s : SearchServer R) (text : Str) (query : Query)
    (hq : ParseQuery s text = .ok query) : ∀ w ∈ query.minus_words, IsStopWord s w = false := by
  unfold ParseQuery at hq
  split at hq
  · exact absurd hq (by simp)
  · simp only [Except.ok.injEq] at hq
    subst hq
    exact foldl_parseWord_minus_not_stop s _ _ (fun _ h => absurd h (List.not_mem_nil _))

end SearchServer

/-- C15, amended. The relation that `FindTopDocuments` sorts by takes two relevances for a near
tie when their difference, computed as a `double`, has an absolute value less than the `double`
`1e-6`; `a` precedes `b` when they are a near tie and `a.rating > b.rating`, or they are not and
`a.relevance > b.relevance`. It is irreflexive. Let the rounding keep zero, commute with
negation and be monotone, and let the `double` `1e-6` be positive (`RoundsToNearest`): then the
relation is asymmetric, and on every set of records on which being a near tie is transitive, it
is transitive and its incomparability relation is transitive. -/
theorem C15_ranking_relation {R : Type} [LinearOrderedField R] (rnd : R → R)
    (hrnd : RoundsToNearest rnd) (S : Document R → Prop)
    (hS : ∀ x y z : Document R, S x → S y → S z →
      abs (rnd (x.relevance - y.relevance)) < EPSILON rnd →
      abs (rnd (y.relevance - z.relevance)) < EPSILON rnd →
      abs (rnd (x.relevance - z.relevance)) < EPSILON rnd) :
    (∀ a b : Document R, compareDocuments rnd a b = true ↔
      (abs (rnd (a.relevance - b.relevance)) < EPSILON rnd ∧ a.rating > b.rating)
      ∨ (¬ abs (rnd (a.relevance - b.relevance)) < EPSILON rnd ∧ a.relevance > b.relevance))
    ∧ (∀ a : Document R, compareDocuments rnd a a = false)
    ∧ (∀ a b : Document R, compareDocuments rnd a b = true → compareDocuments rnd b a = false)
    ∧ (∀ a b c : Document R, S a → S b → S c →
        compareDocuments rnd a b = true → compareDocuments rnd b c = true →
        compareDocuments rnd a c = true)
    ∧ (∀ a b c : Document R, S a → S b → S c →
        (compareDocuments rnd a b = false ∧ compareDocuments rnd b a = false) →
        (compareDocuments rnd b c = false ∧ compareDocuments rnd c b = false) →
        (compareDocuments rnd a c = false ∧ compareDocuments rnd c a = false)) := by
  have hle : ∀ a b c : Document R, S a → S b → S c →
      compareDocuments rnd b a = false → compareDocuments rnd c b = false →
      compareDocuments rnd c a = false :=
    fun a b c ha hb hc => compareDocuments_trans hrnd a b c (hS a b c ha hb hc)
      (hS a c b ha hc hb) (hS b a c hb ha hc)
  refine ⟨compareDocuments_iff, compareDocuments_irrefl, compareDocuments_asymm hrnd, ?_, ?_⟩
  · intro a b c ha hb hc hab hbc
    by_contra hac
    have hac' : compareDocuments rnd a c = false := by simpa using hac
    have hba := compareDocuments_asymm hrnd a b hab
    have := hle c a b hc ha hb hac' hba
    rw [hbc] at this
    exact Bool.noConfusion this
  · rintro a b c ha hb hc ⟨hab, hba⟩ ⟨hbc, hcb⟩
    exact ⟨hle c b a hc hb ha hbc hab, hle a b c ha hb hc hba hcb⟩

/-- Witness of C15 in binary64 arithmetic: the records with a relevance of 0, `2^-22` or 1. The
relevances 0 and `2^-22` are a near tie, the relevance 1 is a near tie of neither, and being a
near tie is transitive among the three. -/
theorem C15_witness :
    RoundsToNearest roundDouble
    ∧ (∀ x y z : Document ℚ,
      (x.relevance = 0 ∨ x.relevance = 1 / 2 ^ 22 ∨ x.relevance = 1) →
      (y.relevance = 0 ∨ y.relevance = 1 / 2 ^ 22 ∨ y.relevance = 1) →
      (z.relevance = 0 ∨ z.relevance = 1 / 2 ^ 22 ∨ z.relevance = 1) →
      abs (roundDouble (x.relevance - y.relevance)) < EPSILON roundDouble →
      abs (roundDouble (y.relevance - z.relevance)) < EPSILON roundDouble →
      abs (roundDouble (x.relevance - z.relevance)) < EPSILON roundDouble)
    ∧ abs (roundDouble ((0 : ℚ) - 1 / 2 ^ 22)) < EPSILON roundDouble
    ∧ ¬ abs (roundDouble ((1 : ℚ) - 1 / 2 ^ 22)) < EPSILON roundDouble
    ∧ compareDocuments roundDouble (⟨1, 1, 0⟩ : Document ℚ) ⟨2, 1 / 2 ^ 22, 5⟩ = true
    ∧ compareDocuments roundDouble (⟨2, 1 / 2 ^ 22, 5⟩ : Document ℚ) ⟨3, 0, 3⟩ = true
    ∧ compareDocuments roundDouble (⟨1, 1, 0⟩ : Document ℚ) ⟨3, 0, 3⟩ = true := by
  have hS : ∀ x y z : Document ℚ,
      (x.relevance = 0 ∨ x.relevance = 1 / 2 ^ 22 ∨ x.relevance = 1) →
      (y.relevance = 0 ∨ y.relevance = 1 / 2 ^ 22 ∨ y.relevance = 1) →
      (z.relevance = 0 ∨ z.relevance = 1 / 2 ^ 22 ∨ z.relevance = 1) →
      abs (roundDouble (x.relevance - y.relevance)) < EPSILON roundDouble →
      abs (roundDouble (y.relevance - z.relevance)) < EPSILON roundDouble →
      abs (roundDouble (x.relevance - z.relevance)) < EPSILON roundDouble := by
    intro x y z hx hy hz
    rcases hx with hx | hx | hx <;> rcases hy with hy | hy | hy <;>
      rcases hz with hz | hz | hz <;> rw [hx, hy, hz] <;> decide!
  have h1 : compareDocuments roundDouble (⟨1, 1, 0⟩ : Document ℚ) ⟨2, 1 / 2 ^ 22, 5⟩ = true := by
    decide!
  have h2 : compareDocuments roundDouble (⟨2, 1 / 2 ^ 22, 5⟩ : Document ℚ) ⟨3, 0, 3⟩ = true := by
    decide!
  exact ⟨roundsToNearest_roundDouble, hS, by decide!, by decide!, h1, h2,
    (C15_ranking_relation roundDouble roundsToNearest_roundDouble
      (fun d : Document ℚ => d.relevance = 0 ∨ d.relevance = 1 / 2 ^ 22 ∨ d.relevance = 1)
      hS).2.2.2.1 ⟨1, 1, 0⟩ ⟨2, 1 / 2 ^ 22, 5⟩ ⟨3, 0, 3⟩ (Or.inr (Or.inr rfl))
      (Or.inr (Or.inl rfl)) (Or.inl rfl) h1 h2⟩

/-- The comparator in exact arithmetic, on two relevances in a near tie and on two that are
not. -/
theorem compareDocuments_exact (x y : ℝ) (i j p q : Int) :
    (-(1 / 1000000) < x - y → x - y < 1 / 1000000 →
      compareDocuments id (⟨i, x, p⟩ : Document ℝ) ⟨j, y, q⟩ = decide (p > q))
    ∧ (1 / 1000000 ≤ abs (x - y) →
      compareDocuments id (⟨i, x, p⟩ : Document ℝ) ⟨j, y, q⟩ = decide (x > y)) := by
  constructor
  · intro h1 h2
    unfold compareDocuments EPSILON
    simp only [id]
    rw [if_pos (abs_lt.2 ⟨h1, h2⟩)]
  · intro h
    unfold compareDocuments EPSILON
    simp only [id]
    rw [if_neg (not_lt.2 h)]

/-- Counterexample to C15 as stated. In exact arithmetic over the reals: with relevances 0,
0.6e-6 and 1.2e-6 and ratings 3, 2, 1 the first record precedes the second and the second the
third, but the first does not precede the third (the third precedes the first), so the relation
is not transitive; with the same relevances and equal ratings the first and second, and the
second and third, are incomparable, but the third precedes the first, so incomparability is not
transitive. In binary64 arithmetic the same holds of the relevances 0, `5 * 2^-23` and
`10 * 2^-23`. Moreover the relation that the code sorts by is not the relation of the claim:
the `double` `1e-6` is less than `10^-6`, so the relevances `1e-6` and 0 differ by less than
`10^-6` and the comparator does not take them for a near tie. -/
theorem C15_counterexample :
    (compareDocuments id (⟨1, 0, 3⟩ : Document ℝ) ⟨2, 6 / 10000000, 2⟩ = true
    ∧ compareDocuments id (⟨2, 6 / 10000000, 2⟩ : Document ℝ) ⟨3, 12 / 10000000, 1⟩ = true
    ∧ compareDocuments id (⟨1, 0, 3⟩ : Document ℝ) ⟨3, 12 / 10000000, 1⟩ = false
    ∧ compareDocuments id (⟨3, 12 / 10000000, 1⟩ : Document ℝ) ⟨1, 0, 3⟩ = true
    ∧ (compareDocuments id (⟨1, 0, 1⟩ : Document ℝ) ⟨2, 6 / 10000000, 1⟩ = false
        ∧ compareDocuments id (⟨2, 6 / 10000000, 1⟩ : Document ℝ) ⟨1, 0, 1⟩ = false)
    ∧ (compareDocuments id (⟨2, 6 / 10000000, 1⟩ : Document ℝ) ⟨3, 12 / 10000000, 1⟩ = false
        ∧ compareDocuments id (⟨3, 12 / 10000000, 1⟩ : Document ℝ) ⟨2, 6 / 10000000, 1⟩ = false)
    ∧ compareDocuments id (⟨3, 12 / 10000000, 1⟩ : Document ℝ) ⟨1, 0, 1⟩ = true)
    ∧ (compareDocuments roundDouble (⟨1, 0, 3⟩ : Document ℚ) ⟨2, 5 / 2 ^ 23, 2⟩ = true
    ∧ compareDocuments roundDouble (⟨2, 5 / 2 ^ 23, 2⟩ : Document ℚ) ⟨3, 10 / 2 ^ 23, 1⟩ = true
    ∧ compareDocuments roundDouble (⟨1, 0, 3⟩ : Document ℚ) ⟨3, 10 / 2 ^ 23, 1⟩ = false
    ∧ compareDocuments roundDouble (⟨3, 10 / 2 ^ 23, 1⟩ : Document ℚ) ⟨1, 0, 3⟩ = true
    ∧ (compareDocuments roundDouble (⟨1, 0, 1⟩ : Document ℚ) ⟨2, 5 / 2 ^ 23, 1⟩ = false
        ∧ compareDocuments roundDouble (⟨2, 5 / 2 ^ 23, 1⟩ : Document ℚ) ⟨1, 0, 1⟩ = false)
    ∧ (compareDocuments roundDouble (⟨2, 5 / 2 ^ 23, 1⟩ : Document ℚ) ⟨3, 10 / 2 ^ 23, 1⟩ = false
        ∧ compareDocuments roundDouble (⟨3, 10 / 2 ^ 23, 1⟩ : Document ℚ) ⟨2, 5 / 2 ^ 23, 1⟩
          = false)
    ∧ compareDocuments roundDouble (⟨3, 10 / 2 ^ 23, 1⟩ : Document ℚ) ⟨1, 0, 1⟩ = true)
    ∧ (abs (roundDouble (1 / 1000000) - 0) < (1 : ℚ) / 1000000
    ∧ ¬ abs (roundDouble (roundDouble (1 / 1000000) - 0)) < EPSILON roundDouble
    ∧ compareDocuments roundDouble (⟨1, roundDouble (1 / 1000000), 1⟩ : Document ℚ) ⟨3, 0, 3⟩
        = true) := by
  refine ⟨⟨?_, ?_, ?_, ?_, ⟨?_, ?_⟩, ⟨?_, ?_⟩, ?_⟩, by decide!, by decide!⟩
  · rw [(compareDocuments_exact _ _ _ _ _ _).1 (by norm_num) (by norm_num)]; decide
  · rw [(compareDocuments_exact _ _ _ _ _ _).1 (by norm_num) (by norm_num)]; decide
  · rw [(compareDocuments_exact _ _ _ _ _ _).2 (by rw [abs_sub_comm, abs_of_nonneg] <;> norm_num)]
    simp only [decide_eq_false_iff_not, gt_iff_lt, not_lt]
    norm_num
  · rw [(compareDocuments_exact _ _ _ _ _ _).2 (by rw [abs_of_nonneg] <;> norm_num)]
    simp only [decide_eq_true_eq, gt_iff_lt]
    norm_num
  · rw [(compareDocuments_exact _ _ _ _ _ _).1 (by norm_num) (by norm_num)]; decide
  · rw [(compareDocuments_exact _ _ _ _ _ _).1 (by norm_num) (by norm_num)]; decide
  · rw [(compareDocuments_exact _ _ _ _ _ _).1 (by norm_num) (by norm_num)]; decide
  · rw [(compareDocuments_exact _ _ _ _ _ _).1 (by norm_num) (by norm_num)]; decide
  · rw [(compareDocuments_exact _ _ _ _ _ _).2 (by rw [abs_of_nonneg] <;> norm_num)]
    simp only [decide_eq_true_eq, gt_iff_lt]
    norm_num

/-- C16, the code at a failing input. With the stop words `"и в на"` of `main`, the query
`"пушистый -и"` passes validation, and the `Query` returned by `ParseQuery` has the stop word
`"и"` among its plus words: the token `-и` is not a stop word, and the word left after the minus
sign is inserted into `plus_words` without the stop-word test that guards `minus_words`. -/
theorem C16_stop_word_in_plus_words :
    bytes "пушистый -и" ≠ []
    ∧ checkQueryWords (SplitIntoWords (bytes "пушистый -и")) = .ok ()
    ∧ IsStopWord (mainServer ℚ) (bytes "и") = true
    ∧ ParseQuery (mainServer ℚ) (bytes "пушистый -и") = .ok ⟨[bytes "и", bytes "пушистый"], []⟩
    ∧ bytes "и" ∈ ([bytes "и", bytes "пушистый"] : List Str) := by
  decide
